import Mathlib

/-!
Verification development for the HarvestClad crawler (src/crawl.py).

The crawler's URL handling is built on Python's urllib.parse; its storage layer
is SQLite accessed through DatabaseManager.  This file gives a shallow
embedding of the relevant code:

* Python strings are modelled as lists of Unicode code points (PyStr := List Nat).
  This matches CPython, whose str type is a sequence of code points; string
  literals of the repository enter through str2l.
* urllib.parse functions (urlsplit, urlparse, urlunsplit, urlunparse, urljoin,
  parse_qsl, parse_qs, urlencode, quote_plus, unquote) are translated from
  CPython 3.11 Lib/urllib/parse.py, which the crawler imports.
* The SQLite tables are modelled as in-memory lists of rows with explicit
  state passing; AUTOINCREMENT ids are a nextId counter, timestamps are an
  abstract Nat supplied by the caller, and SHA-256 hashing (url_hash) is
  modelled as an injective key function (the code relies on collision
  freedom of SHA-256; see urlHash below).
* BeautifulSoup documents are modelled as a tree of nodes; multi-valued
  attributes (rel) are tokenized on whitespace at access time, as
  html.parser does.

Known modelling simplifications, each marked at the definition site:
str.lower is ASCII lowercasing (the crawler's hosts and schemes are ASCII);
the IPv6-bracket and NFKC netloc validation raises of urlsplit are omitted
(no claim exercises bracketed or non-ASCII netlocs).
-/

namespace Crawl

/-- Python str modelled as its sequence of Unicode code points. -/
abbrev PyStr := List Nat

/-- Conversion of a Lean string literal to the PyStr model. -/
def str2l (s : String) : PyStr := s.data.map Char.toNat

/-- Python str.lower on one code point, restricted to ASCII.  CPython performs
full Unicode lowercasing; every scheme, host and tracking key handled by the
claims is ASCII, where the two agree. -/
def lowerChar (n : Nat) : Nat := if 65 ≤ n ∧ n ≤ 90 then n + 32 else n

/-- Python str.lower (ASCII fragment, see lowerChar). -/
def pyLower (s : PyStr) : PyStr := s.map lowerChar

/-- Python str.isascii() and str.isalpha() combined on one code point, as used
by the scheme check of urlsplit (url[0].isascii() and url[0].isalpha()). -/
def isAsciiAlphaCode (n : Nat) : Bool := (65 ≤ n ∧ n ≤ 90) ∨ (97 ≤ n ∧ n ≤ 122)

/-- ASCII digit code point. -/
def isDigitCode (n : Nat) : Bool := 48 ≤ n ∧ n ≤ 57

/-- Membership in scheme_chars of urllib.parse: letters, digits and plus,
minus, dot. -/
def isSchemeChar (n : Nat) : Bool :=
  isAsciiAlphaCode n || isDigitCode n || n = 43 || n = 45 || n = 46

/-- Split a Python string at the first occurrence of code point c, returning
the parts before and after it, or none when c does not occur.  This is
s.split(c, 1) when c occurs in s. -/
def splitOnce (c : Nat) : PyStr → Option (PyStr × PyStr)
  | [] => none
  | x :: xs =>
    if x = c then some ([], xs)
    else (splitOnce c xs).map (fun p => (x :: p.1, p.2))

/-- Python's pattern `if c in s: a, b = s.split(c, 1)` with b empty when c is
absent, as urlsplit applies it to the fragment and query separators. -/
def splitFirst (c : Nat) (l : PyStr) : PyStr × PyStr :=
  match splitOnce c l with
  | some p => p
  | none => (l, [])

/-- Python s.rsplit(c, 1)[0]: everything before the last occurrence of c, or
the whole string when c is absent. -/
def beforeLast (c : Nat) (l : PyStr) : PyStr :=
  match splitOnce c l.reverse with
  | some p => p.2.reverse
  | none => l

/-- Python s.startswith for a literal, on code-point lists. -/
def startsL (pre l : PyStr) : Bool := l.take pre.length == pre

/-- Python s.endswith for a literal, on code-point lists. -/
def endsL (suf l : PyStr) : Bool := l.reverse.take suf.length == suf.reverse

/-- Python substring containment (needle in hay on str): needle occurs
contiguously somewhere in hay. -/
def pyIn (needle : PyStr) : PyStr → Bool
  | [] => needle.isEmpty
  | c :: rest => startsL needle (c :: rest) || pyIn needle rest

/-! ### quote_plus / unquote (urllib.parse)

quote_plus(s, safe='') maps space to a plus sign, keeps the always-safe
code points (letters, digits, underscore, dot, minus, tilde) and
percent-encodes the UTF-8 bytes of every other character with uppercase hex
digits.  CPython implements this bytewise after encoding the whole string;
per character the two formulations coincide because the always-safe bytes and
the space are exactly the bytes that stay literal, and multi-byte UTF-8
sequences contain no space byte. -/

/-- Membership in _ALWAYS_SAFE of urllib.parse. -/
def isAlwaysSafeCode (n : Nat) : Bool :=
  isAsciiAlphaCode n || isDigitCode n || n = 95 || n = 46 || n = 45 || n = 126

/-- UTF-8 encoding of one code point (valid for n < 0x110000 outside the
surrogate range, the contract of str.encode with errors='strict'). -/
def utf8Enc (n : Nat) : List Nat :=
  if n < 0x80 then [n]
  else if n < 0x800 then [0xC0 + n / 64, 0x80 + n % 64]
  else if n < 0x10000 then [0xE0 + n / 4096, 0x80 + n / 64 % 64, 0x80 + n % 64]
  else [0xF0 + n / 262144, 0x80 + n / 4096 % 64, 0x80 + n / 64 % 64, 0x80 + n % 64]

/-- Uppercase hex digit of a value below 16, as the percent encoder formats
bytes with '%{:02X}'. -/
def hexDigitUpper (n : Nat) : Nat := if n < 10 then 48 + n else 55 + n

/-- Percent escape of one byte. -/
def pctEscape (b : Nat) : PyStr := [37, hexDigitUpper (b / 16), hexDigitUpper (b % 16)]

/-- quote_plus on one code point; see the section comment. -/
def quotePlusChar (n : Nat) : PyStr :=
  if n = 32 then [43]
  else if isAlwaysSafeCode n then [n]
  else (utf8Enc n).flatMap pctEscape

/-- urllib.parse.quote_plus with safe=''. -/
def pyQuotePlus (s : PyStr) : PyStr := s.flatMap quotePlusChar

/-- Numeric value of a hex digit code point, in either case, as _hextobyte
accepts both cases. -/
def hexVal (n : Nat) : Option Nat :=
  if 48 ≤ n ∧ n ≤ 57 then some (n - 48)
  else if 65 ≤ n ∧ n ≤ 70 then some (n - 55)
  else if 97 ≤ n ∧ n ≤ 102 then some (n - 87)
  else none

/-- Intermediate token stream of unquote: literal code points interleaved with
percent-decoded bytes. -/
inductive UnqTok where
  | lit (c : Nat)
  | byte (b : Nat)
deriving DecidableEq

/-- Tokenization pass of unquote: a percent sign followed by two hex digits
becomes a byte, any other character is literal.  This reproduces
unquote_to_bytes, which splits on percent signs and keeps an invalid escape
(too short or non-hex) literally. -/
def unqTokens : PyStr → List UnqTok
  | [] => []
  | 37 :: c1 :: c2 :: rest2 =>
    (match hexVal c1, hexVal c2 with
     | some h1, some h2 => UnqTok.byte (16 * h1 + h2) :: unqTokens rest2
     | _, _ => UnqTok.lit 37 :: unqTokens (c1 :: c2 :: rest2))
  | 37 :: rest => UnqTok.lit 37 :: unqTokens rest
  | c :: rest => UnqTok.lit c :: unqTokens rest

/-- Replacement character emitted by bytes.decode(errors='replace'). -/
def REPL : Nat := 0xFFFD

/-- Lower bound of the second byte of a three-byte UTF-8 sequence. -/
def cont2Lo (b : Nat) : Nat := if b = 0xE0 then 0xA0 else 0x80

/-- Upper bound of the second byte of a three-byte UTF-8 sequence (0xED caps
at 0x9F, excluding surrogates). -/
def cont2Hi (b : Nat) : Nat := if b = 0xED then 0x9F else 0xBF

/-- Lower bound of the second byte of a four-byte UTF-8 sequence. -/
def cont3Lo (b : Nat) : Nat := if b = 0xF0 then 0x90 else 0x80

/-- Upper bound of the second byte of a four-byte UTF-8 sequence (0xF4 caps
at 0x8F, the end of plane 16). -/
def cont3Hi (b : Nat) : Nat := if b = 0xF4 then 0x8F else 0xBF

/-- UTF-8 continuation byte. -/
def isCont (b : Nat) : Bool := 0x80 ≤ b ∧ b ≤ 0xBF

/-- Pending prefix of a multi-byte UTF-8 sequence during decoding: the lead
byte and the continuation bytes collected so far. -/
inductive Pending where
  | p1 (b0 : Nat)
  | p2 (b0 c1 : Nat)
  | p3 (b0 c1 c2 : Nat)
deriving DecidableEq

/-- Whether b is a valid byte directly after the lead byte b0 (the
constrained second-byte ranges exclude overlong forms, surrogates and
post-plane-16 values, CPython's strict decoder). -/
def contOK1 (b0 b : Nat) : Bool :=
  if b0 ≤ 0xDF then isCont b
  else if b0 ≤ 0xEF then cont2Lo b0 ≤ b ∧ b ≤ cont2Hi b0
  else cont3Lo b0 ≤ b ∧ b ≤ cont3Hi b0

/-- Processing of one token from a fresh decoder state. -/
def unqStart : UnqTok → PyStr × Option Pending
  | UnqTok.lit c => ([c], none)
  | UnqTok.byte b =>
    if b < 0x80 then ([b], none)
    else if (0xC2 ≤ b ∧ b ≤ 0xDF) ∨ (0xE0 ≤ b ∧ b ≤ 0xEF) ∨ (0xF0 ≤ b ∧ b ≤ 0xF4) then
      ([], some (Pending.p1 b))
    else ([REPL], none)

/-- One step of the UTF-8 errors='replace' decoder: either extend or complete
the pending sequence, or emit one replacement character for its maximal
subpart and reprocess the current token from a fresh state. -/
def unqStep (pend : Option Pending) (t : UnqTok) : PyStr × Option Pending :=
  match pend, t with
  | none, t => unqStart t
  | some (Pending.p1 b0), UnqTok.byte b =>
    if contOK1 b0 b then
      if b0 ≤ 0xDF then ([(b0 - 0xC0) * 64 + (b - 0x80)], none)
      else ([], some (Pending.p2 b0 b))
    else
      let r := unqStart (UnqTok.byte b)
      (REPL :: r.1, r.2)
  | some (Pending.p2 b0 c1), UnqTok.byte b =>
    if isCont b then
      if b0 ≤ 0xEF then ([(b0 - 0xE0) * 4096 + (c1 - 0x80) * 64 + (b - 0x80)], none)
      else ([], some (Pending.p3 b0 c1 b))
    else
      let r := unqStart (UnqTok.byte b)
      (REPL :: r.1, r.2)
  | some (Pending.p3 b0 c1 c2), UnqTok.byte b =>
    if isCont b then
      ([(b0 - 0xF0) * 262144 + (c1 - 0x80) * 4096 + (c2 - 0x80) * 64 + (b - 0x80)], none)
    else
      let r := unqStart (UnqTok.byte b)
      (REPL :: r.1, r.2)
  | some _, UnqTok.lit c => ([REPL, c], none)

/-- Decoding pass of unquote: byte runs are decoded as UTF-8 with
errors='replace' (one replacement character per maximal subpart, CPython's
strict decoder policy), literal characters pass through.  A literal token
terminates a pending sequence exactly as an ASCII byte would, so
interleaving literals with byte runs matches CPython's chunkwise decoding.
A pending sequence at end of input flushes as one replacement character. -/
def unqRun (pend : Option Pending) : List UnqTok → PyStr
  | [] => match pend with
          | none => []
          | some _ => [REPL]
  | t :: ts =>
    let r := unqStep pend t
    r.1 ++ unqRun r.2 ts

/-- urllib.parse.unquote with UTF-8 and errors='replace'. -/
def pyUnquote (s : PyStr) : PyStr := unqRun none (unqTokens s)

/-- Python str.replace applied to turn plus into space, the first step
parse_qsl applies to each name and value. -/
def plusToSpace (s : PyStr) : PyStr := s.map (fun c => if c = 43 then 32 else c)

/-- Code point that str.encode('utf-8') accepts: below the Unicode ceiling
and not a lone surrogate.  quote_plus raises UnicodeEncodeError outside this
set, so statements about the query pipeline quantify over it. -/
def validChar (c : Nat) : Bool := c < 0xD800 ∨ (0xE000 ≤ c ∧ c < 0x110000)

/-! ### parse_qsl / parse_qs / urlencode -/

/-- Python s.split(sep) for a one-character separator on a nonempty string;
parse_qsl guards the empty string itself. -/
def pySplitAll (c : Nat) (l : PyStr) : List PyStr := l.splitOn c

/-- urllib.parse.parse_qsl with the default keep_blank_values=False: empty
fields and fields without an equals sign or with an empty value are dropped;
names and values have plus replaced by space and are percent-unquoted. -/
def parse_qsl (qs : PyStr) : List (PyStr × PyStr) :=
  if qs = [] then []
  else (pySplitAll 38 qs).filterMap (fun nv =>
    if nv = [] then none
    else match splitOnce 61 nv with
      | none => none
      | some p =>
        if p.2 = [] then none
        else some (pyUnquote (plusToSpace p.1), pyUnquote (plusToSpace p.2)))

/-- Insertion of one parsed pair into the result dict of parse_qs: append to
the multi-value list of an existing key, else add the key at the end
(Python dicts preserve insertion order). -/
def qsInsert (acc : List (PyStr × List PyStr)) (k : PyStr) (v : PyStr) :
    List (PyStr × List PyStr) :=
  if acc.any (fun kv => kv.1 == k) then
    acc.map (fun kv => if kv.1 == k then (kv.1, kv.2 ++ [v]) else kv)
  else acc ++ [(k, [v])]

/-- urllib.parse.parse_qs: group the pairs of parse_qsl by name, in insertion
order, keeping multi-values in order. -/
def parse_qs (qs : PyStr) : List (PyStr × List PyStr) :=
  (parse_qsl qs).foldl (fun acc p => qsInsert acc p.1 p.2) []

/-- urllib.parse.urlencode with doseq=True over a list of
(key, list of values) pairs, quoting each part with quote_plus and joining
with ampersands. -/
def pyUrlencode (l : List (PyStr × List PyStr)) : PyStr :=
  List.intercalate [38]
    (l.flatMap (fun kv => kv.2.map (fun v => pyQuotePlus kv.1 ++ 61 :: pyQuotePlus v)))

/-- Python string comparison: lexicographic on code points. -/
def pyStrLt : PyStr → PyStr → Bool
  | [], [] => false
  | [], _ :: _ => true
  | _ :: _, [] => false
  | a :: l1, b :: l2 => if a < b then true else if b < a then false else pyStrLt l1 l2

/-- Python comparison of lists of strings, lexicographic, as tuple comparison
falls back to it when two keys are equal. -/
def pyStrListLt : List PyStr → List PyStr → Bool
  | [], [] => false
  | [], _ :: _ => true
  | _ :: _, [] => false
  | a :: l1, b :: l2 =>
    if pyStrLt a b then true else if pyStrLt b a then false else pyStrListLt l1 l2

/-- Python tuple comparison of (key, values) pairs as sorted() applies it
inside normalize_url_advanced. -/
def pairLt (a b : PyStr × List PyStr) : Bool :=
  if pyStrLt a.1 b.1 then true
  else if pyStrLt b.1 a.1 then false
  else pyStrListLt a.2 b.2

/-- Stable insertion before the first strictly greater element; together with
pySortedList this is Python's stable ascending sorted(). -/
def insertPair {α : Type} (lt : α → α → Bool) (x : α) : List α → List α
  | [] => [x]
  | y :: ys => if lt x y then x :: y :: ys else y :: insertPair lt x ys

/-- Python sorted() as a stable insertion sort. -/
def pySortedList {α : Type} (lt : α → α → Bool) (l : List α) : List α :=
  l.foldl (fun acc x => insertPair lt x acc) []

/-! ### urlsplit / urlparse / urlunsplit / urlunparse / urljoin -/

/-- Result of urlsplit. -/
structure SplitResult where
  scheme : PyStr
  netloc : PyStr
  path : PyStr
  query : PyStr
  fragment : PyStr
deriving DecidableEq

/-- Result of urlparse (urlsplit plus the params component). -/
structure ParseResult where
  scheme : PyStr
  netloc : PyStr
  path : PyStr
  params : PyStr
  query : PyStr
  fragment : PyStr
deriving DecidableEq

/-- uses_relative of urllib.parse. -/
def usesRelative : List PyStr :=
  [str2l "", str2l "ftp", str2l "http", str2l "gopher", str2l "nntp", str2l "imap",
   str2l "wais", str2l "file", str2l "https", str2l "shttp", str2l "mms",
   str2l "prospero", str2l "rtsp", str2l "rtsps", str2l "rtspu", str2l "sftp",
   str2l "svn", str2l "svn+ssh", str2l "ws", str2l "wss"]

/-- uses_netloc of urllib.parse. -/
def usesNetloc : List PyStr :=
  [str2l "", str2l "ftp", str2l "http", str2l "gopher", str2l "nntp", str2l "telnet",
   str2l "imap", str2l "wais", str2l "file", str2l "mms", str2l "https", str2l "shttp",
   str2l "snews", str2l "prospero", str2l "rtsp", str2l "rtsps", str2l "rtspu",
   str2l "rsync", str2l "svn", str2l "svn+ssh", str2l "sftp", str2l "nfs",
   str2l "git", str2l "git+ssh", str2l "ws", str2l "wss"]

/-- uses_params of urllib.parse. -/
def usesParams : List PyStr :=
  [str2l "", str2l "ftp", str2l "hdl", str2l "prospero", str2l "http", str2l "imap",
   str2l "https", str2l "shttp", str2l "rtsp", str2l "rtsps", str2l "rtspu",
   str2l "sip", str2l "sips", str2l "mms", str2l "sftp", str2l "tel"]

/-- Preprocessing of urlsplit on the url argument: strip leading C0 controls
and space (code points up to 32) per the WHATWG rule, then remove every tab,
carriage return and line feed. -/
def cleanUrl (l : PyStr) : PyStr :=
  (l.dropWhile (fun c => c ≤ 32)).filter (fun c => ¬(c = 9 ∨ c = 13 ∨ c = 10))

/-- Preprocessing of urlsplit on the default-scheme argument: strip both ends
and remove unsafe bytes. -/
def cleanScheme (l : PyStr) : PyStr :=
  (((l.dropWhile (fun c => c ≤ 32)).reverse.dropWhile (fun c => c ≤ 32)).reverse).filter
    (fun c => ¬(c = 9 ∨ c = 13 ∨ c = 10))

/-- Scheme detection of urlsplit: the text before the first colon is a scheme
when it is nonempty, begins with an ASCII letter and consists of scheme
characters only; the scheme is returned lowercased together with the rest. -/
def schemeSplit (url : PyStr) : Option (PyStr × PyStr) :=
  match splitOnce 58 url with
  | none => none
  | some p =>
    match p.1 with
    | [] => none
    | c0 :: cs =>
      if isAsciiAlphaCode c0 ∧ (c0 :: cs).all isSchemeChar then
        some (pyLower (c0 :: cs), p.2)
      else none

/-- Delimiters ending the netloc in _splitnetloc: slash, question mark, hash. -/
def netlocDelim (c : Nat) : Bool := c = 47 || c = 63 || c = 35

/-- The _splitnetloc helper applied after the double slash: the netloc extends
to the first slash, question mark or hash. -/
def splitNetloc (rest : PyStr) : PyStr × PyStr :=
  (rest.takeWhile (fun c => ¬ netlocDelim c), rest.dropWhile (fun c => ¬ netlocDelim c))

/-- urllib.parse.urlsplit.  The ValueError raises for mismatched IPv6
brackets and for netlocs that change under NFKC normalization are omitted
from the model; no claim exercises them. -/
def pyUrlsplit (url0 scheme0 : PyStr) (allowFragments : Bool) : SplitResult :=
  let url1 := cleanUrl url0
  let dscheme := cleanScheme scheme0
  let sp :=
    match schemeSplit url1 with
    | some p => p
    | none => (dscheme, url1)
  let np :=
    if startsL [47, 47] sp.2 then splitNetloc (sp.2.drop 2)
    else ([], sp.2)
  let fp :=
    if allowFragments ∧ 35 ∈ np.2 then splitFirst 35 np.2 else (np.2, [])
  let qp :=
    if 63 ∈ fp.1 then splitFirst 63 fp.1 else (fp.1, [])
  ⟨sp.1, np.1, qp.1, qp.2, fp.2⟩

/-- The _splitparams helper of urlparse: split at the first semicolon at or
after the last slash, or at the first semicolon anywhere when there is no
slash; no semicolon there means no params. -/
def pySplitparams (url : PyStr) : PyStr × PyStr :=
  if 47 ∈ url then
    match splitOnce 47 url.reverse with
    | some p =>
      match splitOnce 59 p.1.reverse with
      | some q => (p.2.reverse ++ 47 :: q.1, q.2)
      | none => (url, [])
    | none => (url, [])
  else
    match splitOnce 59 url with
    | some q => (q.1, q.2)
    | none => (url, [])

/-- urllib.parse.urlparse: urlsplit plus the params split, which applies only
for schemes in uses_params. -/
def pyUrlparse (url scheme0 : PyStr) (allowFragments : Bool) : ParseResult :=
  let s := pyUrlsplit url scheme0 allowFragments
  if s.scheme ∈ usesParams ∧ 59 ∈ s.path then
    let pq := pySplitparams s.path
    ⟨s.scheme, s.netloc, pq.1, pq.2, s.query, s.fragment⟩
  else ⟨s.scheme, s.netloc, s.path, [], s.query, s.fragment⟩

/-- urllib.parse.urlunsplit. -/
def pyUrlunsplit (scheme netloc url query fragment : PyStr) : PyStr :=
  let url1 :=
    if netloc ≠ [] ∨ (scheme ≠ [] ∧ scheme ∈ usesNetloc ∧ ¬ startsL [47, 47] url) then
      47 :: 47 :: (netloc ++ (if url ≠ [] ∧ ¬ startsL [47] url then 47 :: url else url))
    else url
  let url2 := if scheme ≠ [] then scheme ++ 58 :: url1 else url1
  let url3 := if query ≠ [] then url2 ++ 63 :: query else url2
  if fragment ≠ [] then url3 ++ 35 :: fragment else url3

/-- urllib.parse.urlunparse: rejoin params with a semicolon, then urlunsplit. -/
def pyUrlunparse (scheme netloc url params query fragment : PyStr) : PyStr :=
  pyUrlunsplit scheme netloc (if params ≠ [] then url ++ 59 :: params else url) query fragment

/-- Middle filtering of urljoin: segments[1:-1] = filter(None, segments[1:-1])
keeps the final segment even when empty. -/
def keepLastFilter : List PyStr → List PyStr
  | [] => []
  | [x] => [x]
  | x :: rest => if x = [] then keepLastFilter rest else x :: keepLastFilter rest

/-- Middle filtering of urljoin, keeping the first segment unconditionally. -/
def filterMiddle : List PyStr → List PyStr
  | [] => []
  | x :: rest => x :: keepLastFilter rest

/-- Dot-segment resolution loop of urljoin; popping an empty stack is ignored. -/
def resolveSegs (segs : List PyStr) : List PyStr :=
  segs.foldl (fun acc seg =>
    if seg = [46, 46] then acc.dropLast
    else if seg = [46] then acc
    else acc ++ [seg]) []

/-- urllib.parse.urljoin. -/
def pyUrljoin (base url : PyStr) : PyStr :=
  if base = [] then url
  else if url = [] then base
  else
    let b := pyUrlparse base [] true
    let u := pyUrlparse url b.scheme true
    if u.scheme ≠ b.scheme ∨ u.scheme ∉ usesRelative then url
    else if u.scheme ∈ usesNetloc ∧ u.netloc ≠ [] then
      pyUrlunparse u.scheme u.netloc u.path u.params u.query u.fragment
    else
      let netloc := if u.scheme ∈ usesNetloc then b.netloc else u.netloc
      if u.path = [] ∧ u.params = [] then
        pyUrlunparse u.scheme netloc b.path b.params
          (if u.query = [] then b.query else u.query) u.fragment
      else
        let baseParts0 := pySplitAll 47 b.path
        let baseParts := if baseParts0.getLast? ≠ some [] then baseParts0.dropLast else baseParts0
        let segments :=
          if startsL [47] u.path then pySplitAll 47 u.path
          else filterMiddle (baseParts ++ pySplitAll 47 u.path)
        let resolved0 := resolveSegs segments
        let resolved :=
          if segments.getLast? = some [46] ∨ segments.getLast? = some [46, 46] then
            resolved0 ++ [[]]
          else resolved0
        let path0 := List.intercalate [47] resolved
        pyUrlunparse u.scheme netloc (if path0 = [] then [47] else path0) u.params u.query u.fragment

namespace LinkDetector

/-- Tracking query keys removed by normalize_url_advanced. -/
def trackingParams : List PyStr :=
  [str2l "utm_source", str2l "utm_medium", str2l "utm_campaign", str2l "utm_term",
   str2l "utm_content", str2l "gclid", str2l "fbclid", str2l "msclkid"]

/-- Prefixes rejected by normalize_url and normalize_url_advanced
(url.startswith on a tuple is a disjunction of startswith checks). -/
def rejectedStart (url : PyStr) : Bool :=
  startsL (str2l "#") url || startsL (str2l "javascript:") url ||
  startsL (str2l "mailto:") url || startsL (str2l "tel:") url

/-- LinkDetector.normalize_url, the cheap Resolve: reject empty strings and
fragment-only or non-navigational inputs, then join against the current URL. -/
def normalize_url (url currentUrl : PyStr) : Option PyStr :=
  if url = [] ∨ rejectedStart url then none
  else some (pyUrljoin currentUrl url)

/-- Query pipeline of normalize_url_advanced: drop tracking keys, then sort
the (key, values) pairs ascending. -/
def sortedFiltered (qp : List (PyStr × List PyStr)) : List (PyStr × List PyStr) :=
  pySortedList pairLt (qp.filter (fun kv => kv.1 ∉ trackingParams))

/-- LinkDetector.normalize_url_advanced: resolve against the current URL,
lowercase scheme and netloc, strip the default port, drop the fragment and
params, force a nonempty path, and rebuild the query with tracking keys
removed and keys sorted ascending. -/
def normalize_url_advanced (url currentUrl : PyStr) : Option PyStr :=
  if url = [] ∨ rejectedStart url then none
  else
    let absoluteUrl := pyUrljoin currentUrl url
    let parsed := pyUrlparse absoluteUrl [] true
    let scheme := pyLower parsed.scheme
    let netloc0 := pyLower parsed.netloc
    let netloc :=
      if (scheme = str2l "http" ∧ endsL (str2l ":80") netloc0) ∨
         (scheme = str2l "https" ∧ endsL (str2l ":443") netloc0) then
        beforeLast 58 netloc0
      else netloc0
    let encodedQuery := pyUrlencode (sortedFiltered (parse_qs parsed.query))
    let path := if parsed.path = [] then [47] else parsed.path
    some (pyUrlunparse scheme netloc path [] encodedQuery [])

end LinkDetector

/-! ### UrlTrapDetector -/

namespace UrlTrapDetector

/-- State of UrlTrapDetector: the three bounds plus path_query_structures,
the per-path set of query-key signatures.  A frozenset of keys is
represented canonically as its sorted list (parse_qs keys are distinct), so
list equality coincides with set equality of signatures. -/
structure State where
  maxPathDepth : Nat
  maxRepeatingSegments : Nat
  maxQueryVariations : Nat
  pathQueryStructures : List (PyStr × List (List PyStr))
deriving DecidableEq

/-- Constructor of UrlTrapDetector with explicit parameters. -/
def mk0 (d r q : Nat) : State := ⟨d, r, q, []⟩

/-- Constructor with the default parameters of the source
(max_path_depth=10, max_repeating_segments=3, max_query_variations=5). -/
def mkDefault : State := mk0 10 3 5

/-- Non-empty path segments, as is_trap computes them from parsed.path. -/
def pathSegments (path : PyStr) : List PyStr :=
  (pySplitAll 47 path).filter (fun s => s ≠ [])

/-- The query-key signature: frozenset(parse_qs(query).keys()), in canonical
sorted order. -/
def querySignature (query : PyStr) : List PyStr :=
  pySortedList pyStrLt ((parse_qs query).map (fun kv => kv.1))

/-- Addition of a signature to the structure map: extend the set of an
existing path, else append a new singleton entry. -/
def addSig (m : List (PyStr × List (List PyStr))) (p : PyStr) (sig : List PyStr) :
    List (PyStr × List (List PyStr)) :=
  if m.any (fun kv => kv.1 == p) then
    m.map (fun kv => if kv.1 == p then (kv.1, kv.2 ++ [sig]) else kv)
  else m ++ [(p, [sig])]

/-- UrlTrapDetector.is_trap as a state transformer returning the verdict and
the updated state.  The incremental repeating-segment counter of the source
fires exactly when some segment's total count exceeds the bound.  On a
previously seen signature or a trap verdict the state is unchanged; a fresh
signature below the variation bound is remembered. -/
def is_trap (st : State) (url : PyStr) : Bool × State :=
  let parsed := pyUrlparse url [] true
  let segs := pathSegments parsed.path
  if st.maxPathDepth < segs.length then (true, st)
  else if segs.any (fun s => st.maxRepeatingSegments < segs.count s) then (true, st)
  else
    let pathBase := parsed.path
    let sig := querySignature parsed.query
    let known := (st.pathQueryStructures.lookup pathBase).getD []
    if sig ∈ known then (false, st)
    else if st.maxQueryVariations ≤ known.length then (true, st)
    else (false, { st with pathQueryStructures := addSig st.pathQueryStructures pathBase sig })

/-- Detector states reachable from a fresh detector by is_trap calls. -/
inductive Reachable : State → Prop where
  | start (d r q : Nat) : Reachable (mk0 d r q)
  | step {st : State} (url : PyStr) : Reachable st → Reachable (is_trap st url).2

end UrlTrapDetector

/-! ### DatabaseManager

The SQLite store is modelled as in-memory lists of rows with explicit state
passing.  AUTOINCREMENT ids are next-id counters, timestamps (datetime.now())
are an abstract Nat supplied by the caller.  SHA-256 hex digests are modelled
by url_hash below. -/

namespace DatabaseManager

/-- SHA-256 hex digest of DatabaseManager.url_hash, modelled as an injective
key function.  The UNIQUE constraints of the schema treat the digest as a
collision-free key; the model realizes it as the identity embedding, which
is injective and keeps every comparison computable. -/
def url_hash (s : PyStr) : PyStr := s

/-- One row of the pages table (columns of init_database). -/
structure PageRow where
  id : Nat
  url : PyStr
  urlHash : PyStr
  normalizedUrl : PyStr
  normalizedUrlHash : PyStr
  domain : PyStr
  scheme : PyStr
  path : PyStr
  queryString : PyStr
  fragment : PyStr
  discoveredAt : Nat
  firstCrawledAt : Option Nat
  lastCrawledAt : Option Nat
  crawlCount : Nat
  statusCode : Option Nat
  responseTimeMs : Option Nat
  contentType : Option PyStr
  contentLength : Option Nat
  title : Option PyStr
  metaDescription : Option PyStr
  metaKeywords : Option PyStr
  canonicalUrl : Option PyStr
  robotsMeta : Option PyStr
  ogTitle : Option PyStr
  ogDescription : Option PyStr
  ogImage : Option PyStr
  ogType : Option PyStr
  twitterCard : Option PyStr
  language : Option PyStr
  encoding : Option PyStr
  isCrawled : Bool
  crawlDepth : Nat
  parentUrl : Option PyStr
  errorMessage : Option PyStr
  redirectUrl : Option PyStr
  redirectChain : Option PyStr
deriving DecidableEq

/-- One row of the links table. -/
structure LinkRow where
  id : Nat
  sourcePageId : Nat
  targetUrl : PyStr
  targetUrlHash : PyStr
  linkText : Option PyStr
  linkTitle : Option PyStr
  linkType : Option PyStr
  linkRel : Option PyStr
  isInternal : Option Bool
  isFollow : Option Bool
  isExternal : Option Bool
  xpath : Option PyStr
  cssSelector : Option PyStr
  detectedMethod : Option PyStr
  isJavascript : Option Bool
  isDynamic : Option Bool
  onclickHandler : Option PyStr
  hrefAttribute : Option PyStr
  dataAttributes : Option (List (PyStr × PyStr))
  ariaLabel : Option PyStr
  surroundingText : Option PyStr
  linkContext : Option PyStr
  discoveredAt : Nat
deriving DecidableEq

/-- One row of the resources table. -/
structure ResourceRow where
  id : Nat
  pageId : Nat
  resourceUrl : Option PyStr
  resourceType : Option PyStr
  sizeBytes : Option Nat
  loadTimeMs : Option Nat
  mimeType : Option PyStr
  discoveredAt : Nat
  sourceTag : Option PyStr
  sourceAttribute : Option PyStr
  altText : Option PyStr
  mediaKeywords : Option PyStr
deriving DecidableEq

/-- The store state: AUTOINCREMENT counters and the three tables the claims
touch (javascript_events is unused by every claim). -/
structure DB where
  nextPageId : Nat
  nextLinkId : Nat
  nextResourceId : Nat
  pages : List PageRow
  links : List LinkRow
  resources : List ResourceRow
deriving DecidableEq

/-- A fresh database; SQLite row ids start at 1. -/
def emptyDB : DB := ⟨1, 1, 1, [], [], []⟩

/-- DatabaseManager.add_page.  First look up the normalized hash; insert when
absent.  The INSERT raises sqlite3.IntegrityError exactly when another
UNIQUE column (url or url_hash) already holds the value, in which case the
recovery SELECT by normalized hash runs again and its result (or None) is
returned.  Returns the id alongside the new state. -/
def add_page (db : DB) (url normalizedUrl : PyStr) (parentUrl : Option PyStr)
    (depth : Nat) (now : Nat) : Option Nat × DB :=
  let nHash := url_hash normalizedUrl
  match db.pages.find? (fun r => r.normalizedUrlHash == nHash) with
  | some r => (some r.id, db)
  | none =>
    let uHash := url_hash url
    if db.pages.any (fun r => r.url == url || r.urlHash == uHash) then
      (match db.pages.find? (fun r => r.normalizedUrlHash == nHash) with
       | some r2 => some r2.id
       | none => none, db)
    else
      let parsed := pyUrlparse url [] true
      let row : PageRow :=
        { id := db.nextPageId, url := url, urlHash := uHash,
          normalizedUrl := normalizedUrl, normalizedUrlHash := nHash,
          domain := parsed.netloc, scheme := parsed.scheme, path := parsed.path,
          queryString := parsed.query, fragment := parsed.fragment,
          discoveredAt := now, firstCrawledAt := none, lastCrawledAt := none,
          crawlCount := 0, statusCode := none, responseTimeMs := none,
          contentType := none, contentLength := none, title := none,
          metaDescription := none, metaKeywords := none, canonicalUrl := none,
          robotsMeta := none, ogTitle := none, ogDescription := none,
          ogImage := none, ogType := none, twitterCard := none, language := none,
          encoding := none, isCrawled := false, crawlDepth := depth,
          parentUrl := parentUrl, errorMessage := none, redirectUrl := none,
          redirectChain := none }
      (some db.nextPageId,
       { db with nextPageId := db.nextPageId + 1, pages := db.pages ++ [row] })

/-- The page-data dict consumed by update_page_crawl: each field is read with
dict.get, so an absent key is none. -/
structure CrawlData where
  statusCode : Option Nat
  responseTimeMs : Option Nat
  contentType : Option PyStr
  contentLength : Option Nat
  title : Option PyStr
  metaDescription : Option PyStr
  metaKeywords : Option PyStr
  canonicalUrl : Option PyStr
  robotsMeta : Option PyStr
  ogTitle : Option PyStr
  ogDescription : Option PyStr
  ogImage : Option PyStr
  ogType : Option PyStr
  twitterCard : Option PyStr
  language : Option PyStr
  encoding : Option PyStr
  errorMessage : Option PyStr
  redirectUrl : Option PyStr
  redirectChain : Option PyStr
deriving DecidableEq

/-- The empty dict (every .get returns None). -/
def emptyCrawlData : CrawlData :=
  ⟨none, none, none, none, none, none, none, none, none, none, none, none, none,
   none, none, none, none, none, none⟩

/-- DatabaseManager.update_page_crawl: one UPDATE on the rows with the given
id, setting first_crawled_at via COALESCE, stamping last_crawled_at,
incrementing crawl_count, setting is_crawled, and writing every payload
column from the dict (absent keys become NULL). -/
def update_page_crawl (db : DB) (pageId : Nat) (data : CrawlData) (now : Nat) : DB :=
  { db with pages := db.pages.map (fun r =>
      if r.id = pageId then
        { r with
          firstCrawledAt := some (r.firstCrawledAt.getD now),
          lastCrawledAt := some now,
          crawlCount := r.crawlCount + 1,
          isCrawled := true,
          statusCode := data.statusCode,
          responseTimeMs := data.responseTimeMs,
          contentType := data.contentType,
          contentLength := data.contentLength,
          title := data.title,
          metaDescription := data.metaDescription,
          metaKeywords := data.metaKeywords,
          canonicalUrl := data.canonicalUrl,
          robotsMeta := data.robotsMeta,
          ogTitle := data.ogTitle,
          ogDescription := data.ogDescription,
          ogImage := data.ogImage,
          ogType := data.ogType,
          twitterCard := data.twitterCard,
          language := data.language,
          encoding := data.encoding,
          errorMessage := data.errorMessage,
          redirectUrl := data.redirectUrl,
          redirectChain := data.redirectChain }
      else r) }

/-- The link_data dict consumed by add_link; target_url is a mandatory key,
the rest are read with dict.get.  The json.dumps blob of data attributes is
modelled as the key-value list it serializes. -/
structure LinkData where
  target_url : PyStr
  text : Option PyStr
  title : Option PyStr
  linkType : Option PyStr
  rel : Option PyStr
  isInternal : Option Bool
  isFollow : Option Bool
  isExternal : Option Bool
  xpath : Option PyStr
  cssSelector : Option PyStr
  detectedMethod : Option PyStr
  isJavascript : Option Bool
  isDynamic : Option Bool
  onclick : Option PyStr
  href : Option PyStr
  dataAttributes : Option (List (PyStr × PyStr))
  ariaLabel : Option PyStr
  surroundingText : Option PyStr
  context : Option PyStr
deriving DecidableEq

/-- DatabaseManager.add_link: INSERT OR IGNORE under the
UNIQUE(source_page_id, target_url_hash) constraint — a duplicate key leaves
the table unchanged, silently. -/
def add_link (db : DB) (sourcePageId : Nat) (link : LinkData) (now : Nat) : DB :=
  let targetHash := url_hash link.target_url
  if db.links.any (fun r => r.sourcePageId == sourcePageId && r.targetUrlHash == targetHash) then
    db
  else
    let row : LinkRow :=
      { id := db.nextLinkId, sourcePageId := sourcePageId,
        targetUrl := link.target_url, targetUrlHash := targetHash,
        linkText := link.text, linkTitle := link.title, linkType := link.linkType,
        linkRel := link.rel, isInternal := link.isInternal, isFollow := link.isFollow,
        isExternal := link.isExternal, xpath := link.xpath,
        cssSelector := link.cssSelector, detectedMethod := link.detectedMethod,
        isJavascript := link.isJavascript, isDynamic := link.isDynamic,
        onclickHandler := link.onclick, hrefAttribute := link.href,
        dataAttributes := link.dataAttributes, ariaLabel := link.ariaLabel,
        surroundingText := link.surroundingText, linkContext := link.context,
        discoveredAt := now }
    { db with nextLinkId := db.nextLinkId + 1, links := db.links ++ [row] }

/-- The resource_data dict consumed by add_resource. -/
structure ResourceData where
  url : Option PyStr
  rtype : Option PyStr
  size : Option Nat
  loadTime : Option Nat
  mimeType : Option PyStr
  sourceTag : Option PyStr
  sourceAttribute : Option PyStr
  altText : Option PyStr
  mediaKeywords : Option PyStr
deriving DecidableEq

/-- DatabaseManager.add_resource: append-only INSERT. -/
def add_resource (db : DB) (pageId : Nat) (res : ResourceData) (now : Nat) : DB :=
  let row : ResourceRow :=
    { id := db.nextResourceId, pageId := pageId, resourceUrl := res.url,
      resourceType := res.rtype, sizeBytes := res.size, loadTimeMs := res.loadTime,
      mimeType := res.mimeType, discoveredAt := now, sourceTag := res.sourceTag,
      sourceAttribute := res.sourceAttribute, altText := res.altText,
      mediaKeywords := res.mediaKeywords }
  { db with nextResourceId := db.nextResourceId + 1, resources := db.resources ++ [row] }

end DatabaseManager

/-! ### BeautifulSoup documents

A parsed HTML document is a forest of nodes.  find_all collects matching
elements in document (preorder) order; attribute access goes through the
attribute list; the rel attribute is multi-valued and tokenized on
whitespace at access time, as bs4 with html.parser does. -/

/-- A node of the parsed tree: an element with tag, attributes and children,
or a text node. -/
inductive Node where
  | elem (tag : PyStr) (attrs : List (PyStr × PyStr)) (children : List Node)
  | text (s : PyStr)

/-- Tag name of a node (text nodes have none). -/
def Node.tagName : Node → PyStr
  | Node.elem t _ _ => t
  | Node.text _ => []

/-- Attribute list of a node. -/
def Node.attrList : Node → List (PyStr × PyStr)
  | Node.elem _ a _ => a
  | Node.text _ => []

/-- Children of a node. -/
def Node.kids : Node → List Node
  | Node.elem _ _ c => c
  | Node.text _ => []

/-- Python tag.get(name): the attribute value or None. -/
def getAttr (n : Node) (name : PyStr) : Option PyStr := n.attrList.lookup name

mutual
/-- find_all(tag) restricted to one subtree, in preorder. -/
def findAllNode (t : PyStr) : Node → List Node
  | Node.text _ => []
  | Node.elem tag attrs children =>
    (if tag = t then [Node.elem tag attrs children] else []) ++ findAllList t children
/-- find_all(tag) over a forest, in document order. -/
def findAllList (t : PyStr) : List Node → List Node
  | [] => []
  | n :: rest => findAllNode t n ++ findAllList t rest
end

mutual
/-- All element nodes of one subtree in preorder, the domain of
find_all with a pure attribute filter. -/
def elemsNode : Node → List Node
  | Node.text _ => []
  | Node.elem tag attrs children =>
    Node.elem tag attrs children :: elemsList children
/-- All element nodes of a forest in document order. -/
def elemsList : List Node → List Node
  | [] => []
  | n :: rest => elemsNode n ++ elemsList rest
end

/-- Python whitespace for str.split() and str.strip(), ASCII fragment. -/
def isPySpace (c : Nat) : Bool := c = 32 || c = 9 || c = 10 || c = 13 || c = 11 || c = 12

/-- Python s.split() with no argument: split on whitespace runs, dropping
empty pieces; bs4 tokenizes multi-valued attributes this way. -/
def splitWs (s : PyStr) : List PyStr :=
  ((s.splitOnP isPySpace).filter (fun p => p ≠ []))

/-- Python s.strip(): both ends, whitespace. -/
def pyStrip (s : PyStr) : PyStr :=
  ((s.dropWhile isPySpace).reverse.dropWhile isPySpace).reverse

/-- bs4 tag.get('rel') for the multi-valued rel attribute: None when absent,
else the whitespace token list. -/
def getRel (n : Node) : Option (List PyStr) := (getAttr n (str2l "rel")).map splitWs

mutual
/-- Text strings of one subtree in document order. -/
def textsNode : Node → List PyStr
  | Node.text s => [s]
  | Node.elem _ _ children => textsList children
/-- Text strings of a forest in document order. -/
def textsList : List Node → List PyStr
  | [] => []
  | n :: rest => textsNode n ++ textsList rest
end

/-- bs4 tag.get_text(strip=True): the concatenation of the stripped nonempty
text descendants. -/
def getTextStrip (n : Node) : PyStr :=
  (((textsNode n).map pyStrip).filter (fun s => s ≠ [])).flatten

namespace LinkDetector

/-- LinkDetector.base_domain: the netloc of the base URL. -/
def baseDomain (baseUrl : PyStr) : PyStr := (pyUrlparse baseUrl [] true).netloc

/-- LinkDetector.is_internal: the netloc equals the base domain or is empty. -/
def is_internal (baseUrl url : PyStr) : Bool :=
  let d := (pyUrlparse url [] true).netloc
  d == baseDomain baseUrl || d == []

/-- One emitted link dict of extract_static_links (the keys it ever sets;
absent keys surface as None at add_link). -/
structure ExtractedLink where
  target_url : PyStr
  text : Option PyStr
  title : Option PyStr
  linkType : PyStr
  rel : Option PyStr
  isInternal : Bool
  isFollow : Bool
  isExternal : Bool
  detectedMethod : PyStr
  isJavascript : Bool
  isDynamic : Bool
  onclick : Option PyStr
  href : Option PyStr
  dataAttributes : Option (List (PyStr × PyStr))
  ariaLabel : Option PyStr
  context : Option PyStr
deriving DecidableEq

/-- The anchor branch of extract_static_links for one a-tag: resolve the
href, join the rel tokens with spaces, and set is_follow unless nofollow is
among the rel tokens. -/
def anchorRecord (baseUrl currentUrl : PyStr) (t : Node) : Option ExtractedLink :=
  match getAttr t (str2l "href") with
  | none => none
  | some href =>
    match normalize_url href currentUrl with
    | none => none
    | some url =>
      let relVal := getRel t
      some { target_url := url,
             text := some ((getTextStrip t).take 500),
             title := getAttr t (str2l "title"),
             linkType := str2l "anchor",
             rel := relVal.map (List.intercalate (str2l " ")),
             isInternal := is_internal baseUrl url,
             isFollow := ¬ (str2l "nofollow") ∈ relVal.getD [],
             isExternal := ¬ is_internal baseUrl url,
             detectedMethod := str2l "static_html",
             isJavascript := false, isDynamic := false,
             onclick := none,
             href := some href,
             dataAttributes :=
               some (t.attrList.filter (fun kv => startsL (str2l "data-") kv.1)),
             ariaLabel := getAttr t (str2l "aria-label"),
             context := none }

/-- The link-tag branch of extract_static_links. -/
def linkTagRecord (baseUrl currentUrl : PyStr) (t : Node) : Option ExtractedLink :=
  match getAttr t (str2l "href") with
  | none => none
  | some href =>
    match normalize_url href currentUrl with
    | none => none
    | some url =>
      some { target_url := url, text := none, title := none,
             linkType := str2l "link_tag",
             rel := (getRel t).map (List.intercalate (str2l " ")),
             isInternal := is_internal baseUrl url,
             isFollow := true,
             isExternal := ¬ is_internal baseUrl url,
             detectedMethod := str2l "static_html",
             isJavascript := false, isDynamic := false,
             onclick := none, href := some href, dataAttributes := none,
             ariaLabel := none, context := none }

/-- The form branch of extract_static_links. -/
def formRecord (baseUrl currentUrl : PyStr) (t : Node) : Option ExtractedLink :=
  match getAttr t (str2l "action") with
  | none => none
  | some action =>
    match normalize_url action currentUrl with
    | none => none
    | some url =>
      some { target_url := url, text := none, title := none,
             linkType := str2l "form", rel := none,
             isInternal := is_internal baseUrl url,
             isFollow := true,
             isExternal := ¬ is_internal baseUrl url,
             detectedMethod := str2l "static_html",
             isJavascript := false, isDynamic := false,
             onclick := none, href := some action, dataAttributes := none,
             ariaLabel := none, context := none }

/-- The iframe branch of extract_static_links. -/
def iframeRecord (baseUrl currentUrl : PyStr) (t : Node) : Option ExtractedLink :=
  match getAttr t (str2l "src") with
  | none => none
  | some src =>
    match normalize_url src currentUrl with
    | none => none
    | some url =>
      some { target_url := url, text := none, title := none,
             linkType := str2l "iframe", rel := none,
             isInternal := is_internal baseUrl url,
             isFollow := true,
             isExternal := ¬ is_internal baseUrl url,
             detectedMethod := str2l "static_html",
             isJavascript := false, isDynamic := false,
             onclick := none, href := some src, dataAttributes := none,
             ariaLabel := none, context := none }

/-- The onclick branch of extract_static_links for one element, given the
JavaScript URL extractor. -/
def onclickRecords (jsx : PyStr → PyStr → List PyStr) (baseUrl currentUrl : PyStr)
    (t : Node) : List ExtractedLink :=
  let onclick := (getAttr t (str2l "onclick")).getD []
  (jsx onclick currentUrl).map (fun url =>
    { target_url := url,
      text := some ((getTextStrip t).take 500),
      title := none,
      linkType := str2l "onclick", rel := none,
      isInternal := is_internal baseUrl url,
      isFollow := true,
      isExternal := ¬ is_internal baseUrl url,
      detectedMethod := str2l "onclick_attribute",
      isJavascript := true, isDynamic := false,
      onclick := some (onclick.take 1000),
      href := none, dataAttributes := none, ariaLabel := none, context := none })

/-- LinkDetector.extract_static_links.  Its JavaScript URL extractor
(extract_urls_from_js, a family of regular-expression scans) is a parameter:
every claim about this function holds for an arbitrary extractor. -/
def extract_static_links (jsx : PyStr → PyStr → List PyStr) (baseUrl : PyStr)
    (soup : List Node) (currentUrl : PyStr) : List ExtractedLink :=
  (findAllList (str2l "a") soup).filterMap (anchorRecord baseUrl currentUrl) ++
  (findAllList (str2l "link") soup).filterMap (linkTagRecord baseUrl currentUrl) ++
  (findAllList (str2l "form") soup).filterMap (formRecord baseUrl currentUrl) ++
  (findAllList (str2l "iframe") soup).filterMap (iframeRecord baseUrl currentUrl) ++
  ((elemsList soup).filter (fun t => (getAttr t (str2l "onclick")).isSome)).flatMap
    (onclickRecords jsx baseUrl currentUrl)

end LinkDetector

/-! ### ResourceExtractor -/

namespace ResourceExtractor

/-- One emitted resource dict of the extractors. -/
structure ResourceRecord where
  url : PyStr
  rtype : PyStr
  source_tag : PyStr
  source_attribute : PyStr
  alt_text : Option PyStr
  media_keywords : PyStr
deriving DecidableEq

/-- ResourceExtractor._normalize_url: reject a missing or empty value and the
javascript, mailto and tel schemes (note: no fragment check here), then join
against the FIXED base URL the extractor was constructed with — not against
the URL of the page being processed. -/
def normalize_url (baseUrl : PyStr) (url : Option PyStr) : Option PyStr :=
  match url with
  | none => none
  | some u =>
    if u = [] ∨ startsL (str2l "javascript:") u ∨ startsL (str2l "mailto:") u ∨
       startsL (str2l "tel:") u then none
    else some (pyUrljoin baseUrl u)

/-- Shortest group of the style regex after a url( occurrence: the characters
up to the first closing parenthesis, failing when a newline intervenes
(the dot of the pattern does not match newlines). -/
def grabGroup (l : PyStr) : Option PyStr :=
  let pre := l.takeWhile (fun c => ¬(c = 41 ∨ c = 10))
  if (l.drop pre.length).head? = some 41 then some pre else none

/-- re.search of url\((.*?)\) over a style attribute: the scanner tries each
position left to right and takes the first successful match. -/
def styleUrlMatch : PyStr → Option PyStr
  | [] => none
  | c :: rest =>
    if startsL (str2l "url(") (c :: rest) then
      match grabGroup ((c :: rest).drop 4) with
      | some g => some g
      | none => styleUrlMatch rest
    else styleUrlMatch rest

/-- Python s.strip(chars) for the quote characters around a CSS url(...)
argument. -/
def stripQuotes (s : PyStr) : PyStr :=
  let isQ : Nat → Bool := fun c => c = 39 || c = 34
  ((s.dropWhile isQ).reverse.dropWhile isQ).reverse

/-- ResourceExtractor.extract_images: img src, picture source srcset, and the
first CSS url(...) of each inline style. -/
def extract_images (baseUrl : PyStr) (soup : List Node) : List ResourceRecord :=
  (findAllList (str2l "img") soup).filterMap (fun t =>
    (normalize_url baseUrl (getAttr t (str2l "src"))).map (fun src =>
      { url := src, rtype := str2l "image", source_tag := str2l "img",
        source_attribute := str2l "src", alt_text := getAttr t (str2l "alt"),
        media_keywords := str2l "image, img" })) ++
  (findAllList (str2l "picture") soup).flatMap (fun p =>
    (findAllList (str2l "source") p.kids).filterMap (fun s =>
      (normalize_url baseUrl (getAttr s (str2l "srcset"))).map (fun u =>
        { url := u, rtype := str2l "image", source_tag := str2l "picture",
          source_attribute := str2l "srcset", alt_text := none,
          media_keywords := str2l "image, picture, source" }))) ++
  ((elemsList soup).filter (fun t => (getAttr t (str2l "style")).isSome)).filterMap (fun t =>
    (styleUrlMatch ((getAttr t (str2l "style")).getD [])).bind (fun g =>
      (normalize_url baseUrl (some (stripQuotes g))).map (fun u =>
        { url := u, rtype := str2l "image", source_tag := t.tagName,
          source_attribute := str2l "style", alt_text := none,
          media_keywords := str2l "image, background-image, css" })))

/-- ResourceExtractor.extract_videos: video src plus nested source src. -/
def extract_videos (baseUrl : PyStr) (soup : List Node) : List ResourceRecord :=
  (findAllList (str2l "video") soup).flatMap (fun t =>
    ((normalize_url baseUrl (getAttr t (str2l "src"))).map (fun src =>
      { url := src, rtype := str2l "video", source_tag := str2l "video",
        source_attribute := str2l "src", alt_text := none,
        media_keywords := str2l "video" })).toList ++
    (findAllList (str2l "source") t.kids).filterMap (fun s =>
      (normalize_url baseUrl (getAttr s (str2l "src"))).map (fun u =>
        { url := u, rtype := str2l "video", source_tag := str2l "source",
          source_attribute := str2l "src", alt_text := none,
          media_keywords := str2l "video, source" })))

/-- ResourceExtractor.extract_audios: audio src plus nested source src. -/
def extract_audios (baseUrl : PyStr) (soup : List Node) : List ResourceRecord :=
  (findAllList (str2l "audio") soup).flatMap (fun t =>
    ((normalize_url baseUrl (getAttr t (str2l "src"))).map (fun src =>
      { url := src, rtype := str2l "audio", source_tag := str2l "audio",
        source_attribute := str2l "src", alt_text := none,
        media_keywords := str2l "audio" })).toList ++
    (findAllList (str2l "source") t.kids).filterMap (fun s =>
      (normalize_url baseUrl (getAttr s (str2l "src"))).map (fun u =>
        { url := u, rtype := str2l "audio", source_tag := str2l "source",
          source_attribute := str2l "src", alt_text := none,
          media_keywords := str2l "audio, source" })))

/-- Document extensions recognized by extract_documents. -/
def docExtensions : List PyStr :=
  [str2l ".pdf", str2l ".doc", str2l ".docx", str2l ".xls", str2l ".xlsx",
   str2l ".ppt", str2l ".pptx", str2l ".zip", str2l ".rar"]

/-- Python href.split('.')[-1], the extension tag of the keyword string. -/
def afterLastDot (href : PyStr) : PyStr :=
  match splitOnce 46 href.reverse with
  | some p => p.1.reverse
  | none => href

/-- ResourceExtractor.extract_documents: anchors whose lowercased href ends
in one of the document extensions. -/
def extract_documents (baseUrl : PyStr) (soup : List Node) : List ResourceRecord :=
  (findAllList (str2l "a") soup).filterMap (fun t =>
    match getAttr t (str2l "href") with
    | none => none
    | some href =>
      if docExtensions.any (fun ext => endsL ext (pyLower href)) then
        (normalize_url baseUrl (some href)).map (fun u =>
          { url := u, rtype := str2l "document", source_tag := str2l "a",
            source_attribute := str2l "href", alt_text := none,
            media_keywords := str2l "document, " ++ afterLastDot href })
      else none)

/-- ResourceExtractor.extract_scripts: script tags with a src attribute. -/
def extract_scripts (baseUrl : PyStr) (soup : List Node) : List ResourceRecord :=
  (findAllList (str2l "script") soup).filterMap (fun t =>
    (normalize_url baseUrl (getAttr t (str2l "src"))).map (fun src =>
      { url := src, rtype := str2l "script", source_tag := str2l "script",
        source_attribute := str2l "src", alt_text := none,
        media_keywords := str2l "script, javascript, js" }))

/-- ResourceExtractor.extract_stylesheets: link tags whose rel tokens match
stylesheet (bs4 matches a string filter against any token of a multi-valued
attribute) and which carry an href. -/
def extract_stylesheets (baseUrl : PyStr) (soup : List Node) : List ResourceRecord :=
  (findAllList (str2l "link") soup).filterMap (fun t =>
    if (getRel t).getD [] |>.contains (str2l "stylesheet") then
      (normalize_url baseUrl (getAttr t (str2l "href"))).map (fun href =>
        { url := href, rtype := str2l "stylesheet", source_tag := str2l "link",
          source_attribute := str2l "href", alt_text := none,
          media_keywords := str2l "stylesheet, css" })
    else none)

/-- ResourceExtractor.extract_favicons: link tags matched by the filter
rel=lambda r: r and 'icon' in r together with href=True.  rel is a
multi-valued attribute, so bs4 applies the lambda to each rel token (and
then to the space-joined value, which adds nothing since 'icon' holds no
space): the tag matches when 'icon' is a substring of some token, as in
apple-touch-icon or mask-icon. -/
def extract_favicons (baseUrl : PyStr) (soup : List Node) : List ResourceRecord :=
  (findAllList (str2l "link") soup).filterMap (fun t =>
    if ((getRel t).getD []).any (fun tok => pyIn (str2l "icon") tok) then
      (normalize_url baseUrl (getAttr t (str2l "href"))).map (fun href =>
        { url := href, rtype := str2l "favicon", source_tag := str2l "link",
          source_attribute := str2l "href", alt_text := none,
          media_keywords := str2l "favicon, icon" })
    else none)

/-- ResourceExtractor.extract_embedded_content: iframe src, embed src,
object data. -/
def extract_embedded_content (baseUrl : PyStr) (soup : List Node) : List ResourceRecord :=
  ([str2l "iframe", str2l "embed", str2l "object"]).flatMap (fun tagName =>
    let srcAttr := if tagName = str2l "object" then str2l "data" else str2l "src"
    (findAllList tagName soup).filterMap (fun t =>
      (normalize_url baseUrl (getAttr t srcAttr)).map (fun src =>
        { url := src, rtype := str2l "embedded_" ++ tagName, source_tag := tagName,
          source_attribute := srcAttr, alt_text := none,
          media_keywords := str2l "embedded, " ++ tagName })))

/-- ResourceExtractor.extract_all_resources: the eight extractors in order. -/
def extract_all_resources (baseUrl : PyStr) (soup : List Node) : List ResourceRecord :=
  extract_images baseUrl soup ++ extract_videos baseUrl soup ++
  extract_audios baseUrl soup ++ extract_documents baseUrl soup ++
  extract_scripts baseUrl soup ++ extract_stylesheets baseUrl soup ++
  extract_favicons baseUrl soup ++ extract_embedded_content baseUrl soup

end ResourceExtractor

/-! ### CrawlerManager.worker -/

namespace CrawlerManager

open DatabaseManager

/-- Arguments of the worker relevant to one step. -/
structure WorkerArgs where
  disregardRobots : Bool
  maxDepth : Nat
deriving DecidableEq

/-- Which branch of the worker loop handled the item. -/
inductive WorkerAction where
  | robotsDenied
  | maxDepthReached
  | crawled
deriving DecidableEq

/-- Result of one worker pass: the store, the enqueued items, the in_queue
guard set, and the branch taken. -/
structure StepResult where
  db : DB
  enqueued : List (Nat × PyStr × Nat)
  inQueue : List Nat
  action : WorkerAction
deriving DecidableEq

/-- The User-Agent advertised by the crawler. -/
def userAgent : PyStr :=
  str2l "Mozilla/5.0 (Windows NT 10.0; Win64; x64) AppleWebKit/537.36 (AdvancedCrawler/1.0)"

/-- Page update written on a robots denial. -/
def robotsDenialData : CrawlData :=
  { emptyCrawlData with
    statusCode := some 403,
    errorMessage := some (str2l "Disallowed by robots.txt") }

/-- Page update written when the maximum depth is exceeded. -/
def maxDepthData : CrawlData :=
  { emptyCrawlData with
    statusCode := some 0,
    errorMessage := some (str2l "Max depth reached") }

/-- One pass of CrawlerManager.worker over a dequeued (page_id, url, depth)
item.  The robots cache (get_robot_parser) is summarized as a function from
a domain to the optional can_fetch predicate of its cached policy, and
crawl_page as a function from the item to the page-data dict plus the
discovered internal pages; both are parameters because their internals are
network effects.  When robots checking applies and the cached policy denies
the URL, the page update with status 403 and the robots error is written and
the item is finished without fetching; past the depth check the fetch runs,
the page update is committed, and each new internal page is added with
add_page and enqueued under the in_queue guard. -/
def workerStep
    (robots : PyStr → Option (PyStr → PyStr → Bool))
    (fetch : PyStr → Nat → Nat → CrawlData × List (PyStr × PyStr × PyStr × Nat))
    (args : WorkerArgs) (db : DB) (inQueue : List Nat)
    (pageId : Nat) (url : PyStr) (depth : Nat) (now : Nat) : StepResult :=
  let domain := (pyUrlparse url [] true).netloc
  let robotsDeny : Bool :=
    ¬ args.disregardRobots &&
      (match robots domain with
       | some canFetch => ¬ canFetch userAgent url
       | none => false)
  if robotsDeny then
    { db := update_page_crawl db pageId robotsDenialData now,
      enqueued := [], inQueue := inQueue, action := WorkerAction.robotsDenied }
  else if args.maxDepth < depth then
    { db := update_page_crawl db pageId maxDepthData now,
      enqueued := [], inQueue := inQueue, action := WorkerAction.maxDepthReached }
  else
    let fr := fetch url pageId depth
    let db1 := update_page_crawl db pageId fr.1 now
    let final := fr.2.foldl
      (fun (acc : DB × List (Nat × PyStr × Nat) × List Nat) np =>
        let r := add_page acc.1 np.1 np.2.1 (some np.2.2.1) np.2.2.2 now
        match r.1 with
        | some newId =>
          if newId ∈ acc.2.2 then (r.2, acc.2.1, acc.2.2)
          else (r.2, acc.2.1 ++ [(newId, np.1, np.2.2.2)], acc.2.2 ++ [newId])
        | none => (r.2, acc.2.1, acc.2.2))
      (db1, [], inQueue)
    { db := final.1, enqueued := final.2.1, inQueue := final.2.2,
      action := WorkerAction.crawled }


end CrawlerManager

/-! ### Concrete fixtures used by witnesses and examples -/

/-- A concrete link dict. -/
def linkFix : DatabaseManager.LinkData :=
  { target_url := str2l "http://example.com/t", text := some (str2l "T"),
    title := none, linkType := some (str2l "anchor"), rel := none,
    isInternal := some true, isFollow := some true, isExternal := some false,
    xpath := none, cssSelector := none, detectedMethod := some (str2l "static_html"),
    isJavascript := some false, isDynamic := some false, onclick := none,
    href := some (str2l "/t"), dataAttributes := some [], ariaLabel := none,
    surroundingText := none, context := none }

/-- A concrete crawled page row (metadata present from an earlier crawl). -/
def pageFix : DatabaseManager.PageRow :=
  { id := 1, url := str2l "http://h/x", urlHash := str2l "http://h/x",
    normalizedUrl := str2l "http://h/x", normalizedUrlHash := str2l "http://h/x",
    domain := str2l "h", scheme := str2l "http", path := str2l "/x",
    queryString := [], fragment := [], discoveredAt := 1,
    firstCrawledAt := some 3, lastCrawledAt := some 3, crawlCount := 1,
    statusCode := some 200, responseTimeMs := some 12,
    contentType := some (str2l "text/html"), contentLength := some 100,
    title := some (str2l "T"), metaDescription := some (str2l "D"),
    metaKeywords := none, canonicalUrl := none, robotsMeta := none,
    ogTitle := none, ogDescription := none, ogImage := none, ogType := none,
    twitterCard := none, language := none, encoding := some (str2l "utf-8"),
    isCrawled := true, crawlDepth := 0, parentUrl := none,
    errorMessage := none, redirectUrl := none, redirectChain := none }

/-- A store holding the crawled page row. -/
def dbFix : DatabaseManager.DB := ⟨2, 1, 1, [pageFix], [], []⟩

/-- The anchor fixture of the C7 scenario. -/
def relSoup : List Node :=
  [Node.elem (str2l "a")
    [(str2l "href", str2l "/x"), (str2l "rel", str2l "noopener nofollow")]
    [Node.text (str2l "A Link")]]

/-- A page with one relative image reference, for the C10 scenario. -/
def imgSoup : List Node :=
  [Node.elem (str2l "img") [(str2l "src", str2l "img.png")] []]

/-- A page with one apple-touch-icon link, for the C10 favicon scenario:
the rel value matches the lambda r: r and 'icon' in r filter by substring
only. -/
def faviconSoup : List Node :=
  [Node.elem (str2l "link")
    [(str2l "rel", str2l "apple-touch-icon"), (str2l "href", str2l "/t.png")] []]

/-- A robots cache holding a deny-all policy for host h. -/
def robotsFix : PyStr → Option (PyStr → PyStr → Bool) :=
  fun d => if d = str2l "h" then some (fun _ _ => false) else none

/-- A fetcher returning no data and no new pages. -/
def fetchFix : PyStr → Nat → Nat →
    DatabaseManager.CrawlData × List (PyStr × PyStr × PyStr × Nat) :=
  fun _ _ _ => (DatabaseManager.emptyCrawlData, [])

/-- A second, different fetcher, to exhibit fetcher independence. -/
def fetchFix2 : PyStr → Nat → Nat →
    DatabaseManager.CrawlData × List (PyStr × PyStr × PyStr × Nat) :=
  fun _ _ _ =>
    ({ DatabaseManager.emptyCrawlData with statusCode := some 200 },
     [(str2l "http://h/y", str2l "http://h/y", str2l "http://h/x", 1)])

/-! ## Theorems -/

open DatabaseManager

/-- C8: add_page can return None instead of a page id: when the pages table
already holds a row with the same raw url (here inserted by an earlier
add_page of the same url under a different normalized form), the INSERT
violates the url UNIQUE constraint, the recovery re-lookup by the new
normalized hash finds no row, and add_page returns None having inserted
nothing. -/
theorem C8_add_page_returns_none :
    (add_page
        (add_page emptyDB (str2l "http://a/") (str2l "n1") none 0 0).2
        (str2l "http://a/") (str2l "n2") none 0 1).1 = none ∧
    (add_page
        (add_page emptyDB (str2l "http://a/") (str2l "n1") none 0 0).2
        (str2l "http://a/") (str2l "n2") none 0 1).2
      = (add_page emptyDB (str2l "http://a/") (str2l "n1") none 0 0).2 ∧
    (add_page emptyDB (str2l "http://a/") (str2l "n1") none 0 0).1 = some 1 ∧
    ((add_page
        (add_page emptyDB (str2l "http://a/") (str2l "n1") none 0 0).2
        (str2l "http://a/") (str2l "n2") none 0 1).2.pages.filter
      (fun r => r.normalizedUrlHash == url_hash (str2l "n2"))).length = 0 := by
  decide

/-- C5: add_link is idempotent on the key (source_page_id, target_url_hash):
from a state without that key, two calls insert exactly one row, and the
second call is silently ignored, leaving the store unchanged. -/
theorem C5_add_link_idempotent (db : DB) (pid : Nat) (link : LinkData)
    (now1 now2 : Nat)
    (h : ∀ r ∈ db.links,
      ¬(r.sourcePageId = pid ∧ r.targetUrlHash = url_hash link.target_url)) :
    add_link (add_link db pid link now1) pid link now2 = add_link db pid link now1 ∧
    ((add_link db pid link now1).links.filter
      (fun r => r.sourcePageId == pid && r.targetUrlHash == url_hash link.target_url)).length
      = 1 := by
  have hany : db.links.any
      (fun r => r.sourcePageId == pid && r.targetUrlHash == url_hash link.target_url) = false := by
    rw [List.any_eq_false]
    intro r hr
    have := h r hr
    simp only [Bool.and_eq_true, beq_iff_eq]
    tauto
  have hfilter : db.links.filter
      (fun r => r.sourcePageId == pid && r.targetUrlHash == url_hash link.target_url) = [] := by
    rw [List.filter_eq_nil_iff]
    intro r hr
    have := h r hr
    simp only [Bool.and_eq_true, beq_iff_eq]
    tauto
  constructor
  · simp only [add_link, hany, if_false, Bool.false_eq_true]
    rw [if_pos]
    rw [List.any_append]
    simp
  · simp only [add_link, hany, if_false, Bool.false_eq_true]
    rw [List.filter_append, hfilter]
    simp

/-- C9: update_page_crawl writes every payload column from the update dict,
so a dict carrying only a status code and an error message leaves every
metadata column NULL (erasing values from an earlier crawl), while
first_crawled_at is kept when already set (COALESCE), last_crawled_at is
stamped, crawl_count is incremented, is_crawled is set, and the discovery
columns (url, normalized url, domain, depth, parent, discovery time) are
untouched. -/
theorem C9_update_page_crawl_erases (db : DB) (pid : Nat) (sc : Option Nat)
    (em : Option PyStr) (now : Nat) (r : PageRow) (hr : r ∈ db.pages)
    (hid : r.id = pid) :
    ∃ r2 ∈ (update_page_crawl db pid
        { emptyCrawlData with statusCode := sc, errorMessage := em } now).pages,
      r2.id = pid ∧ r2.statusCode = sc ∧ r2.errorMessage = em ∧
      r2.title = none ∧ r2.contentType = none ∧ r2.metaDescription = none ∧
      r2.metaKeywords = none ∧ r2.canonicalUrl = none ∧ r2.robotsMeta = none ∧
      r2.ogTitle = none ∧ r2.ogDescription = none ∧ r2.ogImage = none ∧
      r2.ogType = none ∧ r2.twitterCard = none ∧ r2.language = none ∧
      r2.encoding = none ∧ r2.responseTimeMs = none ∧ r2.contentLength = none ∧
      r2.redirectUrl = none ∧ r2.redirectChain = none ∧
      r2.isCrawled = true ∧ r2.crawlCount = r.crawlCount + 1 ∧
      r2.firstCrawledAt = some (r.firstCrawledAt.getD now) ∧
      r2.lastCrawledAt = some now ∧
      r2.url = r.url ∧ r2.normalizedUrl = r.normalizedUrl ∧ r2.domain = r.domain ∧
      r2.crawlDepth = r.crawlDepth ∧ r2.parentUrl = r.parentUrl ∧
      r2.discoveredAt = r.discoveredAt := by
  refine ⟨_, List.mem_map_of_mem _ hr, ?_⟩
  simp [hid, emptyCrawlData]

/-- C1: for URLs U and V with the same canonical form n, add_page with U and
then add_page with V (each passing its canonical form, as every caller does)
return the same page id, and the pages table holds exactly one row under the
normalized-URL hash key; the premises say the store does not yet hold the
key or a conflicting raw URL, so the first insert succeeds. -/
theorem C1_add_page_canonical_dedup (db : DB) (u v n : PyStr)
    (hu : LinkDetector.normalize_url_advanced u u = some n)
    (hv : LinkDetector.normalize_url_advanced v v = some n)
    (hnew : ∀ r ∈ db.pages, r.normalizedUrlHash ≠ url_hash n)
    (hfree : ∀ r ∈ db.pages, r.url ≠ u ∧ r.urlHash ≠ url_hash u)
    (p1 p2 : Option PyStr) (d1 d2 now1 now2 : Nat) :
    ∃ i, (add_page db u n p1 d1 now1).1 = some i ∧
      (add_page (add_page db u n p1 d1 now1).2 v n p2 d2 now2).1 = some i ∧
      (add_page (add_page db u n p1 d1 now1).2 v n p2 d2 now2).2
        = (add_page db u n p1 d1 now1).2 ∧
      ((add_page db u n p1 d1 now1).2.pages.filter
        (fun r => r.normalizedUrlHash == url_hash n)).length = 1 := by
  have hfind : db.pages.find? (fun r => r.normalizedUrlHash == url_hash n) = none := by
    rw [List.find?_eq_none]
    intro r hr
    simpa using hnew r hr
  have hany : db.pages.any (fun r => r.url == u || r.urlHash == url_hash u) = false := by
    rw [List.any_eq_false]
    intro r hr
    have h2 := hfree r hr
    simp [h2.1, h2.2]
  have hfilter : db.pages.filter (fun r => r.normalizedUrlHash == url_hash n) = [] := by
    rw [List.filter_eq_nil_iff]
    intro r hr
    simpa using hnew r hr
  refine ⟨db.nextPageId, ?_, ?_, ?_, ?_⟩
  · simp [add_page, hfind, hany]
  · simp [add_page, hfind, hany, List.find?_append]
  · simp [add_page, hfind, hany, List.find?_append]
  · simp [add_page, hfind, hany, List.filter_append, hfilter]

/-- C6: with robots checking active and a cached policy for the URL's host
that denies the fetch, one worker pass writes the page update with status
403 and the robots error message and finishes the item: the result does not
depend on the fetcher, nothing is enqueued, the in_queue set is unchanged,
and the page row ends crawled with its crawl count incremented. -/
theorem C6_worker_robots_denied
    (robots : PyStr → Option (PyStr → PyStr → Bool))
    (fetch fetch2 : PyStr → Nat → Nat → CrawlData × List (PyStr × PyStr × PyStr × Nat))
    (args : CrawlerManager.WorkerArgs) (db : DB) (inQueue : List Nat)
    (pid : Nat) (url : PyStr) (depth now : Nat)
    (hrob : args.disregardRobots = false)
    (p : PyStr → PyStr → Bool)
    (hp : robots ((pyUrlparse url [] true).netloc) = some p)
    (hdeny : p CrawlerManager.userAgent url = false) :
    CrawlerManager.workerStep robots fetch args db inQueue pid url depth now
      = CrawlerManager.workerStep robots fetch2 args db inQueue pid url depth now ∧
    (CrawlerManager.workerStep robots fetch args db inQueue pid url depth now).action
      = CrawlerManager.WorkerAction.robotsDenied ∧
    (CrawlerManager.workerStep robots fetch args db inQueue pid url depth now).enqueued = [] ∧
    (CrawlerManager.workerStep robots fetch args db inQueue pid url depth now).inQueue
      = inQueue ∧
    (CrawlerManager.workerStep robots fetch args db inQueue pid url depth now).db
      = update_page_crawl db pid CrawlerManager.robotsDenialData now ∧
    ∀ r ∈ db.pages, r.id = pid →
      ∃ r2 ∈ (CrawlerManager.workerStep robots fetch args db inQueue pid url depth now).db.pages,
        r2.id = pid ∧ r2.statusCode = some 403 ∧
        r2.errorMessage = some (str2l "Disallowed by robots.txt") ∧
        r2.isCrawled = true ∧ r2.crawlCount = r.crawlCount + 1 := by
  have hstep : CrawlerManager.workerStep robots fetch args db inQueue pid url depth now
      = { db := update_page_crawl db pid CrawlerManager.robotsDenialData now,
          enqueued := [], inQueue := inQueue,
          action := CrawlerManager.WorkerAction.robotsDenied } := by
    simp [CrawlerManager.workerStep, hrob, hp, hdeny]
  have hstep2 : CrawlerManager.workerStep robots fetch2 args db inQueue pid url depth now
      = { db := update_page_crawl db pid CrawlerManager.robotsDenialData now,
          enqueued := [], inQueue := inQueue,
          action := CrawlerManager.WorkerAction.robotsDenied } := by
    simp [CrawlerManager.workerStep, hrob, hp, hdeny]
  refine ⟨hstep.trans hstep2.symm, by rw [hstep], by rw [hstep], by rw [hstep], by rw [hstep], ?_⟩
  intro r hr hid
  rw [hstep]
  refine ⟨_, List.mem_map_of_mem _ hr, ?_⟩
  simp [hid, CrawlerManager.robotsDenialData, emptyCrawlData]

/-- Witness for C1 at two concrete URLs sharing the canonical form and the
empty store. -/
theorem C1_add_page_canonical_dedup_witness :
    (LinkDetector.normalize_url_advanced (str2l "http://h/p?b=2&a=1")
      (str2l "http://h/p?b=2&a=1") = some (str2l "http://h/p?a=1&b=2")) ∧
    (LinkDetector.normalize_url_advanced (str2l "http://h/p?a=1&b=2#x")
      (str2l "http://h/p?a=1&b=2#x") = some (str2l "http://h/p?a=1&b=2")) ∧
    ∃ i, (add_page emptyDB (str2l "http://h/p?b=2&a=1") (str2l "http://h/p?a=1&b=2")
            none 0 0).1 = some i ∧
      (add_page (add_page emptyDB (str2l "http://h/p?b=2&a=1")
            (str2l "http://h/p?a=1&b=2") none 0 0).2
          (str2l "http://h/p?a=1&b=2#x") (str2l "http://h/p?a=1&b=2") none 0 1).1 = some i ∧
      (add_page (add_page emptyDB (str2l "http://h/p?b=2&a=1")
            (str2l "http://h/p?a=1&b=2") none 0 0).2
          (str2l "http://h/p?a=1&b=2#x") (str2l "http://h/p?a=1&b=2") none 0 1).2
        = (add_page emptyDB (str2l "http://h/p?b=2&a=1")
            (str2l "http://h/p?a=1&b=2") none 0 0).2 ∧
      ((add_page emptyDB (str2l "http://h/p?b=2&a=1")
          (str2l "http://h/p?a=1&b=2") none 0 0).2.pages.filter
        (fun r => r.normalizedUrlHash == url_hash (str2l "http://h/p?a=1&b=2"))).length = 1 :=
  ⟨by decide, by decide,
   C1_add_page_canonical_dedup emptyDB _ _ _ (by decide) (by decide)
     (by simp [emptyDB]) (by simp [emptyDB]) none none 0 0 0 1⟩

/-- Witness for C5 at a concrete link and the empty store. -/
theorem C5_add_link_idempotent_witness :
    (∀ r ∈ emptyDB.links,
      ¬(r.sourcePageId = 1 ∧ r.targetUrlHash = url_hash linkFix.target_url)) ∧
    (add_link (add_link emptyDB 1 linkFix 0) 1 linkFix 1 = add_link emptyDB 1 linkFix 0 ∧
     ((add_link emptyDB 1 linkFix 0).links.filter
       (fun r => r.sourcePageId == 1 &&
         r.targetUrlHash == url_hash linkFix.target_url)).length = 1) :=
  ⟨by simp [emptyDB], C5_add_link_idempotent emptyDB 1 linkFix 0 1 (by simp [emptyDB])⟩

/-- Witness for C9 at a concrete crawled page row with stored metadata. -/
theorem C9_update_page_crawl_erases_witness :
    pageFix ∈ dbFix.pages ∧ pageFix.id = 1 ∧ pageFix.title = some (str2l "T") ∧
    ∃ r2 ∈ (update_page_crawl dbFix 1
        { emptyCrawlData with
          statusCode := some 403,
          errorMessage := some (str2l "E") } 9).pages,
      r2.id = 1 ∧ r2.statusCode = some 403 ∧ r2.errorMessage = some (str2l "E") ∧
      r2.title = none ∧ r2.contentType = none ∧ r2.metaDescription = none ∧
      r2.metaKeywords = none ∧ r2.canonicalUrl = none ∧ r2.robotsMeta = none ∧
      r2.ogTitle = none ∧ r2.ogDescription = none ∧ r2.ogImage = none ∧
      r2.ogType = none ∧ r2.twitterCard = none ∧ r2.language = none ∧
      r2.encoding = none ∧ r2.responseTimeMs = none ∧ r2.contentLength = none ∧
      r2.redirectUrl = none ∧ r2.redirectChain = none ∧
      r2.isCrawled = true ∧ r2.crawlCount = pageFix.crawlCount + 1 ∧
      r2.firstCrawledAt = some (pageFix.firstCrawledAt.getD 9) ∧
      r2.lastCrawledAt = some 9 ∧
      r2.url = pageFix.url ∧ r2.normalizedUrl = pageFix.normalizedUrl ∧
      r2.domain = pageFix.domain ∧ r2.crawlDepth = pageFix.crawlDepth ∧
      r2.parentUrl = pageFix.parentUrl ∧ r2.discoveredAt = pageFix.discoveredAt :=
  ⟨by simp [dbFix], rfl, rfl,
   C9_update_page_crawl_erases dbFix 1 (some 403) (some (str2l "E")) 9 pageFix
     (by simp [dbFix]) rfl⟩

/-- Witness for C6 at a concrete denying robots cache and two fetchers. -/
theorem C6_worker_robots_denied_witness :
    ((⟨false, 3⟩ : CrawlerManager.WorkerArgs).disregardRobots = false) ∧
    (robotsFix ((pyUrlparse (str2l "http://h/x") [] true).netloc)
      = some (fun _ _ => false)) ∧
    ((fun _ _ => false : PyStr → PyStr → Bool) CrawlerManager.userAgent
      (str2l "http://h/x") = false) ∧
    (CrawlerManager.workerStep robotsFix fetchFix ⟨false, 3⟩ dbFix [1] 1
        (str2l "http://h/x") 0 9
      = CrawlerManager.workerStep robotsFix fetchFix2 ⟨false, 3⟩ dbFix [1] 1
        (str2l "http://h/x") 0 9 ∧
     (CrawlerManager.workerStep robotsFix fetchFix ⟨false, 3⟩ dbFix [1] 1
        (str2l "http://h/x") 0 9).action = CrawlerManager.WorkerAction.robotsDenied ∧
     (CrawlerManager.workerStep robotsFix fetchFix ⟨false, 3⟩ dbFix [1] 1
        (str2l "http://h/x") 0 9).enqueued = [] ∧
     (CrawlerManager.workerStep robotsFix fetchFix ⟨false, 3⟩ dbFix [1] 1
        (str2l "http://h/x") 0 9).inQueue = [1] ∧
     (CrawlerManager.workerStep robotsFix fetchFix ⟨false, 3⟩ dbFix [1] 1
        (str2l "http://h/x") 0 9).db
        = update_page_crawl dbFix 1 CrawlerManager.robotsDenialData 9 ∧
     ∀ r ∈ dbFix.pages, r.id = 1 →
       ∃ r2 ∈ (CrawlerManager.workerStep robotsFix fetchFix ⟨false, 3⟩ dbFix [1] 1
           (str2l "http://h/x") 0 9).db.pages,
         r2.id = 1 ∧ r2.statusCode = some 403 ∧
         r2.errorMessage = some (str2l "Disallowed by robots.txt") ∧
         r2.isCrawled = true ∧ r2.crawlCount = r.crawlCount + 1) :=
  ⟨rfl, rfl, rfl,
   C6_worker_robots_denied robotsFix fetchFix fetchFix2 ⟨false, 3⟩ dbFix [1] 1
     (str2l "http://h/x") 0 9 rfl (fun _ _ => false) rfl rfl⟩

open UrlTrapDetector

/-- Helper: a successful association-list lookup yields a member pair. -/
theorem lookupMem {α β : Type} [BEq α] [LawfulBEq α] {k : α} {v : β} :
    ∀ {l : List (α × β)}, l.lookup k = some v → (k, v) ∈ l := by
  intro l
  induction l with
  | nil => intro h; simp [List.lookup] at h
  | cons hd tl ih =>
    intro h
    rw [List.lookup] at h
    split at h
    · rename_i heq
      simp only [Option.some.injEq] at h
      have hk : k = hd.1 := eq_of_beq heq
      have hp : (k, v) = hd := by
        cases hd
        simp_all

      rw [hp]
      exact List.mem_cons_self _ _
    · exact List.mem_cons_of_mem _ (ih h)

/-- Helper: membership in addSig either keeps an existing key or introduces
the added path. -/
theorem addSig_key_cases {m : List (PyStr × List (List PyStr))} {p : PyStr}
    {sig : List PyStr} {kv : PyStr × List (List PyStr)}
    (h : kv ∈ addSig m p sig) : (∃ kv0 ∈ m, kv.1 = kv0.1) ∨ kv.1 = p := by
  unfold addSig at h
  split at h
  · rw [List.mem_map] at h
    obtain ⟨kv0, hkv0, heq⟩ := h
    left
    refine ⟨kv0, hkv0, ?_⟩
    subst heq
    split <;> simp
  · rw [List.mem_append] at h
    rcases h with h | h
    · exact Or.inl ⟨kv, h, rfl⟩
    · simp only [List.mem_singleton] at h
      subst h
      exact Or.inr rfl

/-- Helper: is_trap never changes the three bounds. -/
theorem is_trap_bounds_eq (st : UrlTrapDetector.State) (url : PyStr) :
    (is_trap st url).2.maxPathDepth = st.maxPathDepth ∧
    (is_trap st url).2.maxRepeatingSegments = st.maxRepeatingSegments ∧
    (is_trap st url).2.maxQueryVariations = st.maxQueryVariations := by
  unfold is_trap
  simp only
  split
  · exact ⟨rfl, rfl, rfl⟩
  · split
    · exact ⟨rfl, rfl, rfl⟩
    · split
      · exact ⟨rfl, rfl, rfl⟩
      · split
        · exact ⟨rfl, rfl, rfl⟩
        · exact ⟨rfl, rfl, rfl⟩

/-- Helper: one is_trap call either keeps the structure map or records the
signature of a path that passed the depth and repetition checks. -/
theorem is_trap_structures_cases (st : UrlTrapDetector.State) (url : PyStr) :
    (is_trap st url).2.pathQueryStructures = st.pathQueryStructures ∨
    ((is_trap st url).2.pathQueryStructures
        = addSig st.pathQueryStructures (pyUrlparse url [] true).path
            (querySignature (pyUrlparse url [] true).query) ∧
     (pathSegments (pyUrlparse url [] true).path).length ≤ st.maxPathDepth ∧
     ∀ s, (pathSegments (pyUrlparse url [] true).path).count s
        ≤ st.maxRepeatingSegments) := by
  unfold is_trap
  simp only
  split
  · exact Or.inl rfl
  · split
    · exact Or.inl rfl
    · split
      · exact Or.inl rfl
      · split
        · exact Or.inl rfl
        · right
          rename_i hdep hrep _ _
          refine ⟨rfl, by omega, ?_⟩
          intro s
          rw [Bool.not_eq_true, List.any_eq_false] at hrep
          by_cases hs : s ∈ pathSegments (pyUrlparse url [] true).path
          · have := hrep _ hs
            simp at this
            omega
          · rw [List.count_eq_zero_of_not_mem hs]
            omega

/-- Helper: every path recorded by a reachable trap detector passed the depth
and repetition checks when it was recorded. -/
theorem trap_structures_ok {st : UrlTrapDetector.State} (h : Reachable st) :
    ∀ kv ∈ st.pathQueryStructures,
      (pathSegments kv.1).length ≤ st.maxPathDepth ∧
      ∀ s, (pathSegments kv.1).count s ≤ st.maxRepeatingSegments := by
  induction h with
  | start d r q => simp [mk0]
  | step url hst ih =>
    rename_i st0
    intro kv hkv
    have hb := is_trap_bounds_eq st0 url
    rw [hb.1, hb.2.1]
    rcases is_trap_structures_cases st0 url with hc | ⟨hc, hd, hr⟩
    · rw [hc] at hkv
      exact ih kv hkv
    · rw [hc] at hkv
      rcases addSig_key_cases hkv with ⟨kv0, hkv0, hkey⟩ | hkey
      · rw [hkey]
        exact ih kv0 hkv0
      · rw [hkey]
        exact ⟨hd, hr⟩

/-- C3: with the default bounds, is_trap fires on more than ten non-empty
path segments and on a segment repeated more than three times; for the
stateful check, a signature already remembered for the URL's path is never a
trap in any reachable detector state, a fresh signature is a trap once the
path has a full set of remembered signatures, and concretely (with
max_query_variations=3) the fourth distinct query-key set under one path is
a trap. -/
theorem C3_is_trap_bounds :
    (∀ (st : UrlTrapDetector.State) (url : PyStr), st.maxPathDepth = 10 →
       10 < (pathSegments (pyUrlparse url [] true).path).length →
       (is_trap st url).1 = true) ∧
    (∀ (st : UrlTrapDetector.State) (url : PyStr) (s : PyStr),
       st.maxRepeatingSegments = 3 →
       3 < (pathSegments (pyUrlparse url [] true).path).count s →
       (is_trap st url).1 = true) ∧
    (∀ (st : UrlTrapDetector.State) (url : PyStr), Reachable st →
       querySignature (pyUrlparse url [] true).query ∈
         ((st.pathQueryStructures.lookup (pyUrlparse url [] true).path).getD []) →
       (is_trap st url).1 = false) ∧
    (∀ (st : UrlTrapDetector.State) (url : PyStr),
       st.maxQueryVariations ≤
         ((st.pathQueryStructures.lookup (pyUrlparse url [] true).path).getD []).length →
       querySignature (pyUrlparse url [] true).query ∉
         ((st.pathQueryStructures.lookup (pyUrlparse url [] true).path).getD []) →
       (is_trap st url).1 = true) ∧
    (is_trap (is_trap (is_trap (is_trap (mk0 10 3 3)
        (str2l "http://example.com/page?a=1")).2
        (str2l "http://example.com/page?b=2")).2
        (str2l "http://example.com/page?c=3")).2
        (str2l "http://example.com/page?d=4")).1 = true := by
  refine ⟨?_, ?_, ?_, ?_, by decide⟩
  · intro st url hmax hlen
    unfold is_trap
    simp only
    rw [if_pos]
    omega
  · intro st url s hmax hcount
    unfold is_trap
    simp only
    split
    · rfl
    · rw [if_pos]
      rw [List.any_eq_true]
      refine ⟨s, ?_, ?_⟩
      · have : 0 < (pathSegments (pyUrlparse url [] true).path).count s := by omega
        exact List.count_pos_iff.mp this
      · simp
        omega
  · intro st url hreach hseen
    have hlook : st.pathQueryStructures.lookup (pyUrlparse url [] true).path
        = some ((st.pathQueryStructures.lookup (pyUrlparse url [] true).path).getD []) := by
      cases hl : st.pathQueryStructures.lookup (pyUrlparse url [] true).path with
      | none => rw [hl] at hseen; simp at hseen
      | some v => simp
    have hmem := lookupMem hlook
    have hok := trap_structures_ok hreach _ hmem
    simp only at hok
    unfold is_trap
    simp only
    split
    · rename_i hlt
      exfalso
      have := hok.1
      omega
    · split
      · rename_i hany
        exfalso
        rw [List.any_eq_true] at hany
        obtain ⟨s, hs, hcnt⟩ := hany
        have := hok.2 s
        simp at hcnt
        omega
      · rfl
  · intro st url hcap hnew
    unfold is_trap
    simp only
    split
    · rfl
    · split
      · rfl
      · rfl

/-- Witness for C3 at concrete detector states and URLs: an eleven-segment
URL, a URL with a four-times repeated segment, a second sighting of a
remembered signature, and a fresh signature at the variation cap. -/
theorem C3_is_trap_bounds_witness :
    ((mk0 10 3 5).maxPathDepth = 10 ∧
     10 < (pathSegments (pyUrlparse (str2l "http://e.com/1/2/3/4/5/6/7/8/9/10/11") [] true).path).length ∧
     (is_trap (mk0 10 3 5) (str2l "http://e.com/1/2/3/4/5/6/7/8/9/10/11")).1 = true) ∧
    ((mk0 10 3 5).maxRepeatingSegments = 3 ∧
     3 < (pathSegments (pyUrlparse (str2l "http://e.com/a/b/a/c/a/d/a") [] true).path).count (str2l "a") ∧
     (is_trap (mk0 10 3 5) (str2l "http://e.com/a/b/a/c/a/d/a")).1 = true) ∧
    (querySignature (pyUrlparse (str2l "http://e.com/p?a=1") [] true).query ∈
       (((is_trap (mk0 10 3 5) (str2l "http://e.com/p?a=1")).2.pathQueryStructures.lookup
         (pyUrlparse (str2l "http://e.com/p?a=1") [] true).path).getD []) ∧
     (is_trap (is_trap (mk0 10 3 5) (str2l "http://e.com/p?a=1")).2
       (str2l "http://e.com/p?a=1")).1 = false) ∧
    ((⟨10, 3, 1, [(str2l "/p", [[str2l "a"]])]⟩ : UrlTrapDetector.State).maxQueryVariations ≤
       ((([(str2l "/p", [[str2l "a"]])] : List (PyStr × List (List PyStr))).lookup
         (pyUrlparse (str2l "http://e.com/p?b=1") [] true).path).getD []).length ∧
     (is_trap (⟨10, 3, 1, [(str2l "/p", [[str2l "a"]])]⟩ : UrlTrapDetector.State)
       (str2l "http://e.com/p?b=1")).1 = true) :=
  ⟨⟨rfl, by decide, C3_is_trap_bounds.1 (mk0 10 3 5) _ rfl (by decide)⟩,
   ⟨rfl, by decide, C3_is_trap_bounds.2.1 (mk0 10 3 5) _ (str2l "a") rfl (by decide)⟩,
   ⟨by decide, C3_is_trap_bounds.2.2.1 _ _
      (Reachable.step _ (Reachable.start 10 3 5)) (by decide)⟩,
   ⟨by decide, C3_is_trap_bounds.2.2.2.1 _ _ (by decide) (by decide)⟩⟩

/-- Helper: link-tag records carry the link_tag type. -/
theorem linkTagRecord_type {b c : PyStr} {t : Node} {l : LinkDetector.ExtractedLink}
    (h : LinkDetector.linkTagRecord b c t = some l) : l.linkType = str2l "link_tag" := by
  unfold LinkDetector.linkTagRecord at h
  split at h
  · exact absurd h (by simp)
  · split at h
    · exact absurd h (by simp)
    · simp only [Option.some.injEq] at h
      rw [← h]

/-- Helper: form records carry the form type. -/
theorem formRecord_type {b c : PyStr} {t : Node} {l : LinkDetector.ExtractedLink}
    (h : LinkDetector.formRecord b c t = some l) : l.linkType = str2l "form" := by
  unfold LinkDetector.formRecord at h
  split at h
  · exact absurd h (by simp)
  · split at h
    · exact absurd h (by simp)
    · simp only [Option.some.injEq] at h
      rw [← h]

/-- Helper: iframe records carry the iframe type. -/
theorem iframeRecord_type {b c : PyStr} {t : Node} {l : LinkDetector.ExtractedLink}
    (h : LinkDetector.iframeRecord b c t = some l) : l.linkType = str2l "iframe" := by
  unfold LinkDetector.iframeRecord at h
  split at h
  · exact absurd h (by simp)
  · split at h
    · exact absurd h (by simp)
    · simp only [Option.some.injEq] at h
      rw [← h]

/-- Helper: onclick records carry the onclick type. -/
theorem onclickRecord_type {jsx : PyStr → PyStr → List PyStr} {b c : PyStr} {t : Node}
    {l : LinkDetector.ExtractedLink}
    (h : l ∈ LinkDetector.onclickRecords jsx b c t) : l.linkType = str2l "onclick" := by
  unfold LinkDetector.onclickRecords at h
  rw [List.mem_map] at h
  obtain ⟨u, hu, heq⟩ := h
  rw [← heq]

/-- Helper: an anchor record joins the rel tokens of its tag with spaces and
sets is_follow exactly when nofollow is not among them. -/
theorem anchorRecord_fields {b c : PyStr} {t : Node} {l : LinkDetector.ExtractedLink}
    (h : LinkDetector.anchorRecord b c t = some l) :
    l.linkType = str2l "anchor" ∧
    l.rel = (getRel t).map (List.intercalate (str2l " ")) ∧
    (l.isFollow = true ↔ (str2l "nofollow") ∉ (getRel t).getD []) := by
  unfold LinkDetector.anchorRecord at h
  split at h
  · exact absurd h (by simp)
  · split at h
    · exact absurd h (by simp)
    · simp only [Option.some.injEq] at h
      rw [← h]
      refine ⟨rfl, rfl, ?_⟩
      simp

/-- C7: every anchor link emitted by the static link extractor (for any
JavaScript URL extractor) comes from an a-tag, carries the space-joined rel
tokens of that tag, and has is_follow true exactly when nofollow is not
among its rel tokens; concretely, the anchor with href /x and
rel noopener nofollow yields one link with rel noopener nofollow and
is_follow false. -/
theorem C7_anchor_is_follow :
    (∀ (jsx : PyStr → PyStr → List PyStr) (baseUrl : PyStr) (soup : List Node)
       (currentUrl : PyStr) (l : LinkDetector.ExtractedLink),
       l ∈ LinkDetector.extract_static_links jsx baseUrl soup currentUrl →
       l.linkType = str2l "anchor" →
       ∃ t ∈ findAllList (str2l "a") soup,
         LinkDetector.anchorRecord baseUrl currentUrl t = some l ∧
         l.rel = (getRel t).map (List.intercalate (str2l " ")) ∧
         (l.isFollow = true ↔ (str2l "nofollow") ∉ (getRel t).getD [])) ∧
    (LinkDetector.extract_static_links (fun _ _ => []) (str2l "http://example.com")
        relSoup (str2l "http://example.com/rel-test")).map
      (fun l => (l.rel, l.isFollow, l.linkType))
      = [(some (str2l "noopener nofollow"), false, str2l "anchor")] := by
  constructor
  · intro jsx baseUrl soup currentUrl l hl htype
    unfold LinkDetector.extract_static_links at hl
    simp only [List.mem_append] at hl
    rcases hl with ((((hl | hl) | hl) | hl) | hl)
    · rw [List.mem_filterMap] at hl
      obtain ⟨t, ht, hrec⟩ := hl
      exact ⟨t, ht, hrec, (anchorRecord_fields hrec).2⟩
    · rw [List.mem_filterMap] at hl
      obtain ⟨t, ht, hrec⟩ := hl
      have := linkTagRecord_type hrec
      rw [htype] at this
      exact absurd this (by decide)
    · rw [List.mem_filterMap] at hl
      obtain ⟨t, ht, hrec⟩ := hl
      have := formRecord_type hrec
      rw [htype] at this
      exact absurd this (by decide)
    · rw [List.mem_filterMap] at hl
      obtain ⟨t, ht, hrec⟩ := hl
      have := iframeRecord_type hrec
      rw [htype] at this
      exact absurd this (by decide)
    · rw [List.mem_flatMap] at hl
      obtain ⟨t, ht, hrec⟩ := hl
      have := onclickRecord_type hrec
      rw [htype] at this
      exact absurd this (by decide)
  · decide

/-- Witness for C7 at the concrete anchor fixture: the single emitted record
is an anchor, and the theorem ties its is_follow to the rel tokens. -/
theorem C7_anchor_is_follow_witness :
    ∃ l : LinkDetector.ExtractedLink,
      l ∈ LinkDetector.extract_static_links (fun _ _ => []) (str2l "http://example.com")
        relSoup (str2l "http://example.com/rel-test") ∧
      l.linkType = str2l "anchor" ∧
      ∃ t ∈ findAllList (str2l "a") relSoup,
        LinkDetector.anchorRecord (str2l "http://example.com")
          (str2l "http://example.com/rel-test") t = some l ∧
        l.rel = (getRel t).map (List.intercalate (str2l " ")) ∧
        (l.isFollow = true ↔ (str2l "nofollow") ∉ (getRel t).getD []) := by
  have hmem : ∃ l : LinkDetector.ExtractedLink,
      l ∈ LinkDetector.extract_static_links (fun _ _ => []) (str2l "http://example.com")
        relSoup (str2l "http://example.com/rel-test") ∧ l.linkType = str2l "anchor" := by
    cases hx : LinkDetector.extract_static_links (fun _ _ => []) (str2l "http://example.com")
        relSoup (str2l "http://example.com/rel-test") with
    | nil => exact absurd hx (by decide)
    | cons a t =>
      refine ⟨a, by simp, ?_⟩
      have : (a :: t).map (fun l => l.linkType) = [str2l "anchor"] := by
        rw [← hx]
        decide
      simp at this
      exact this.1
  obtain ⟨l, hl, htype⟩ := hmem
  exact ⟨l, hl, htype,
    C7_anchor_is_follow.1 (fun _ _ => []) (str2l "http://example.com") relSoup
      (str2l "http://example.com/rel-test") l hl htype⟩

/-- Helper: a successful resource normalization presupposes a present raw
attribute value. -/
theorem normalize_opt_some {b : PyStr} {o : Option PyStr} {u : PyStr}
    (h : ResourceExtractor.normalize_url b o = some u) :
    ∃ raw, o = some raw ∧ ResourceExtractor.normalize_url b (some raw) = some u := by
  cases o with
  | none => simp [ResourceExtractor.normalize_url] at h
  | some raw => exact ⟨raw, rfl, h⟩

/-- Helper: a successful resource normalization is a join against the base. -/
theorem resource_normalize_join {b raw u : PyStr}
    (h : ResourceExtractor.normalize_url b (some raw) = some u) :
    u = pyUrljoin b raw := by
  unfold ResourceExtractor.normalize_url at h
  split at h
  · exact absurd h (by simp)
  · rename_i url2 heq
    injection heq with heq2
    subst heq2
    split at h
    · exact absurd h (by simp)
    · injection h with h2
      exact h2.symm

/-- Helper: a record built by mapping a constructor over a normalization
result has a normalized URL. -/
theorem res_opt_url {b : PyStr} {o : Option PyStr}
    {mk : PyStr → ResourceExtractor.ResourceRecord}
    {r : ResourceExtractor.ResourceRecord}
    (hmk : ∀ u, (mk u).url = u)
    (h : (ResourceExtractor.normalize_url b o).map mk = some r) :
    ∃ raw, ResourceExtractor.normalize_url b (some raw) = some r.url := by
  rw [Option.map_eq_some'] at h
  obtain ⟨u, hu, hr⟩ := h
  obtain ⟨raw, ho, hnorm⟩ := normalize_opt_some hu
  refine ⟨raw, ?_⟩
  rw [← hr, hmk]
  exact hnorm

/-- C10: every resource URL emitted by the resource extractor is the
resolution of some raw reference against the extractor's fixed base URL
(the seed given at construction), not against the page being processed;
concretely, the relative reference img.png on a page under /sub/ resolves to
the seed-joined URL, which differs from its resolution against the
containing page, and a link whose rel apple-touch-icon matches the favicon
filter only by substring is emitted as a favicon resolved against the
base. -/
theorem C10_resources_resolve_against_base :
    (∀ (baseUrl : PyStr) (soup : List Node) (r : ResourceExtractor.ResourceRecord),
       r ∈ ResourceExtractor.extract_all_resources baseUrl soup →
       ∃ raw, ResourceExtractor.normalize_url baseUrl (some raw) = some r.url ∧
         r.url = pyUrljoin baseUrl raw) ∧
    (ResourceExtractor.extract_all_resources (str2l "http://example.com/") imgSoup).map
       (fun r => r.url) = [str2l "http://example.com/img.png"] ∧
    pyUrljoin (str2l "http://example.com/sub/page.html") (str2l "img.png")
      = str2l "http://example.com/sub/img.png" ∧
    str2l "http://example.com/img.png" ≠ str2l "http://example.com/sub/img.png" ∧
    (ResourceExtractor.extract_all_resources (str2l "http://example.com/") faviconSoup).map
       (fun r => (r.url, r.rtype))
      = [(str2l "http://example.com/t.png", str2l "favicon")] := by
  refine ⟨?_, by decide, by decide, by decide, by decide⟩
  intro baseUrl soup r hr
  have key : ∃ raw, ResourceExtractor.normalize_url baseUrl (some raw) = some r.url := by
    unfold ResourceExtractor.extract_all_resources at hr
    simp only [List.mem_append] at hr
    rcases hr with ((((((hr | hr) | hr) | hr) | hr) | hr) | hr) | hr
    · -- images
      unfold ResourceExtractor.extract_images at hr
      simp only [List.mem_append] at hr
      rcases hr with (hr | hr) | hr
      · rw [List.mem_filterMap] at hr
        obtain ⟨t, ht, h⟩ := hr
        exact res_opt_url (fun u => rfl) h
      · rw [List.mem_flatMap] at hr
        obtain ⟨p, hp, hr⟩ := hr
        rw [List.mem_filterMap] at hr
        obtain ⟨t, ht, h⟩ := hr
        exact res_opt_url (fun u => rfl) h
      · rw [List.mem_filterMap] at hr
        obtain ⟨t, ht, h⟩ := hr
        rw [Option.bind_eq_some] at h
        obtain ⟨g, hg, h⟩ := h
        exact res_opt_url (fun u => rfl) h
    · -- videos
      unfold ResourceExtractor.extract_videos at hr
      rw [List.mem_flatMap] at hr
      obtain ⟨t, ht, hr⟩ := hr
      rw [List.mem_append] at hr
      rcases hr with hr | hr
      · rw [Option.mem_toList, Option.mem_def] at hr
        exact res_opt_url (fun u => rfl) hr
      · rw [List.mem_filterMap] at hr
        obtain ⟨s, hs, h⟩ := hr
        exact res_opt_url (fun u => rfl) h
    · -- audios
      unfold ResourceExtractor.extract_audios at hr
      rw [List.mem_flatMap] at hr
      obtain ⟨t, ht, hr⟩ := hr
      rw [List.mem_append] at hr
      rcases hr with hr | hr
      · rw [Option.mem_toList, Option.mem_def] at hr
        exact res_opt_url (fun u => rfl) hr
      · rw [List.mem_filterMap] at hr
        obtain ⟨s, hs, h⟩ := hr
        exact res_opt_url (fun u => rfl) h
    · -- documents
      unfold ResourceExtractor.extract_documents at hr
      rw [List.mem_filterMap] at hr
      obtain ⟨t, ht, h⟩ := hr
      split at h
      · exact absurd h (by simp)
      · split at h
        · exact res_opt_url (fun u => rfl) h
        · exact absurd h (by simp)
    · -- scripts
      unfold ResourceExtractor.extract_scripts at hr
      rw [List.mem_filterMap] at hr
      obtain ⟨t, ht, h⟩ := hr
      exact res_opt_url (fun u => rfl) h
    · -- stylesheets
      unfold ResourceExtractor.extract_stylesheets at hr
      rw [List.mem_filterMap] at hr
      obtain ⟨t, ht, h⟩ := hr
      split at h
      · exact res_opt_url (fun u => rfl) h
      · exact absurd h (by simp)
    · -- favicons
      unfold ResourceExtractor.extract_favicons at hr
      rw [List.mem_filterMap] at hr
      obtain ⟨t, ht, h⟩ := hr
      split at h
      · exact res_opt_url (fun u => rfl) h
      · exact absurd h (by simp)
    · -- embedded content
      unfold ResourceExtractor.extract_embedded_content at hr
      rw [List.mem_flatMap] at hr
      obtain ⟨tagName, htag, hr⟩ := hr
      rw [List.mem_filterMap] at hr
      obtain ⟨t, ht, h⟩ := hr
      exact res_opt_url (fun u => rfl) h
  obtain ⟨raw, hraw⟩ := key
  exact ⟨raw, hraw, resource_normalize_join hraw⟩

/-- Witness for C10 at the concrete one-image page and the seed base. -/
theorem C10_resources_resolve_against_base_witness :
    ∃ r ∈ ResourceExtractor.extract_all_resources (str2l "http://example.com/") imgSoup,
      ∃ raw, ResourceExtractor.normalize_url (str2l "http://example.com/") (some raw)
          = some r.url ∧
        r.url = pyUrljoin (str2l "http://example.com/") raw := by
  have hx : ∃ r, r ∈ ResourceExtractor.extract_all_resources
      (str2l "http://example.com/") imgSoup := by
    cases hx : ResourceExtractor.extract_all_resources (str2l "http://example.com/") imgSoup with
    | nil => exact absurd hx (by decide)
    | cons a t => exact ⟨a, by simp⟩
  obtain ⟨r, hr⟩ := hx
  exact ⟨r, hr,
    (C10_resources_resolve_against_base.1 (str2l "http://example.com/") imgSoup r hr)⟩

/-! ### Order lemmas for the Python comparisons and sorted() -/

/-- Helper: Python string comparison is asymmetric. -/
theorem pyStrLt_asymm : ∀ (a b : PyStr), pyStrLt a b = true → pyStrLt b a = false := by
  intro a
  induction a with
  | nil =>
    intro b h
    cases b with
    | nil => simp [pyStrLt] at h
    | cons y t => simp [pyStrLt]
  | cons x t1 ih =>
    intro b h
    cases b with
    | nil => simp [pyStrLt] at h
    | cons y t2 =>
      simp only [pyStrLt] at h ⊢
      by_cases h1 : x < y
      · simp [h1]
        omega
      · by_cases h2 : y < x
        · simp [h1, h2] at h
        · simp only [h1, h2, if_false] at h ⊢
          exact ih t2 h

/-- Helper: Python string comparison is transitive. -/
theorem pyStrLt_trans : ∀ (a b c : PyStr),
    pyStrLt a b = true → pyStrLt b c = true → pyStrLt a c = true := by
  intro a
  induction a with
  | nil =>
    intro b c h1 h2
    cases b with
    | nil => simp [pyStrLt] at h1
    | cons y t2 =>
      cases c with
      | nil => simp [pyStrLt] at h2
      | cons z t3 => simp [pyStrLt]
  | cons x t1 ih =>
    intro b c h1 h2
    cases b with
    | nil => simp [pyStrLt] at h1
    | cons y t2 =>
      cases c with
      | nil => simp [pyStrLt] at h2
      | cons z t3 =>
        simp only [pyStrLt] at h1 h2 ⊢
        by_cases hxy : x < y
        · have hxz : x < z ∨ (x = z ∧ y < z) := by
            by_cases hyz : y < z
            · left; omega
            · by_cases hzy : z < y
              · simp [hyz, hzy] at h2
              · left; omega
          rcases hxz with hxz | ⟨hxz, _⟩
          · simp [hxz]
          · omega
        · by_cases hyx : y < x
          · simp [hxy, hyx] at h1
          · have hxy2 : x = y := by omega
            subst hxy2
            by_cases hxz : x < z
            · simp [hxz]
            · by_cases hzx : z < x
              · simp [hxz, hzx] at h2
              · simp only [hxy, hxz, hzx, if_false] at h1 h2 ⊢
                exact ih t2 t3 h1 h2

/-- Helper: Python string comparison is connected: mutually not-less strings
are equal. -/
theorem pyStrLt_conn : ∀ (a b : PyStr),
    pyStrLt a b = false → pyStrLt b a = false → a = b := by
  intro a
  induction a with
  | nil =>
    intro b h1 h2
    cases b with
    | nil => rfl
    | cons y t => simp [pyStrLt] at h1
  | cons x t1 ih =>
    intro b h1 h2
    cases b with
    | nil => simp [pyStrLt] at h2
    | cons y t2 =>
      simp only [pyStrLt] at h1 h2
      by_cases hxy : x < y
      · simp [hxy] at h1
      · by_cases hyx : y < x
        · simp [hyx, hxy] at h2
        · have : x = y := by omega
          subst this
          simp only [hxy, lt_irrefl, if_false] at h1 h2
          rw [ih t2 h1 h2]

/-- Helper: comparison of string lists is asymmetric. -/
theorem pyStrListLt_asymm : ∀ (a b : List PyStr),
    pyStrListLt a b = true → pyStrListLt b a = false := by
  intro a
  induction a with
  | nil =>
    intro b h
    cases b with
    | nil => simp [pyStrListLt] at h
    | cons y t => simp [pyStrListLt]
  | cons x t1 ih =>
    intro b h
    cases b with
    | nil => simp [pyStrListLt] at h
    | cons y t2 =>
      simp only [pyStrListLt] at h ⊢
      by_cases h1 : pyStrLt x y = true
      · rw [pyStrLt_asymm x y h1]
        simp [h1]
      · by_cases h2 : pyStrLt y x = true
        · simp [h1, h2] at h
        · simp only [h1, h2, if_false, Bool.false_eq_true] at h ⊢
          exact ih t2 h

/-- Helper: comparison of string lists is transitive. -/
theorem pyStrListLt_trans : ∀ (a b c : List PyStr),
    pyStrListLt a b = true → pyStrListLt b c = true → pyStrListLt a c = true := by
  intro a
  induction a with
  | nil =>
    intro b c h1 h2
    cases b with
    | nil => simp [pyStrListLt] at h1
    | cons y t2 =>
      cases c with
      | nil => simp [pyStrListLt] at h2
      | cons z t3 => simp [pyStrListLt]
  | cons x t1 ih =>
    intro b c h1 h2
    cases b with
    | nil => simp [pyStrListLt] at h1
    | cons y t2 =>
      cases c with
      | nil => simp [pyStrListLt] at h2
      | cons z t3 =>
        simp only [pyStrListLt] at h1 h2 ⊢
        by_cases hxy : pyStrLt x y = true
        · by_cases hyz : pyStrLt y z = true
          · rw [pyStrLt_trans x y z hxy hyz]
            simp
          · by_cases hzy : pyStrLt z y = true
            · simp [hyz, hzy] at h2
            · have := pyStrLt_conn y z (by simpa using hyz) (by simpa using hzy)
              subst this
              simp [hxy]
        · by_cases hyx : pyStrLt y x = true
          · simp [hxy, hyx] at h1
          · have := pyStrLt_conn x y (by simpa using hxy) (by simpa using hyx)
            subst this
            by_cases hxz : pyStrLt x z = true
            · simp [hxz]
            · by_cases hzx : pyStrLt z x = true
              · simp [hxz, hzx] at h2
              · simp only [hxy, hxz, hzx, if_false, Bool.false_eq_true] at h1 h2 ⊢
                exact ih t2 t3 h1 h2

/-- Helper: comparison of string lists is connected. -/
theorem pyStrListLt_conn : ∀ (a b : List PyStr),
    pyStrListLt a b = false → pyStrListLt b a = false → a = b := by
  intro a
  induction a with
  | nil =>
    intro b h1 h2
    cases b with
    | nil => rfl
    | cons y t => simp [pyStrListLt] at h1
  | cons x t1 ih =>
    intro b h1 h2
    cases b with
    | nil => simp [pyStrListLt] at h2
    | cons y t2 =>
      simp only [pyStrListLt] at h1 h2
      by_cases hxy : pyStrLt x y = true
      · simp [hxy] at h1
      · by_cases hyx : pyStrLt y x = true
        · simp [hyx, hxy] at h2
        · have hx : x = y := pyStrLt_conn x y (by simpa using hxy) (by simpa using hyx)
          subst hx
          simp only [hxy, if_false] at h1 h2
          rw [ih t2 h1 h2]

/-- Helper: the pair comparison of sorted() is asymmetric. -/
theorem pairLt_asymm (a b : PyStr × List PyStr) :
    pairLt a b = true → pairLt b a = false := by
  unfold pairLt
  by_cases h1 : pyStrLt a.1 b.1 = true
  · rw [pyStrLt_asymm _ _ h1]
    simp [h1]
  · by_cases h2 : pyStrLt b.1 a.1 = true
    · simp [h1, h2]
    · simp only [h1, h2, if_false, Bool.false_eq_true]
      exact pyStrListLt_asymm a.2 b.2

/-- Helper: the pair comparison is transitive. -/
theorem pairLt_trans (a b c : PyStr × List PyStr) :
    pairLt a b = true → pairLt b c = true → pairLt a c = true := by
  obtain ⟨a1, a2⟩ := a
  obtain ⟨b1, b2⟩ := b
  obtain ⟨c1, c2⟩ := c
  unfold pairLt
  simp only
  intro h1 h2
  by_cases hab : pyStrLt a1 b1 = true
  · by_cases hbc : pyStrLt b1 c1 = true
    · rw [pyStrLt_trans _ _ _ hab hbc]
      simp
    · by_cases hcb : pyStrLt c1 b1 = true
      · simp [hbc, hcb] at h2
      · have heq := pyStrLt_conn b1 c1 (by simpa using hbc) (by simpa using hcb)
        subst heq
        simp [hab]
  · by_cases hba : pyStrLt b1 a1 = true
    · simp [hab, hba] at h1
    · have heq := pyStrLt_conn a1 b1 (by simpa using hab) (by simpa using hba)
      subst heq
      simp only [hab, if_false, Bool.false_eq_true] at h1 ⊢
      by_cases hac : pyStrLt a1 c1 = true
      · simp [hac]
      · by_cases hca : pyStrLt c1 a1 = true
        · simp [hac, hca] at h2
        · simp only [hac, hca, if_false, Bool.false_eq_true] at h2 ⊢
          exact pyStrListLt_trans _ _ _ h1 h2

/-- Helper: the pair comparison is connected. -/
theorem pairLt_conn (a b : PyStr × List PyStr) :
    pairLt a b = false → pairLt b a = false → a = b := by
  obtain ⟨a1, a2⟩ := a
  obtain ⟨b1, b2⟩ := b
  unfold pairLt
  simp only
  intro h1 h2
  by_cases hab : pyStrLt a1 b1 = true
  · simp [hab] at h1
  · by_cases hba : pyStrLt b1 a1 = true
    · simp [hba, hab] at h2
    · have heq := pyStrLt_conn a1 b1 (by simpa using hab) (by simpa using hba)
      subst heq
      simp only [hab, if_false, Bool.false_eq_true] at h1 h2
      rw [pyStrListLt_conn a2 b2 h1 h2]

/-- Helper: negative transitivity of the pair comparison, the shape the
insertion-sort invariant needs. -/
theorem pairLt_negtrans (a b c : PyStr × List PyStr) :
    pairLt a b = false → pairLt b c = false → pairLt a c = false := by
  intro h1 h2
  cases hc : pairLt a c with
  | false => rfl
  | true =>
    exfalso
    cases hcb : pairLt c b with
    | false =>
      have heq := pairLt_conn b c h2 hcb
      subst heq
      exact absurd hc (by simp [h1])
    | true =>
      have := pairLt_trans a c b hc hcb
      exact absurd this (by simp [h1])

/-! ### Insertion-sort lemmas for sorted() -/

/-- Helper: membership through insertion. -/
theorem insertPair_mem {α : Type} (lt : α → α → Bool) (x : α) :
    ∀ (l : List α) (z : α), z ∈ insertPair lt x l ↔ z = x ∨ z ∈ l := by
  intro l
  induction l with
  | nil => simp [insertPair]
  | cons y ys ih =>
    intro z
    unfold insertPair
    split
    · simp [List.mem_cons]
    · simp [List.mem_cons, ih]
      tauto

/-- Helper: insertion preserves ascending sortedness. -/
theorem insertPair_pairwise {α : Type} (lt : α → α → Bool)
    (hasymm : ∀ a b, lt a b = true → lt b a = false)
    (hneg : ∀ a b c, lt a b = false → lt b c = false → lt a c = false)
    (x : α) : ∀ (l : List α),
    List.Pairwise (fun a b => lt b a = false) l →
    List.Pairwise (fun a b => lt b a = false) (insertPair lt x l) := by
  intro l
  induction l with
  | nil => simp [insertPair]
  | cons y ys ih =>
    intro hp
    rw [List.pairwise_cons] at hp
    unfold insertPair
    split
    · rename_i hlt
      rw [List.pairwise_cons]
      constructor
      · intro z hz
        rw [List.mem_cons] at hz
        rcases hz with hz | hz
        · subst hz
          exact hasymm _ _ hlt
        · exact hneg z y x (hp.1 z hz) (hasymm _ _ hlt)
      · rw [List.pairwise_cons]
        exact hp
    · rename_i hnlt
      rw [List.pairwise_cons]
      constructor
      · intro z hz
        rw [insertPair_mem] at hz
        rcases hz with hz | hz
        · subst hz
          simpa using hnlt
        · exact hp.1 z hz
      · exact ih hp.2

/-- Helper: the fold of sorted() preserves sortedness of the accumulator. -/
theorem sortFold_pairwise {α : Type} (lt : α → α → Bool)
    (hasymm : ∀ a b, lt a b = true → lt b a = false)
    (hneg : ∀ a b c, lt a b = false → lt b c = false → lt a c = false) :
    ∀ (l acc : List α), List.Pairwise (fun a b => lt b a = false) acc →
      List.Pairwise (fun a b => lt b a = false)
        (l.foldl (fun acc x => insertPair lt x acc) acc) := by
  intro l
  induction l with
  | nil => intro acc h; simpa
  | cons x t ih =>
    intro acc h
    rw [List.foldl_cons]
    exact ih _ (insertPair_pairwise lt hasymm hneg x acc h)

/-- Helper: sorted() output is ascending under an asymmetric, negatively
transitive comparison. -/
theorem pySortedList_pairwise {α : Type} (lt : α → α → Bool)
    (hasymm : ∀ a b, lt a b = true → lt b a = false)
    (hneg : ∀ a b c, lt a b = false → lt b c = false → lt a c = false)
    (l : List α) :
    List.Pairwise (fun a b => lt b a = false) (pySortedList lt l) :=
  sortFold_pairwise lt hasymm hneg l [] (by simp)

/-- Helper: the fold of sorted() preserves the element set. -/
theorem sortFold_mem {α : Type} (lt : α → α → Bool) :
    ∀ (l acc : List α) (z : α),
      z ∈ l.foldl (fun acc x => insertPair lt x acc) acc ↔ z ∈ acc ∨ z ∈ l := by
  intro l
  induction l with
  | nil => simp
  | cons x t ih =>
    intro acc z
    rw [List.foldl_cons, ih, insertPair_mem]
    simp
    tauto

/-- Helper: membership in sorted() output. -/
theorem pySortedList_mem {α : Type} (lt : α → α → Bool) (l : List α) (z : α) :
    z ∈ pySortedList lt l ↔ z ∈ l := by
  unfold pySortedList
  rw [sortFold_mem]
  simp

/-- Helper: inserting an element not below any list element appends it. -/
theorem insertPair_append {α : Type} (lt : α → α → Bool) (x : α) :
    ∀ (l : List α), (∀ y ∈ l, lt x y = false) → insertPair lt x l = l ++ [x] := by
  intro l
  induction l with
  | nil => simp [insertPair]
  | cons y ys ih =>
    intro h
    unfold insertPair
    rw [if_neg]
    · rw [ih (fun z hz => h z (List.mem_cons_of_mem _ hz))]
      simp
    · have := h y (List.mem_cons_self _ _)
      simp [this]

/-- Helper: the fold of sorted() is the identity extension on an already
sorted input. -/
theorem sortFold_sorted_eq {α : Type} (lt : α → α → Bool) :
    ∀ (l acc : List α),
      List.Pairwise (fun a b => lt b a = false) (acc ++ l) →
      l.foldl (fun acc x => insertPair lt x acc) acc = acc ++ l := by
  intro l
  induction l with
  | nil => intro acc h; simp
  | cons x t ih =>
    intro acc hp
    rw [List.foldl_cons]
    have hx : ∀ y ∈ acc, lt x y = false := by
      intro y hy
      exact (List.pairwise_append.mp hp).2.2 y hy x (List.mem_cons_self _ _)
    rw [insertPair_append lt x acc hx]
    have heq : acc ++ x :: t = (acc ++ [x]) ++ t := by simp
    rw [heq] at hp
    rw [ih (acc ++ [x]) hp]
    simp

/-- Helper: Python sorted() leaves an already ascending list unchanged. -/
theorem pySortedList_of_sorted {α : Type} (lt : α → α → Bool) (l : List α)
    (h : List.Pairwise (fun a b => lt b a = false) l) : pySortedList lt l = l :=
  sortFold_sorted_eq lt l [] (by simpa)

/-! ### Lowercasing and rsplit helpers -/

/-- Helper: ASCII lowercasing of one code point is idempotent. -/
theorem lowerChar_idem (n : Nat) : lowerChar (lowerChar n) = lowerChar n := by
  simp only [lowerChar]
  by_cases h : 65 ≤ n ∧ n ≤ 90
  · simp only [if_pos h]
    rw [if_neg (by omega)]
  · simp only [if_neg h]

/-- Helper: str.lower is idempotent. -/
theorem pyLower_idem (s : PyStr) : pyLower (pyLower s) = pyLower s := by
  simp only [pyLower, List.map_map]
  apply List.map_congr_left
  intro x _
  exact lowerChar_idem x

/-- Helper: a successful splitOnce decomposes its input around the first
occurrence of the separator. -/
theorem splitOnce_eq (c : Nat) :
    ∀ (l a b : PyStr), splitOnce c l = some (a, b) → l = a ++ c :: b := by
  intro l
  induction l with
  | nil => intro a b h; simp [splitOnce] at h
  | cons x xs ih =>
    intro a b h
    unfold splitOnce at h
    split at h
    · rename_i hx
      subst hx
      simp only [Option.some.injEq, Prod.mk.injEq] at h
      obtain ⟨ha, hb⟩ := h
      subst ha
      subst hb
      simp
    · cases hsp : splitOnce c xs with
      | none => rw [hsp] at h; simp at h
      | some p =>
        rw [hsp] at h
        simp only [Option.map_some', Option.some.injEq, Prod.mk.injEq] at h
        obtain ⟨ha, hb⟩ := h
        subst hb
        rw [← ha, ih p.1 p.2 (by rw [hsp])]
        simp

/-- Helper: a prefix of a string fixed by str.lower is itself fixed. -/
theorem pyLower_of_prefix (a t : PyStr) (h : pyLower (a ++ t) = a ++ t) :
    pyLower a = a := by
  simp only [pyLower, List.map_append] at h
  have hlen : (List.map lowerChar a).length = a.length := by simp
  exact (List.append_inj h hlen).1

/-- Helper: rsplit[0] of a string fixed by str.lower is itself fixed. -/
theorem beforeLast_lower (c : Nat) (l : PyStr) (h : pyLower l = l) :
    pyLower (beforeLast c l) = beforeLast c l := by
  unfold beforeLast
  cases hsp : splitOnce c l.reverse with
  | none => exact h
  | some p =>
    have heq : l.reverse = p.1 ++ c :: p.2 := splitOnce_eq c l.reverse p.1 p.2 (by rw [hsp])
    have hl : l = p.2.reverse ++ (c :: p.1.reverse) := by
      have h2 := congrArg List.reverse heq
      simpa [List.reverse_append] using h2
    rw [hl] at h
    exact pyLower_of_prefix p.2.reverse (c :: p.1.reverse) h

/-- C2: the canonical form produced by normalize_url_advanced with the URL as
its own base is the urlunparse of a lowercase scheme, a lowercase host, a
nonempty path, empty params and fragment, and a query re-encoded from
key-sorted, tracking-free (key, values) pairs; in particular it maps
'HTTPS://WWW.Example.COM:443/path?c=3&b=2&utm_campaign=test#header' to
'https://www.example.com/path?b=2&c=3' (lowercases scheme and host, strips
the default port, drops the fragment and the tracking key, sorts the query)
and 'http://example.com?utm_source=google&id=123' to
'http://example.com/?id=123' (substitutes '/' for the empty path and removes
the tracking key). -/
theorem C2_normalize_advanced_canonical :
    (∀ u n, LinkDetector.normalize_url_advanced u u = some n →
      ∃ s h p L, n = pyUrlunparse s h p [] (pyUrlencode L) [] ∧
        pyLower s = s ∧ pyLower h = h ∧ p ≠ [] ∧
        List.Pairwise (fun a b => pairLt b a = false) L ∧
        ∀ kv ∈ L, kv.1 ∉ LinkDetector.trackingParams) ∧
    LinkDetector.normalize_url_advanced
      (str2l "HTTPS://WWW.Example.COM:443/path?c=3&b=2&utm_campaign=test#header")
      (str2l "HTTPS://WWW.Example.COM:443/path?c=3&b=2&utm_campaign=test#header")
      = some (str2l "https://www.example.com/path?b=2&c=3") ∧
    LinkDetector.normalize_url_advanced
      (str2l "http://example.com?utm_source=google&id=123")
      (str2l "http://example.com?utm_source=google&id=123")
      = some (str2l "http://example.com/?id=123") := by
  refine ⟨?_, by decide, by decide⟩
  intro u n hu
  unfold LinkDetector.normalize_url_advanced at hu
  split at hu
  · exact absurd hu (by simp)
  · simp only [Option.some.injEq] at hu
    subst hu
    refine ⟨_, _, _, _, rfl, pyLower_idem _, ?_, ?_, ?_, ?_⟩
    · split
      · exact beforeLast_lower 58 _ (pyLower_idem _)
      · exact pyLower_idem _
    · split
      · simp
      · assumption
    · exact pySortedList_pairwise pairLt pairLt_asymm pairLt_negtrans _
    · intro kv hkv
      simp only [LinkDetector.sortedFiltered, pySortedList_mem, List.mem_filter] at hkv
      simpa using hkv.2

/-- Witness for C2 at a concrete URL with a nonempty path and no query. -/
theorem C2_normalize_advanced_canonical_witness :
    (LinkDetector.normalize_url_advanced (str2l "http://h/p") (str2l "http://h/p")
       = some (str2l "http://h/p")) ∧
    ∃ s h p L, str2l "http://h/p" = pyUrlunparse s h p [] (pyUrlencode L) [] ∧
      pyLower s = s ∧ pyLower h = h ∧ p ≠ [] ∧
      List.Pairwise (fun a b => pairLt b a = false) L ∧
      ∀ kv ∈ L, kv.1 ∉ LinkDetector.trackingParams :=
  ⟨by decide, C2_normalize_advanced_canonical.1 (str2l "http://h/p")
    (str2l "http://h/p") (by decide)⟩


/-! ### quote_plus / unquote roundtrip -/

/-- Helper: the tokenizer passes a non-percent character through as a literal. -/
theorem unqTokens_cons_ne (c : Nat) (r : List Nat) (h : c ≠ 37) :
    unqTokens (c :: r) = UnqTok.lit c :: unqTokens r := by
  rw [unqTokens.eq_def]
  split
  · rename_i heq
    exact absurd heq (by simp)
  · rename_i heq
    injection heq with h1 h2
    exact absurd h1 h
  · rename_i heq
    injection heq with h1 h2
    exact absurd h1 h
  · rename_i heq
    injection heq with h1 h2
    subst h1
    subst h2
    rfl

/-- Helper: hexVal inverts the uppercase hex formatter below 16. -/
theorem hexVal_hexDigitUpper (n : Nat) (h : n < 16) :
    hexVal (hexDigitUpper n) = some n := by
  simp only [hexVal, hexDigitUpper]
  by_cases h10 : n < 10
  · rw [if_pos h10, if_pos (by omega)]
    simp only [Option.some.injEq]
    omega
  · rw [if_neg h10, if_neg (by omega), if_pos (by omega)]
    simp only [Option.some.injEq]
    omega

/-- Helper: the tokenizer turns a valid percent escape into one byte token. -/
theorem unqTokens_escape (h1 h2 : Nat) (a b : Nat) (r : List Nat)
    (ha : hexVal h1 = some a) (hb : hexVal h2 = some b) :
    unqTokens (37 :: h1 :: h2 :: r) = UnqTok.byte (16 * a + b) :: unqTokens r := by
  rw [unqTokens.eq_def]
  simp [ha, hb]

/-- Helper: the decoder emits a literal token unchanged from a fresh state. -/
theorem unqRun_lit (c : Nat) (ts : List UnqTok) :
    unqRun none (UnqTok.lit c :: ts) = c :: unqRun none ts := by
  simp [unqRun, unqStep, unqStart]

/-- Helper: the decoder inverts the UTF-8 encoder on one encodable code point. -/
theorem unqRun_utf8 (c : Nat) (hv : validChar c = true) (ts : List UnqTok) :
    unqRun none ((utf8Enc c).map UnqTok.byte ++ ts) = c :: unqRun none ts := by
  have hv2 : c < 0xD800 ∨ (0xE000 ≤ c ∧ c < 0x110000) := by
    simpa [validChar, decide_eq_true_eq] using hv
  by_cases h1 : c < 0x80
  case pos =>
    simp only [utf8Enc, if_pos h1, List.map_cons, List.map_nil, List.cons_append,
      List.nil_append, unqRun, unqStep, unqStart, if_pos h1]
  case neg =>
  by_cases h2 : c < 0x800
  case pos =>
    simp only [utf8Enc, if_neg h1, if_pos h2, List.map_cons, List.map_nil,
      List.cons_append, List.nil_append]
    have s1 : unqStep none (UnqTok.byte (0xC0 + c / 64)) = ([], some (Pending.p1 (0xC0 + c / 64))) := by
      simp only [unqStep, unqStart]
      rw [if_neg (by omega), if_pos (by omega)]
    have hc1 : contOK1 (0xC0 + c / 64) (0x80 + c % 64) = true := by
      simp only [contOK1, isCont, cont2Lo, cont2Hi, cont3Lo, cont3Hi]
      split_ifs <;> simp only [decide_eq_true_eq] <;> omega
    have s2 : unqStep (some (Pending.p1 (0xC0 + c / 64))) (UnqTok.byte (0x80 + c % 64))
        = ([c], none) := by
      simp only [unqStep]
      rw [if_pos hc1, if_pos (by omega : (0xC0 + c / 64) ≤ 0xDF)]
      simp only [Prod.mk.injEq, List.cons.injEq, and_true]
      omega
    simp only [unqRun, s1, List.nil_append, s2, List.cons_append]
  case neg =>
  by_cases h3 : c < 0x10000
  case pos =>
    simp only [utf8Enc, if_neg h1, if_neg h2, if_pos h3, List.map_cons, List.map_nil,
      List.cons_append, List.nil_append]
    have s1 : unqStep none (UnqTok.byte (0xE0 + c / 4096)) = ([], some (Pending.p1 (0xE0 + c / 4096))) := by
      simp only [unqStep, unqStart]
      rw [if_neg (by omega), if_pos (by omega)]
    have hc1 : contOK1 (0xE0 + c / 4096) (0x80 + c / 64 % 64) = true := by
      simp only [contOK1, isCont, cont2Lo, cont2Hi, cont3Lo, cont3Hi]
      split_ifs <;> simp only [decide_eq_true_eq] <;> omega
    have s2 : unqStep (some (Pending.p1 (0xE0 + c / 4096))) (UnqTok.byte (0x80 + c / 64 % 64))
        = ([], some (Pending.p2 (0xE0 + c / 4096) (0x80 + c / 64 % 64))) := by
      simp only [unqStep]
      rw [if_pos hc1, if_neg (by omega : ¬ (0xE0 + c / 4096) ≤ 0xDF)]
    have hc2 : isCont (0x80 + c % 64) = true := by
      simp only [isCont, decide_eq_true_eq]
      omega
    have s3 : unqStep (some (Pending.p2 (0xE0 + c / 4096) (0x80 + c / 64 % 64))) (UnqTok.byte (0x80 + c % 64))
        = ([c], none) := by
      simp only [unqStep]
      rw [if_pos hc2, if_pos (by omega : (0xE0 + c / 4096) ≤ 0xEF)]
      simp only [Prod.mk.injEq, List.cons.injEq, and_true]
      omega
    simp only [unqRun, s1, s2, s3, List.nil_append, List.cons_append]
  case neg =>
    have h4 : c < 0x110000 := by omega
    simp only [utf8Enc, if_neg h1, if_neg h2, if_neg h3, List.map_cons, List.map_nil,
      List.cons_append, List.nil_append]
    have s1 : unqStep none (UnqTok.byte (0xF0 + c / 262144)) = ([], some (Pending.p1 (0xF0 + c / 262144))) := by
      simp only [unqStep, unqStart]
      rw [if_neg (by omega), if_pos (by omega)]
    have hc1 : contOK1 (0xF0 + c / 262144) (0x80 + c / 4096 % 64) = true := by
      simp only [contOK1, isCont, cont2Lo, cont2Hi, cont3Lo, cont3Hi]
      split_ifs <;> simp only [decide_eq_true_eq] <;> omega
    have s2 : unqStep (some (Pending.p1 (0xF0 + c / 262144))) (UnqTok.byte (0x80 + c / 4096 % 64))
        = ([], some (Pending.p2 (0xF0 + c / 262144) (0x80 + c / 4096 % 64))) := by
      simp only [unqStep]
      rw [if_pos hc1, if_neg (by omega : ¬ (0xF0 + c / 262144) ≤ 0xDF)]
    have hc2 : isCont (0x80 + c / 64 % 64) = true := by
      simp only [isCont, decide_eq_true_eq]
      omega
    have s3 : unqStep (some (Pending.p2 (0xF0 + c / 262144) (0x80 + c / 4096 % 64))) (UnqTok.byte (0x80 + c / 64 % 64))
        = ([], some (Pending.p3 (0xF0 + c / 262144) (0x80 + c / 4096 % 64) (0x80 + c / 64 % 64))) := by
      simp only [unqStep]
      rw [if_pos hc2, if_neg (by omega : ¬ (0xF0 + c / 262144) ≤ 0xEF)]
    have hc3 : isCont (0x80 + c % 64) = true := by
      simp only [isCont, decide_eq_true_eq]
      omega
    have s4 : unqStep (some (Pending.p3 (0xF0 + c / 262144) (0x80 + c / 4096 % 64) (0x80 + c / 64 % 64))) (UnqTok.byte (0x80 + c % 64))
        = ([c], none) := by
      simp only [unqStep]
      rw [if_pos hc3]
      simp only [Prod.mk.injEq, List.cons.injEq, and_true]
      omega
    simp only [unqRun, s1, s2, s3, s4, List.nil_append, List.cons_append]

/-- Helper: a decoder step that emits nothing leaves a pending sequence. -/
theorem unqStep_nil_pending (pend : Option Pending) (t : UnqTok)
    (h : (unqStep pend t).1 = []) : (unqStep pend t).2 ≠ none := by
  cases pend with
  | none =>
    cases t with
    | lit c => simp [unqStep, unqStart] at h
    | byte b =>
      simp only [unqStep, unqStart] at h ⊢
      split_ifs at h ⊢ <;> simp_all
  | some p =>
    cases p with
    | p1 b0 =>
      cases t with
      | lit c => simp [unqStep] at h
      | byte b =>
        simp only [unqStep, unqStart] at h ⊢
        split_ifs at h ⊢ <;> simp_all
    | p2 b0 c1 =>
      cases t with
      | lit c => simp [unqStep] at h
      | byte b =>
        simp only [unqStep, unqStart] at h ⊢
        split_ifs at h ⊢ <;> simp_all
    | p3 b0 c1 c2 =>
      cases t with
      | lit c => simp [unqStep] at h
      | byte b =>
        simp only [unqStep, unqStart] at h ⊢
        split_ifs at h ⊢ <;> simp_all

/-- Helper: the decoder emits at least one character on nonempty input. -/
theorem unqRun_ne_nil : ∀ (ts : List UnqTok) (pend : Option Pending),
    (pend ≠ none ∨ ts ≠ []) → unqRun pend ts ≠ [] := by
  intro ts
  induction ts with
  | nil =>
    intro pend h
    cases pend with
    | none => rcases h with h | h <;> simp_all [unqRun]
    | some p => simp [unqRun]
  | cons t ts ih =>
    intro pend h
    simp only [unqRun]
    cases hr : (unqStep pend t).1 with
    | cons a l => simp
    | nil =>
      simp only [List.nil_append]
      exact ih _ (Or.inl (unqStep_nil_pending pend t hr))

set_option maxRecDepth 4000

/-- Helper: one decoder step emits only encodable code points and preserves the
reachable-pending-state invariant. -/
theorem unqStep_valid (pend : Option Pending) (t : UnqTok)
    (hinv : match pend with
      | none => True
      | some (Pending.p1 b0) =>
          (0xC2 ≤ b0 ∧ b0 ≤ 0xDF) ∨ (0xE0 ≤ b0 ∧ b0 ≤ 0xEF) ∨ (0xF0 ≤ b0 ∧ b0 ≤ 0xF4)
      | some (Pending.p2 b0 c1) =>
          (0xE0 ≤ b0 ∧ b0 ≤ 0xEF ∧ cont2Lo b0 ≤ c1 ∧ c1 ≤ cont2Hi b0) ∨
          (0xF0 ≤ b0 ∧ b0 ≤ 0xF4 ∧ cont3Lo b0 ≤ c1 ∧ c1 ≤ cont3Hi b0)
      | some (Pending.p3 b0 c1 c2) =>
          0xF0 ≤ b0 ∧ b0 ≤ 0xF4 ∧ cont3Lo b0 ≤ c1 ∧ c1 ≤ cont3Hi b0 ∧
          0x80 ≤ c2 ∧ c2 ≤ 0xBF)
    (hlit : ∀ c, t = UnqTok.lit c → validChar c = true) :
    (∀ d, d ∈ (unqStep pend t).1 → validChar d = true) ∧
    (match (unqStep pend t).2 with
      | none => True
      | some (Pending.p1 b0) =>
          (0xC2 ≤ b0 ∧ b0 ≤ 0xDF) ∨ (0xE0 ≤ b0 ∧ b0 ≤ 0xEF) ∨ (0xF0 ≤ b0 ∧ b0 ≤ 0xF4)
      | some (Pending.p2 b0 c1) =>
          (0xE0 ≤ b0 ∧ b0 ≤ 0xEF ∧ cont2Lo b0 ≤ c1 ∧ c1 ≤ cont2Hi b0) ∨
          (0xF0 ≤ b0 ∧ b0 ≤ 0xF4 ∧ cont3Lo b0 ≤ c1 ∧ c1 ≤ cont3Hi b0)
      | some (Pending.p3 b0 c1 c2) =>
          0xF0 ≤ b0 ∧ b0 ≤ 0xF4 ∧ cont3Lo b0 ≤ c1 ∧ c1 ≤ cont3Hi b0 ∧
          0x80 ≤ c2 ∧ c2 ≤ 0xBF) := by
  have hstart : ∀ b : Nat,
      (∀ d, d ∈ (unqStart (UnqTok.byte b)).1 → validChar d = true) ∧
      (match (unqStart (UnqTok.byte b)).2 with
        | none => True
        | some (Pending.p1 b0) =>
            (0xC2 ≤ b0 ∧ b0 ≤ 0xDF) ∨ (0xE0 ≤ b0 ∧ b0 ≤ 0xEF) ∨ (0xF0 ≤ b0 ∧ b0 ≤ 0xF4)
        | some (Pending.p2 b0 c1) =>
            (0xE0 ≤ b0 ∧ b0 ≤ 0xEF ∧ cont2Lo b0 ≤ c1 ∧ c1 ≤ cont2Hi b0) ∨
            (0xF0 ≤ b0 ∧ b0 ≤ 0xF4 ∧ cont3Lo b0 ≤ c1 ∧ c1 ≤ cont3Hi b0)
        | some (Pending.p3 b0 c1 c2) =>
            0xF0 ≤ b0 ∧ b0 ≤ 0xF4 ∧ cont3Lo b0 ≤ c1 ∧ c1 ≤ cont3Hi b0 ∧
            0x80 ≤ c2 ∧ c2 ≤ 0xBF) := by
    intro b
    simp only [unqStart]
    split_ifs with hb1 hb2
    · refine ⟨?_, trivial⟩
      intro d hd
      simp only [List.mem_singleton] at hd
      subst hd
      simp only [validChar, decide_eq_true_eq]
      omega
    · exact ⟨by simp, by omega⟩
    · refine ⟨?_, trivial⟩
      intro d hd
      simp only [List.mem_singleton] at hd
      subst hd
      simp only [validChar, REPL, decide_eq_true_eq]
      omega
  cases pend with
  | none =>
    cases t with
    | lit c =>
      refine ⟨?_, trivial⟩
      intro d hd
      simp only [unqStep, unqStart, List.mem_singleton] at hd
      subst hd
      exact hlit d rfl
    | byte b =>
      simpa only [unqStep] using hstart b
  | some p =>
    cases p with
    | p1 b0 =>
      cases t with
      | lit c =>
        refine ⟨?_, trivial⟩
        intro d hd
        simp only [unqStep, List.mem_cons, List.mem_singleton, List.not_mem_nil, or_false] at hd
        rcases hd with hd | hd
        · subst hd
          simp only [validChar, REPL, decide_eq_true_eq]
          omega
        · subst hd
          exact hlit d rfl
      | byte b =>
        simp only [unqStep]
        split_ifs with hok hdf
        · refine ⟨?_, trivial⟩
          intro d hd
          simp only [List.mem_singleton] at hd
          subst hd
          simp only [contOK1, if_pos hdf, isCont, decide_eq_true_eq] at hok
          simp only [validChar, decide_eq_true_eq]
          omega
        · simp only [contOK1, if_neg hdf] at hok
          refine ⟨by simp, ?_⟩
          split_ifs at hok with hef
          · simp only [decide_eq_true_eq] at hok
            left
            refine ⟨by omega, by omega, hok.1, hok.2⟩
          · simp only [decide_eq_true_eq] at hok
            right
            rcases hinv with h | h | h
            · omega
            · omega
            · refine ⟨by omega, by omega, hok.1, hok.2⟩
        · have hs := hstart b
          refine ⟨?_, hs.2⟩
          intro d hd
          simp only [List.mem_cons] at hd
          rcases hd with hd | hd
          · subst hd
            simp only [validChar, REPL, decide_eq_true_eq]
            omega
          · exact hs.1 d hd
    | p2 b0 c1 =>
      cases t with
      | lit c =>
        refine ⟨?_, trivial⟩
        intro d hd
        simp only [unqStep, List.mem_cons, List.mem_singleton, List.not_mem_nil, or_false] at hd
        rcases hd with hd | hd
        · subst hd
          simp only [validChar, REPL, decide_eq_true_eq]
          omega
        · subst hd
          exact hlit d rfl
      | byte b =>
        simp only [unqStep]
        split_ifs with hok hef
        · refine ⟨?_, trivial⟩
          intro d hd
          simp only [List.mem_singleton] at hd
          subst hd
          simp only [isCont, decide_eq_true_eq] at hok
          rcases hinv with h | h
          · simp only [cont2Lo, cont2Hi] at h
            simp only [validChar, decide_eq_true_eq]
            by_cases he0 : b0 = 0xE0
            · rw [if_pos he0] at h
              rw [if_neg (by omega : ¬b0 = 0xED)] at h
              omega
            · rw [if_neg he0] at h
              by_cases hed : b0 = 0xED
              · rw [if_pos hed] at h
                omega
              · rw [if_neg hed] at h
                omega
          · omega
        · simp only [isCont, decide_eq_true_eq] at hok
          refine ⟨by simp, ?_⟩
          rcases hinv with h | h
          · omega
          · exact ⟨h.1, h.2.1, h.2.2.1, h.2.2.2, hok.1, hok.2⟩
        · have hs := hstart b
          refine ⟨?_, hs.2⟩
          intro d hd
          simp only [List.mem_cons] at hd
          rcases hd with hd | hd
          · subst hd
            simp only [validChar, REPL, decide_eq_true_eq]
            omega
          · exact hs.1 d hd
    | p3 b0 c1 c2 =>
      cases t with
      | lit c =>
        refine ⟨?_, trivial⟩
        intro d hd
        simp only [unqStep, List.mem_cons, List.mem_singleton, List.not_mem_nil, or_false] at hd
        rcases hd with hd | hd
        · subst hd
          simp only [validChar, REPL, decide_eq_true_eq]
          omega
        · subst hd
          exact hlit d rfl
      | byte b =>
        simp only [unqStep]
        split_ifs with hok
        · refine ⟨?_, trivial⟩
          intro d hd
          simp only [List.mem_singleton] at hd
          subst hd
          simp only [isCont, decide_eq_true_eq] at hok
          obtain ⟨h1, h2, h3, h4, h5, h6⟩ := hinv
          simp only [cont3Lo, cont3Hi] at h3 h4
          simp only [validChar, decide_eq_true_eq]
          by_cases hf0 : b0 = 0xF0
          · rw [if_pos hf0] at h3
            rw [if_neg (by omega : ¬b0 = 0xF4)] at h4
            omega
          · rw [if_neg hf0] at h3
            by_cases hf4 : b0 = 0xF4
            · rw [if_pos hf4] at h4
              omega
            · rw [if_neg hf4] at h4
              omega
        · have hs := hstart b
          refine ⟨?_, hs.2⟩
          intro d hd
          simp only [List.mem_cons] at hd
          rcases hd with hd | hd
          · subst hd
            simp only [validChar, REPL, decide_eq_true_eq]
            omega
          · exact hs.1 d hd

/-- Helper: the decoder emits only encodable code points when the literal tokens are encodable. -/
theorem unqRun_valid : ∀ (ts : List UnqTok) (pend : Option Pending),
    (∀ c, UnqTok.lit c ∈ ts → validChar c = true) →
    (match pend with
      | none => True
      | some (Pending.p1 b0) =>
          (0xC2 ≤ b0 ∧ b0 ≤ 0xDF) ∨ (0xE0 ≤ b0 ∧ b0 ≤ 0xEF) ∨ (0xF0 ≤ b0 ∧ b0 ≤ 0xF4)
      | some (Pending.p2 b0 c1) =>
          (0xE0 ≤ b0 ∧ b0 ≤ 0xEF ∧ cont2Lo b0 ≤ c1 ∧ c1 ≤ cont2Hi b0) ∨
          (0xF0 ≤ b0 ∧ b0 ≤ 0xF4 ∧ cont3Lo b0 ≤ c1 ∧ c1 ≤ cont3Hi b0)
      | some (Pending.p3 b0 c1 c2) =>
          0xF0 ≤ b0 ∧ b0 ≤ 0xF4 ∧ cont3Lo b0 ≤ c1 ∧ c1 ≤ cont3Hi b0 ∧
          0x80 ≤ c2 ∧ c2 ≤ 0xBF) →
    ∀ d, d ∈ unqRun pend ts → validChar d = true := by
  intro ts
  induction ts with
  | nil =>
    intro pend hlit hinv d hd
    cases pend with
    | none => simp [unqRun] at hd
    | some p =>
      simp only [unqRun, List.mem_singleton] at hd
      subst hd
      decide
  | cons t ts ih =>
    intro pend hlit hinv d hd
    simp only [unqRun, List.mem_append] at hd
    have hstep := unqStep_valid pend t hinv
      (fun c hc => hlit c (by rw [hc]; exact List.mem_cons_self _ _))
    rcases hd with hd | hd
    · exact hstep.1 d hd
    · exact ih _ (fun c hc => hlit c (List.mem_cons_of_mem _ hc)) hstep.2 d hd

/-- Helper: every literal token of the tokenizer is a character of the input. -/
theorem unqTokens_lit_mem : ∀ (s : List Nat) (c : Nat),
    UnqTok.lit c ∈ unqTokens s → c ∈ s := by
  intro s
  induction s using unqTokens.induct with
  | case1 =>
    intro c hc
    simp [unqTokens] at hc
  | case2 c1 c2 rest2 h1 h2 hb ha ih =>
    intro c hc
    rw [unqTokens_escape c1 c2 h1 h2 rest2 ha hb] at hc
    simp only [List.mem_cons] at hc
    rcases hc with hc | hc
    · exact absurd hc (by simp)
    · exact List.mem_cons_of_mem _ (List.mem_cons_of_mem _ (List.mem_cons_of_mem _ (ih c hc)))
  | case3 c1 c2 rest2 hne ih =>
    intro c hc
    have heq : unqTokens (37 :: c1 :: c2 :: rest2) = UnqTok.lit 37 :: unqTokens (c1 :: c2 :: rest2) := by
      rw [unqTokens.eq_def]
      split
      · rename_i heq2
        exact absurd heq2 (by simp)
      · rename_i c1x c2x rest2x heq2
        injection heq2 with h1x h2x
        injection h2x with ha2 hb2
        injection hb2 with hb1 hb3
        subst ha2
        subst hb1
        subst hb3
        split
        · rename_i a b ha hb
          exact (hne a b ha hb).elim
        · rfl
      · rename_i restx hsh heq2
        injection heq2 with h1x h2x
        exact (hsh c1 c2 rest2 h2x.symm).elim
      · rename_i cx restx hsh h37 heq2
        injection heq2 with h1x h2x
        exact absurd h1x.symm h37
    rw [heq] at hc
    simp only [List.mem_cons] at hc
    rcases hc with hc | hc
    · injection hc with h
      subst h
      exact List.mem_cons_self _ _
    · exact List.mem_cons_of_mem _ (ih c hc)
  | case4 rest hshape ih =>
    intro c hc
    have heq : unqTokens (37 :: rest) = UnqTok.lit 37 :: unqTokens rest := by
      rw [unqTokens.eq_def]
      split
      · rename_i heq2
        exact absurd heq2 (by simp)
      · rename_i c1x c2x rest2x heq2
        injection heq2 with h1x h2x
        exact (hshape c1x c2x rest2x h2x).elim
      · rename_i restx hsh heq2
        injection heq2 with h1x h2x
        rw [h2x]
      · rename_i cx restx hsh h37 heq2
        injection heq2 with h1x h2x
        exact absurd h1x.symm h37
    rw [heq] at hc
    simp only [List.mem_cons] at hc
    rcases hc with hc | hc
    · injection hc with h
      subst h
      exact List.mem_cons_self _ _
    · exact List.mem_cons_of_mem _ (ih c hc)
  | case5 c0 rest h37shape hne ih =>
    intro c hc
    rw [unqTokens_cons_ne c0 rest (fun h => hne h)] at hc
    simp only [List.mem_cons] at hc
    rcases hc with hc | hc
    · injection hc with h
      subst h
      exact List.mem_cons_self _ _
    · exact List.mem_cons_of_mem _ (ih c hc)

/-- Helper: UTF-8 bytes of an in-range code point are below 256. -/
theorem utf8Enc_bounds (c : Nat) (h : c < 0x110000) : ∀ b, b ∈ utf8Enc c → b < 256 := by
  intro b hb
  simp only [utf8Enc] at hb
  split_ifs at hb <;> simp only [List.mem_cons, List.mem_singleton, List.not_mem_nil, or_false] at hb <;>
    rcases hb with hb | hb | hb | hb <;> omega

/-- Helper: percent escapes contain no plus sign, so the plus-to-space pass keeps them. -/
theorem plusToSpace_pct (bs : List Nat) :
    plusToSpace (bs.flatMap pctEscape) = bs.flatMap pctEscape := by
  induction bs with
  | nil => rfl
  | cons b bs ih =>
    simp only [List.flatMap_cons, plusToSpace, List.map_append] at ih ⊢
    rw [ih]
    simp only [pctEscape, hexDigitUpper, List.map_cons, List.map_nil]
    split_ifs <;> first | rfl | omega

/-- Helper: the tokenizer maps a run of percent escapes to the corresponding byte tokens. -/
theorem unqTokens_pct : ∀ (bs : List Nat), (∀ b, b ∈ bs → b < 256) → ∀ (r : List Nat),
    unqTokens (bs.flatMap pctEscape ++ r) = bs.map UnqTok.byte ++ unqTokens r := by
  intro bs
  induction bs with
  | nil => intro h r; simp
  | cons b bs ih =>
    intro h r
    have hb : b < 256 := h b (List.mem_cons_self _ _)
    simp only [List.flatMap_cons, pctEscape, List.cons_append, List.append_assoc,
      List.nil_append]
    rw [unqTokens_escape (hexDigitUpper (b / 16)) (hexDigitUpper (b % 16)) (b / 16) (b % 16) _
      (hexVal_hexDigitUpper _ (by omega)) (hexVal_hexDigitUpper _ (by omega))]
    rw [ih (fun x hx => h x (List.mem_cons_of_mem _ hx)) r]
    simp only [List.map_cons, List.cons_append]
    congr 2
    omega

/-- Helper: unquote of the plus-to-space image of quote_plus restores one character. -/
theorem unquote_quote_char (c : Nat) (hv : validChar c = true) (r : List Nat) :
    unqRun none (unqTokens (plusToSpace (quotePlusChar c) ++ r))
      = c :: unqRun none (unqTokens r) := by
  have hv2 : c < 0x110000 := by
    simp only [validChar, decide_eq_true_eq] at hv
    omega
  by_cases h32 : c = 32
  · subst h32
    have : plusToSpace (quotePlusChar 32) = [32] := by decide
    rw [this]
    simp only [List.cons_append, List.nil_append]
    rw [unqTokens_cons_ne 32 r (by omega)]
    rw [unqRun_lit]
  · by_cases hsafe : isAlwaysSafeCode c = true
    · have hc43 : c ≠ 43 := by
        intro h
        subst h
        simp [isAlwaysSafeCode, isAsciiAlphaCode, isDigitCode] at hsafe
      have hc37 : c ≠ 37 := by
        intro h
        subst h
        simp [isAlwaysSafeCode, isAsciiAlphaCode, isDigitCode] at hsafe
      have : plusToSpace (quotePlusChar c) = [c] := by
        simp only [quotePlusChar, if_neg h32, if_pos hsafe, plusToSpace, List.map_cons,
          List.map_nil, if_neg hc43]
      rw [this]
      simp only [List.cons_append, List.nil_append]
      rw [unqTokens_cons_ne c r hc37]
      rw [unqRun_lit]
    · have : plusToSpace (quotePlusChar c) = (utf8Enc c).flatMap pctEscape := by
        simp only [quotePlusChar, if_neg h32, if_neg hsafe]
        exact plusToSpace_pct _
      rw [this]
      rw [unqTokens_pct (utf8Enc c) (utf8Enc_bounds c hv2) r]
      exact unqRun_utf8 c hv (unqTokens r)

/-- Helper: unquote inverts quote_plus on strings of encodable code points. -/
theorem unquote_quote (s : List Nat) (hv : ∀ c, c ∈ s → validChar c = true) :
    ∀ (r : List Nat),
    unqRun none (unqTokens (plusToSpace (pyQuotePlus s) ++ r))
      = s ++ unqRun none (unqTokens r) := by
  induction s with
  | nil => intro r; simp [pyQuotePlus, plusToSpace]
  | cons c s ih =>
    intro r
    simp only [pyQuotePlus, List.flatMap_cons, plusToSpace, List.map_append, List.append_assoc]
    have step := unquote_quote_char c (hv c (List.mem_cons_self _ _)) (List.map (fun x => if x = 43 then 32 else x) (s.flatMap quotePlusChar) ++ r)
    simp only [plusToSpace] at step
    rw [step]
    have ih2 := ih (fun x hx => hv x (List.mem_cons_of_mem _ hx)) r
    simp only [pyQuotePlus, plusToSpace] at ih2
    rw [ih2]
    simp


/-! ### parse_qs / urlencode stability -/

theorem splitOnce_eq_none (c : Nat) : ∀ (l : List Nat), splitOnce c l = none ↔ c ∉ l := by
  intro l
  induction l with
  | nil => simp [splitOnce]
  | cons x xs ih =>
    unfold splitOnce
    by_cases hx : x = c
    · subst hx
      simp
    · rw [if_neg hx]
      simp only [Option.map_eq_none', ih, List.mem_cons]
      constructor
      · intro h h2
        rcases h2 with h2 | h2
        · exact hx h2.symm
        · exact h h2
      · intro h h2
        exact h (Or.inr h2)

theorem splitOnce_fst_not_mem (c : Nat) : ∀ (l : List Nat) (p : List Nat × List Nat),
    splitOnce c l = some p → c ∉ p.1 := by
  intro l
  induction l with
  | nil => intro p h; simp [splitOnce] at h
  | cons x xs ih =>
    intro p h
    unfold splitOnce at h
    by_cases hx : x = c
    · rw [if_pos hx] at h
      simp only [Option.some.injEq] at h
      subst h
      simp
    · rw [if_neg hx] at h
      cases hsp : splitOnce c xs with
      | none => rw [hsp] at h; simp at h
      | some q =>
        rw [hsp] at h
        simp only [Option.map_some', Option.some.injEq] at h
        subst h
        simp only [List.mem_cons, not_or]
        exact ⟨fun hc => hx hc.symm, ih q hsp⟩

theorem splitOnce_app (c : Nat) : ∀ (a b : List Nat), c ∉ a →
    splitOnce c (a ++ c :: b) = some (a, b) := by
  intro a
  induction a with
  | nil => intro b h; simp [splitOnce]
  | cons x xs ih =>
    intro b h
    simp only [List.mem_cons, not_or] at h
    simp only [List.cons_append, splitOnce, List.append_eq]
    rw [if_neg (fun hx => h.1 hx.symm)]
    rw [ih b h.2]
    rfl

theorem quotePlusChar_ne_nil (c : Nat) : quotePlusChar c ≠ [] := by
  simp only [quotePlusChar]
  split_ifs with h1 h2
  · simp
  · simp
  · simp only [utf8Enc]
    split_ifs <;> simp [pctEscape]

theorem pyQuotePlus_ne_nil (s : List Nat) (h : s ≠ []) : pyQuotePlus s ≠ [] := by
  cases s with
  | nil => exact absurd rfl h
  | cons c cs =>
    simp only [pyQuotePlus, List.flatMap_cons]
    intro hc
    rcases List.append_eq_nil.mp hc with HH
    exact quotePlusChar_ne_nil c HH.1

theorem pyQuotePlus_alphabet (s : List Nat) (hv : ∀ c, c ∈ s → validChar c = true) :
    ∀ d, d ∈ pyQuotePlus s →
      isAlwaysSafeCode d = true ∨ d = 43 ∨ d = 37 ∨ (48 ≤ d ∧ d ≤ 57) ∨ (65 ≤ d ∧ d ≤ 70) := by
  intro d hd
  simp only [pyQuotePlus, List.mem_flatMap] at hd
  obtain ⟨c, hc, hd⟩ := hd
  have hvc : c < 0x110000 := by
    have := hv c hc
    simp only [validChar, decide_eq_true_eq] at this
    omega
  simp only [quotePlusChar] at hd
  split_ifs at hd with h1 h2
  · simp only [List.mem_singleton] at hd
    subst hd
    right; left; rfl
  · simp only [List.mem_singleton] at hd
    subst hd
    left; exact h2
  · simp only [List.mem_flatMap] at hd
    obtain ⟨b, hb, hd⟩ := hd
    have hblt : b < 256 := utf8Enc_bounds c hvc b hb
    simp only [pctEscape, hexDigitUpper, List.mem_cons, List.mem_singleton,
      List.not_mem_nil, or_false] at hd
    rcases hd with hd | hd | hd
    · subst hd; right; right; left; rfl
    · split_ifs at hd <;> (subst hd; right; right; right; omega)
    · split_ifs at hd <;> (subst hd; right; right; right; omega)

theorem unquote_quote_nil (s : List Nat) (hv : ∀ c, c ∈ s → validChar c = true) :
    pyUnquote (plusToSpace (pyQuotePlus s)) = s := by
  have h := unquote_quote s hv []
  simpa [pyUnquote, unqTokens, unqRun] using h

theorem mem_intercalate_of_mem (sep : List Nat) : ∀ (ls : List (List Nat)) (l : List Nat),
    l ∈ ls → ∀ d, d ∈ l → d ∈ List.intercalate sep ls := by
  intro ls
  induction ls with
  | nil => intro l h; simp at h
  | cons a t ih =>
    intro l hl d hd
    cases t with
    | nil =>
      simp only [List.mem_singleton] at hl
      subst hl
      simpa [List.intercalate]
    | cons b t2 =>
      have hstep : List.intercalate sep (a :: b :: t2) = a ++ sep ++ List.intercalate sep (b :: t2) := by
        simp [List.intercalate, List.intersperse]
      rw [hstep]
      simp only [List.mem_append]
      rcases List.mem_cons.mp hl with hl | hl
      · subst hl
        exact Or.inl (Or.inl hd)
      · exact Or.inr (ih l hl d hd)

theorem mem_intercalate_iff (sep : List Nat) : ∀ (ls : List (List Nat)) (d : Nat),
    d ∈ List.intercalate sep ls → d ∈ sep ∨ ∃ l, l ∈ ls ∧ d ∈ l := by
  intro ls
  induction ls with
  | nil => intro d h; simp [List.intercalate] at h
  | cons a t ih =>
    intro d hd
    cases t with
    | nil =>
      simp only [List.intercalate, List.intersperse, List.flatten] at hd
      simp only [List.append_nil] at hd
      exact Or.inr ⟨a, List.mem_cons_self _ _, hd⟩
    | cons b t2 =>
      have hstep : List.intercalate sep (a :: b :: t2) = a ++ sep ++ List.intercalate sep (b :: t2) := by
        simp [List.intercalate, List.intersperse]
      rw [hstep] at hd
      simp only [List.mem_append] at hd
      rcases hd with (hd | hd) | hd
      · exact Or.inr ⟨a, List.mem_cons_self _ _, hd⟩
      · exact Or.inl hd
      · rcases ih d hd with h | ⟨l, hl, hdl⟩
        · exact Or.inl h
        · exact Or.inr ⟨l, List.mem_cons_of_mem _ hl, hdl⟩


theorem alphabet_not_special (d : Nat)
    (h : isAlwaysSafeCode d = true ∨ d = 43 ∨ d = 37 ∨ (48 ≤ d ∧ d ≤ 57) ∨ (65 ≤ d ∧ d ≤ 70)) :
    d ≠ 38 ∧ d ≠ 61 ∧ d ≠ 35 ∧ d ≠ 63 ∧ d ≠ 47 ∧ d ≠ 9 ∧
    d ≠ 10 ∧ d ≠ 13 ∧ 32 < d ∧ d ≠ 58 := by
  rcases h with h | h | h | h | h
  · simp only [isAlwaysSafeCode, isAsciiAlphaCode, isDigitCode, Bool.or_eq_true,
      decide_eq_true_eq] at h
    omega
  · omega
  · omega
  · omega
  · omega

theorem pyUrlencode_mem (L : List (List Nat × List (List Nat)))
    (hval : ∀ kv, kv ∈ L → (∀ c, c ∈ kv.1 → validChar c = true) ∧
      ∀ v, v ∈ kv.2 → ∀ c, c ∈ v → validChar c = true) :
    ∀ d, d ∈ pyUrlencode L →
      (isAlwaysSafeCode d = true ∨ d = 43 ∨ d = 37 ∨ (48 ≤ d ∧ d ≤ 57) ∨ (65 ≤ d ∧ d ≤ 70))
      ∨ d = 61 ∨ d = 38 := by
  intro d hd
  simp only [pyUrlencode] at hd
  rcases mem_intercalate_iff [38] _ d hd with h | ⟨f, hf, hdf⟩
  · simp only [List.mem_singleton] at h
    right; right; exact h
  · simp only [List.mem_flatMap, List.mem_map] at hf
    obtain ⟨kv, hkv, v, hv, henc⟩ := hf
    subst henc
    simp only [List.mem_append, List.mem_cons] at hdf
    rcases hdf with hdf | hdf | hdf
    · exact Or.inl (pyQuotePlus_alphabet _ (hval kv hkv).1 d hdf)
    · right; left; exact hdf
    · exact Or.inl (pyQuotePlus_alphabet _ ((hval kv hkv).2 v hv) d hdf)

theorem fields_no_sep (L : List (List Nat × List (List Nat)))
    (hval : ∀ kv, kv ∈ L → (∀ c, c ∈ kv.1 → validChar c = true) ∧
      ∀ v, v ∈ kv.2 → ∀ c, c ∈ v → validChar c = true) :
    ∀ f, f ∈ L.flatMap (fun kv => kv.2.map (fun v => pyQuotePlus kv.1 ++ 61 :: pyQuotePlus v)) →
      38 ∉ f := by
  intro f hf
  simp only [List.mem_flatMap, List.mem_map] at hf
  obtain ⟨kv, hkv, v, hv, henc⟩ := hf
  subst henc
  intro hd
  simp only [List.mem_append, List.mem_cons] at hd
  rcases hd with hd | hd | hd
  · exact (alphabet_not_special 38 (pyQuotePlus_alphabet _ (hval kv hkv).1 38 hd)).1 rfl
  · omega
  · exact (alphabet_not_special 38 (pyQuotePlus_alphabet _ ((hval kv hkv).2 v hv) 38 hd)).1 rfl

theorem filterMap_qsl_run (k : List Nat) (hk : ∀ c, c ∈ k → validChar c = true) :
    ∀ (vs : List (List Nat)), (∀ v, v ∈ vs → v ≠ []) →
    (∀ v, v ∈ vs → ∀ c, c ∈ v → validChar c = true) →
    (vs.map (fun v => pyQuotePlus k ++ 61 :: pyQuotePlus v)).filterMap (fun nv =>
      if nv = [] then none
      else match splitOnce 61 nv with
        | none => none
        | some p =>
          if p.2 = [] then none
          else some (pyUnquote (plusToSpace p.1), pyUnquote (plusToSpace p.2)))
      = vs.map (fun v => (k, v)) := by
  intro vs
  induction vs with
  | nil => intro h1 h2; simp
  | cons v vs ih =>
    intro h1 h2
    simp only [List.map_cons, List.filterMap_cons]
    have hne : pyQuotePlus k ++ 61 :: pyQuotePlus v ≠ [] := by simp
    rw [if_neg hne]
    have h61 : (61 : Nat) ∉ pyQuotePlus k := by
      intro hd
      exact (alphabet_not_special 61 (pyQuotePlus_alphabet _ hk 61 hd)).2.1 rfl
    rw [splitOnce_app 61 _ _ h61]
    dsimp only
    have hvne : pyQuotePlus v ≠ [] := pyQuotePlus_ne_nil v (h1 v (List.mem_cons_self _ _))
    rw [if_neg hvne]
    rw [unquote_quote_nil k hk, unquote_quote_nil v (h2 v (List.mem_cons_self _ _))]
    rw [ih (fun x hx => h1 x (List.mem_cons_of_mem _ hx))
        (fun x hx => h2 x (List.mem_cons_of_mem _ hx))]

theorem intercalate_ne_nil (sep : List Nat) (f : List Nat) (t : List (List Nat)) (hf : f ≠ []) :
    List.intercalate sep (f :: t) ≠ [] := by
  cases t with
  | nil => simpa [List.intercalate]
  | cons b t2 =>
    have hstep : List.intercalate sep (f :: b :: t2) = f ++ sep ++ List.intercalate sep (b :: t2) := by
      simp [List.intercalate, List.intersperse]
    rw [hstep]
    intro h
    rcases List.append_eq_nil.mp h with ⟨h1, h2⟩
    exact hf (List.append_eq_nil.mp h1).1

theorem filterMap_qsl_fields :
    ∀ (L : List (List Nat × List (List Nat))),
    (∀ kv, kv ∈ L → (∀ c, c ∈ kv.1 → validChar c = true) ∧
      ∀ v, v ∈ kv.2 → ∀ c, c ∈ v → validChar c = true) →
    (∀ kv, kv ∈ L → ∀ v, v ∈ kv.2 → v ≠ []) →
    (L.flatMap (fun kv => kv.2.map (fun v => pyQuotePlus kv.1 ++ 61 :: pyQuotePlus v))).filterMap
      (fun nv =>
        if nv = [] then none
        else match splitOnce 61 nv with
          | none => none
          | some p =>
            if p.2 = [] then none
            else some (pyUnquote (plusToSpace p.1), pyUnquote (plusToSpace p.2)))
      = L.flatMap (fun kv => kv.2.map (fun v => (kv.1, v))) := by
  intro L
  induction L with
  | nil => intro h1 h2; simp
  | cons kv L2 ih =>
    intro h1 h2
    simp only [List.flatMap_cons, List.filterMap_append]
    rw [filterMap_qsl_run kv.1 (h1 kv (List.mem_cons_self _ _)).1 kv.2
      (h2 kv (List.mem_cons_self _ _)) (h1 kv (List.mem_cons_self _ _)).2]
    rw [ih (fun x hx => h1 x (List.mem_cons_of_mem _ hx))
      (fun x hx => h2 x (List.mem_cons_of_mem _ hx))]

theorem parse_qsl_urlencode (L : List (List Nat × List (List Nat)))
    (hval : ∀ kv, kv ∈ L → (∀ c, c ∈ kv.1 → validChar c = true) ∧
      ∀ v, v ∈ kv.2 → ∀ c, c ∈ v → validChar c = true)
    (hvne : ∀ kv, kv ∈ L → ∀ v, v ∈ kv.2 → v ≠ [])
    (hvs : ∀ kv, kv ∈ L → kv.2 ≠ []) :
    parse_qsl (pyUrlencode L) = L.flatMap (fun kv => kv.2.map (fun v => (kv.1, v))) := by
  cases hL : L with
  | nil => simp [pyUrlencode, parse_qsl, List.intercalate]
  | cons kv0 L2 =>
  subst hL
  have hf0 : kv0.2 ≠ [] := hvs kv0 (List.mem_cons_self _ _)
  obtain ⟨v0, vs0, hv0⟩ : ∃ v0 vs0, kv0.2 = v0 :: vs0 := by
    cases hkv02 : kv0.2 with
    | nil => exact absurd hkv02 hf0
    | cons a b => exact ⟨a, b, rfl⟩
  have hfields :
      (kv0 :: L2).flatMap (fun kv => kv.2.map (fun v => pyQuotePlus kv.1 ++ 61 :: pyQuotePlus v))
      = (pyQuotePlus kv0.1 ++ 61 :: pyQuotePlus v0) ::
        (vs0.map (fun v => pyQuotePlus kv0.1 ++ 61 :: pyQuotePlus v)
          ++ L2.flatMap (fun kv => kv.2.map (fun v => pyQuotePlus kv.1 ++ 61 :: pyQuotePlus v))) := by
    simp [hv0]
  have hqsne : pyUrlencode (kv0 :: L2) ≠ [] := by
    simp only [pyUrlencode, hfields]
    exact intercalate_ne_nil [38] _ _ (by simp)
  have hsplit : pySplitAll 38 (pyUrlencode (kv0 :: L2))
      = (kv0 :: L2).flatMap (fun kv => kv.2.map (fun v => pyQuotePlus kv.1 ++ 61 :: pyQuotePlus v)) := by
    simp only [pySplitAll, pyUrlencode]
    refine List.splitOn_intercalate _ 38 (fields_no_sep _ hval) ?_
    rw [hfields]
    simp
  simp only [parse_qsl, if_neg hqsne, hsplit]
  exact filterMap_qsl_fields _ hval hvne


theorem qsInsert_fresh (acc : List (List Nat × List (List Nat))) (k : List Nat) (v : List Nat)
    (h : ∀ kv, kv ∈ acc → kv.1 ≠ k) : qsInsert acc k v = acc ++ [(k, [v])] := by
  unfold qsInsert
  rw [if_neg]
  simp only [List.any_eq_true, beq_iff_eq, not_exists, not_and]
  exact fun kv hkv => h kv hkv

theorem qsInsert_last (acc : List (List Nat × List (List Nat))) (k : List Nat)
    (v0s : List (List Nat)) (v : List Nat) (h : ∀ kv, kv ∈ acc → kv.1 ≠ k) :
    qsInsert (acc ++ [(k, v0s)]) k v = acc ++ [(k, v0s ++ [v])] := by
  unfold qsInsert
  rw [if_pos]
  · rw [List.map_append]
    congr 1
    · conv_rhs => rw [← List.map_id acc]
      apply List.map_congr_left
      intro kv hkv
      rw [if_neg (by simp only [beq_iff_eq]; exact h kv hkv)]
      rfl
    · simp
  · simp only [List.any_append, List.any_cons, List.any_nil, beq_self_eq_true]
    simp

theorem foldl_qsInsert_run : ∀ (vs : List (List Nat)) (k : List Nat) (v0s : List (List Nat))
    (acc : List (List Nat × List (List Nat))), (∀ kv, kv ∈ acc → kv.1 ≠ k) →
    (vs.map (fun v => (k, v))).foldl (fun a p => qsInsert a p.1 p.2) (acc ++ [(k, v0s)])
      = acc ++ [(k, v0s ++ vs)] := by
  intro vs
  induction vs with
  | nil => intro k v0s acc h; simp
  | cons v vs ih =>
    intro k v0s acc h
    simp only [List.map_cons, List.foldl_cons]
    rw [qsInsert_last acc k v0s v h]
    rw [ih k (v0s ++ [v]) acc h]
    simp

theorem foldl_qsInsert_flat : ∀ (L acc : List (List Nat × List (List Nat))),
    List.Pairwise (fun a b => a.1 ≠ b.1) L →
    (∀ kv, kv ∈ L → kv.2 ≠ []) →
    (∀ kv, kv ∈ L → ∀ kv2, kv2 ∈ acc → kv2.1 ≠ kv.1) →
    (L.flatMap (fun kv => kv.2.map (fun v => (kv.1, v)))).foldl
      (fun a p => qsInsert a p.1 p.2) acc = acc ++ L := by
  intro L
  induction L with
  | nil => intro acc h1 h2 h3; simp
  | cons kv L2 ih =>
    intro acc h1 h2 h3
    obtain ⟨v0, vs0, hv0⟩ : ∃ v0 vs0, kv.2 = v0 :: vs0 := by
      cases hkv2 : kv.2 with
      | nil => exact absurd hkv2 (h2 kv (List.mem_cons_self _ _))
      | cons a b => exact ⟨a, b, rfl⟩
    simp only [List.flatMap_cons, List.foldl_append, hv0, List.map_cons, List.foldl_cons]
    have hfresh : ∀ kv2, kv2 ∈ acc → kv2.1 ≠ kv.1 := h3 kv (List.mem_cons_self _ _)
    rw [qsInsert_fresh acc kv.1 v0 hfresh]
    rw [foldl_qsInsert_run vs0 kv.1 [v0] acc hfresh]
    have hacc2 : ∀ kv2, kv2 ∈ L2 → ∀ kv3, kv3 ∈ acc ++ [(kv.1, v0 :: vs0)] → kv3.1 ≠ kv2.1 := by
      intro kv2 hkv2 kv3 hkv3
      simp only [List.mem_append, List.mem_singleton] at hkv3
      rcases hkv3 with hkv3 | hkv3
      · exact h3 kv2 (List.mem_cons_of_mem _ hkv2) kv3 hkv3
      · subst hkv3
        exact (List.pairwise_cons.mp h1).1 kv2 hkv2
    have := ih (acc ++ [(kv.1, v0 :: vs0)]) (List.pairwise_cons.mp h1).2
      (fun x hx => h2 x (List.mem_cons_of_mem _ hx)) hacc2
    simp only [List.cons_append, List.nil_append] at this ⊢
    rw [this]
    have hkveta : (kv.1, v0 :: vs0) = kv := by
      rw [← hv0]
    rw [List.append_assoc, hkveta]
    simp

theorem parse_qs_urlencode (L : List (List Nat × List (List Nat)))
    (hdist : List.Pairwise (fun a b => a.1 ≠ b.1) L)
    (hval : ∀ kv, kv ∈ L → (∀ c, c ∈ kv.1 → validChar c = true) ∧
      ∀ v, v ∈ kv.2 → ∀ c, c ∈ v → validChar c = true)
    (hvne : ∀ kv, kv ∈ L → ∀ v, v ∈ kv.2 → v ≠ [])
    (hvs : ∀ kv, kv ∈ L → kv.2 ≠ []) :
    parse_qs (pyUrlencode L) = L := by
  unfold parse_qs
  rw [parse_qsl_urlencode L hval hvne hvs]
  have := foldl_qsInsert_flat L [] hdist hvs (by simp)
  simpa using this


theorem unqTokens_ne_nil (s : List Nat) (h : s ≠ []) : unqTokens s ≠ [] := by
  cases s with
  | nil => exact absurd rfl h
  | cons c r =>
    rw [unqTokens.eq_def]
    split
    · rename_i heq
      exact absurd heq (by simp)
    · rename_i c1 c2 r2 heq
      cases hh1 : hexVal c1 <;> cases hh2 : hexVal c2 <;> simp
    · simp
    · simp

theorem pyUnquote_ne_nil (s : List Nat) (h : s ≠ []) : pyUnquote s ≠ [] := by
  unfold pyUnquote
  exact unqRun_ne_nil (unqTokens s) none (Or.inr (unqTokens_ne_nil s h))

theorem plusToSpace_ne_nil (s : List Nat) (h : s ≠ []) : plusToSpace s ≠ [] := by
  unfold plusToSpace
  simpa using h

theorem plusToSpace_valid (s : List Nat) (h : ∀ c, c ∈ s → validChar c = true) :
    ∀ c, c ∈ plusToSpace s → validChar c = true := by
  intro c hc
  simp only [plusToSpace, List.mem_map] at hc
  obtain ⟨c0, hc0, hc⟩ := hc
  by_cases h43 : c0 = 43
  · rw [if_pos h43] at hc
    subst hc
    decide
  · rw [if_neg h43] at hc
    subst hc
    exact h c0 hc0

theorem pyUnquote_valid (s : List Nat) (h : ∀ c, c ∈ s → validChar c = true) :
    ∀ d, d ∈ pyUnquote s → validChar d = true := by
  intro d hd
  exact unqRun_valid (unqTokens s) none
    (fun c hc => h c (unqTokens_lit_mem s c hc)) trivial d hd

theorem splitOn_chars (X : List Nat) (l : List Nat) (hl : l ∈ X.splitOn 38) :
    ∀ d, d ∈ l → d ∈ X := by
  intro d hd
  have h := List.intercalate_splitOn X 38
  rw [← h]
  exact mem_intercalate_of_mem [38] _ l hl d hd

theorem parse_qsl_facts (X : List Nat) (hv : ∀ c, c ∈ X → validChar c = true) :
    ∀ p, p ∈ parse_qsl X →
      (∀ c, c ∈ p.1 → validChar c = true) ∧ p.2 ≠ [] ∧
      (∀ c, c ∈ p.2 → validChar c = true) := by
  intro p hp
  unfold parse_qsl at hp
  by_cases hX : X = []
  · rw [if_pos hX] at hp
    simp at hp
  · rw [if_neg hX] at hp
    simp only [List.mem_filterMap] at hp
    obtain ⟨nv, hnv, hpnv⟩ := hp
    split_ifs at hpnv with hnve
    cases hsp : splitOnce 61 nv with
    | none => rw [hsp] at hpnv; simp at hpnv
    | some q =>
        rw [hsp] at hpnv
        dsimp only at hpnv
        split_ifs at hpnv with hq2
        simp only [Option.some.injEq] at hpnv
        subst hpnv
        have hnvX : ∀ d, d ∈ nv → validChar d = true := by
          intro d hd
          exact hv d (splitOn_chars X nv hnv d hd)
        have hnveq := splitOnce_eq 61 nv q.1 q.2 (by rw [hsp])
        have hq1X : ∀ d, d ∈ q.1 → validChar d = true := by
          intro d hd
          exact hnvX d (by rw [hnveq]; simp [hd])
        have hq2X : ∀ d, d ∈ q.2 → validChar d = true := by
          intro d hd
          exact hnvX d (by rw [hnveq]; simp [hd])
        refine ⟨?_, ?_, ?_⟩
        · exact pyUnquote_valid _ (plusToSpace_valid _ hq1X)
        · exact pyUnquote_ne_nil _ (plusToSpace_ne_nil _ hq2)
        · exact pyUnquote_valid _ (plusToSpace_valid _ hq2X)

theorem foldl_qsInsert_inv (Q : List Nat → Prop) (Qv : List Nat → Prop) :
    ∀ (ps : List (List Nat × List Nat)) (acc : List (List Nat × List (List Nat))),
    (∀ p, p ∈ ps → Q p.1 ∧ Qv p.2) →
    (∀ kv, kv ∈ acc → Q kv.1 ∧ kv.2 ≠ [] ∧ ∀ v, v ∈ kv.2 → Qv v) →
    ∀ kv, kv ∈ ps.foldl (fun a p => qsInsert a p.1 p.2) acc →
      Q kv.1 ∧ kv.2 ≠ [] ∧ ∀ v, v ∈ kv.2 → Qv v := by
  intro ps
  induction ps with
  | nil => intro acc hps hacc kv hkv; exact hacc kv hkv
  | cons p ps ih =>
    intro acc hps hacc kv hkv
    simp only [List.foldl_cons] at hkv
    refine ih _ (fun x hx => hps x (List.mem_cons_of_mem _ hx)) ?_ kv hkv
    intro kv2 hkv2
    unfold qsInsert at hkv2
    split_ifs at hkv2 with hany
    · simp only [List.mem_map] at hkv2
      obtain ⟨kv3, hkv3, hkv2⟩ := hkv2
      by_cases hk : (kv3.1 == p.1) = true
      · rw [if_pos hk] at hkv2
        subst hkv2
        refine ⟨(hacc kv3 hkv3).1, by simp, ?_⟩
        intro v hv
        simp only [List.mem_append, List.mem_singleton] at hv
        rcases hv with hv | hv
        · exact (hacc kv3 hkv3).2.2 v hv
        · subst hv
          exact (hps p (List.mem_cons_self _ _)).2
      · rw [if_neg hk] at hkv2
        subst hkv2
        exact hacc kv3 hkv3
    · simp only [List.mem_append, List.mem_singleton] at hkv2
      rcases hkv2 with hkv2 | hkv2
      · exact hacc kv2 hkv2
      · subst hkv2
        refine ⟨(hps p (List.mem_cons_self _ _)).1, by simp, ?_⟩
        intro v hv
        simp only [List.mem_singleton] at hv
        subst hv
        exact (hps p (List.mem_cons_self _ _)).2

theorem foldl_qsInsert_distinct :
    ∀ (ps : List (List Nat × List Nat)) (acc : List (List Nat × List (List Nat))),
    List.Pairwise (fun a b => a.1 ≠ b.1) acc →
    List.Pairwise (fun a b => a.1 ≠ b.1) (ps.foldl (fun a p => qsInsert a p.1 p.2) acc) := by
  intro ps
  induction ps with
  | nil => intro acc h; simpa
  | cons p ps ih =>
    intro acc h
    simp only [List.foldl_cons]
    refine ih _ ?_
    unfold qsInsert
    split_ifs with hany
    · rw [List.pairwise_map]
      refine h.imp_of_mem ?_
      intro a b ha hb hab
      by_cases h1 : (a.1 == p.1) = true <;> by_cases h2 : (b.1 == p.1) = true <;>
        simp only [h1, h2, if_true, if_false] <;> simpa using hab
    · rw [List.pairwise_append]
      refine ⟨h, by simp, ?_⟩
      intro a ha b hb
      simp only [List.mem_singleton] at hb
      subst hb
      simp only [List.any_eq_true, beq_iff_eq, not_exists, not_and] at hany
      simp only
      exact hany a ha

theorem parse_qs_facts (X : List Nat) (hv : ∀ c, c ∈ X → validChar c = true) :
    (∀ kv, kv ∈ parse_qs X →
      (∀ c, c ∈ kv.1 → validChar c = true) ∧ kv.2 ≠ [] ∧
      ∀ v, v ∈ kv.2 → v ≠ [] ∧ ∀ c, c ∈ v → validChar c = true) ∧
    List.Pairwise (fun a b => a.1 ≠ b.1) (parse_qs X) := by
  constructor
  · intro kv hkv
    unfold parse_qs at hkv
    exact foldl_qsInsert_inv (fun k => ∀ c, c ∈ k → validChar c = true)
      (fun v => v ≠ [] ∧ ∀ c, c ∈ v → validChar c = true)
      (parse_qsl X) []
      (fun p hp => ⟨(parse_qsl_facts X hv p hp).1,
        (parse_qsl_facts X hv p hp).2.1, (parse_qsl_facts X hv p hp).2.2⟩)
      (by simp) kv hkv
  · exact foldl_qsInsert_distinct (parse_qsl X) [] (by simp)


/-! ### Stability of the canonical query under a second pass -/

/-- Helper: insertion permutes the inserted element to the front· -/
theorem insertPair_perm {A : Type} (lt : A → A → Bool) (x : A) :
    ∀ (l : List A), (insertPair lt x l).Perm (x :: l) := by
  intro l
  induction l with
  | nil => simp [insertPair]
  | cons y ys ih =>
    unfold insertPair
    split
    · exact List.Perm.refl _
    · exact (ih.cons y).trans (List.Perm.swap x y ys)

/-- Helper: the fold of sorted() permutes the accumulator and the input· -/
theorem sortFold_perm {A : Type} (lt : A → A → Bool) :
    ∀ (l acc : List A),
      (l.foldl (fun acc x => insertPair lt x acc) acc).Perm (acc ++ l) := by
  intro l
  induction l with
  | nil => intro acc; simp
  | cons x t ih =>
    intro acc
    simp only [List.foldl_cons]
    refine (ih (insertPair lt x acc)).trans ?_
    refine (List.Perm.append_right t (insertPair_perm lt x acc)).trans ?_
    exact List.perm_middle.symm

/-- Helper: sorted() permutes its input· -/
theorem pySortedList_perm {A : Type} (lt : A → A → Bool) (l : List A) :
    (pySortedList lt l).Perm l := by
  have := sortFold_perm lt l []
  simpa [pySortedList] using this

/-- Helper: the canonical query pairs have distinct keys and nonempty,
encodable values· -/
theorem sortedFiltered_facts (X : PyStr) (hv : ∀ c, c ∈ X → validChar c = true) :
    (∀ kv, kv ∈ LinkDetector.sortedFiltered (parse_qs X) →
      (∀ c, c ∈ kv.1 → validChar c = true) ∧ kv.2 ≠ [] ∧
      ∀ v, v ∈ kv.2 → v ≠ [] ∧ ∀ c, c ∈ v → validChar c = true) ∧
    List.Pairwise (fun a b => a.1 ≠ b.1) (LinkDetector.sortedFiltered (parse_qs X)) := by
  constructor
  · intro kv hkv
    rw [LinkDetector.sortedFiltered, pySortedList_mem, List.mem_filter] at hkv
    exact (parse_qs_facts X hv).1 kv hkv.1
  · rw [LinkDetector.sortedFiltered]
    refine (List.Perm.pairwise_iff (fun h => Ne.symm h)
      (pySortedList_perm pairLt _)).mpr ?_
    exact (parse_qs_facts X hv).2.sublist (List.filter_sublist _)

/-- Helper: parse_qs inverts urlencode on the canonical query pairs· -/
theorem parse_qs_stable (X : PyStr) (hv : ∀ c, c ∈ X → validChar c = true) :
    parse_qs (pyUrlencode (LinkDetector.sortedFiltered (parse_qs X)))
      = LinkDetector.sortedFiltered (parse_qs X) := by
  refine parse_qs_urlencode _ (sortedFiltered_facts X hv).2 ?_ ?_ ?_
  · intro kv hkv
    refine ⟨((sortedFiltered_facts X hv).1 kv hkv).1, ?_⟩
    intro v hvv c hc
    exact (((sortedFiltered_facts X hv).1 kv hkv).2.2 v hvv).2 c hc
  · intro kv hkv v hvv
    exact (((sortedFiltered_facts X hv).1 kv hkv).2.2 v hvv).1
  · intro kv hkv
    exact ((sortedFiltered_facts X hv).1 kv hkv).2.1

/-- Helper: the filter-and-sort query pipeline is idempotent· -/
theorem sortedFiltered_idem (qp : List (PyStr × List PyStr)) :
    LinkDetector.sortedFiltered (LinkDetector.sortedFiltered qp)
      = LinkDetector.sortedFiltered qp := by
  have hmem : ∀ kv, kv ∈ LinkDetector.sortedFiltered qp →
      decide (kv.1 ∉ LinkDetector.trackingParams) = true := by
    intro kv hkv
    rw [LinkDetector.sortedFiltered, pySortedList_mem, List.mem_filter] at hkv
    exact hkv.2
  conv_lhs => rw [LinkDetector.sortedFiltered]
  rw [List.filter_eq_self.mpr hmem]
  exact pySortedList_of_sorted pairLt _
    (pySortedList_pairwise pairLt pairLt_asymm pairLt_negtrans _)

/-- Helper: re-encoding the canonical query of an encoded canonical query is
the identity: the query component survives a second normalization pass· -/
theorem encoded_query_stable (X : PyStr) (hv : ∀ c, c ∈ X → validChar c = true) :
    pyUrlencode (LinkDetector.sortedFiltered
      (parse_qs (pyUrlencode (LinkDetector.sortedFiltered (parse_qs X)))))
      = pyUrlencode (LinkDetector.sortedFiltered (parse_qs X)) := by
  rw [parse_qs_stable X hv, sortedFiltered_idem]


/-! ### urlsplit characterization lemmas -/

/-- Helper: splitOnce succeeds on inputs containing the separator· -/
theorem splitOnce_isSome_of_mem (c : Nat) (l : PyStr) (h : c ∈ l) :
    ∃ p, splitOnce c l = some p := by
  cases hsp : splitOnce c l with
  | none => exact absurd h ((splitOnce_eq_none c l).mp hsp)
  | some p => exact ⟨p, rfl⟩

/-- Helper: the part before the first separator is a takeWhile· -/
theorem splitOnce_fst_takeWhile (c : Nat) : ∀ (l : PyStr) (p : PyStr × PyStr),
    splitOnce c l = some p → p.1 = l.takeWhile (fun x => ¬ x = c) := by
  intro l
  induction l with
  | nil => intro p h; simp [splitOnce] at h
  | cons x xs ih =>
    intro p h
    unfold splitOnce at h
    by_cases hx : x = c
    · rw [if_pos hx] at h
      simp only [Option.some.injEq] at h
      subst h
      subst hx
      simp [List.takeWhile_cons]
    · rw [if_neg hx] at h
      cases hsp : splitOnce c xs with
      | none => rw [hsp] at h; simp at h
      | some q =>
        rw [hsp] at h
        simp only [Option.map_some', Option.some.injEq] at h
        subst h
        simp only [List.takeWhile_cons]
        rw [if_pos (by simpa using hx)]
        rw [ih q hsp]

/-- Helper: takeWhile and dropWhile across an all-satisfying prefix ending at
a stopping element· -/
theorem takeWhile_append_stop (p : Nat → Bool) :
    ∀ (a : PyStr) (x : Nat) (r : PyStr), (∀ c, c ∈ a → p c = true) → p x = false →
      (a ++ x :: r).takeWhile p = a ∧ (a ++ x :: r).dropWhile p = x :: r := by
  intro a
  induction a with
  | nil =>
    intro x r ha hx
    simp [List.takeWhile_cons, List.dropWhile_cons, hx]
  | cons y ys ih =>
    intro x r ha hx
    have hy : p y = true := ha y (List.mem_cons_self _ _)
    have h2 := ih x r (fun c hc => ha c (List.mem_cons_of_mem _ hc)) hx
    simp only [List.cons_append, List.takeWhile_cons, List.dropWhile_cons, hy, if_true,
      h2.1, h2.2]
    simp

/-- Helper: a mismatching head refutes startswith· -/
theorem startsL_cons_false (a b : Nat) (as bs : PyStr) (hab : ¬ a = b) :
    startsL (b :: bs) (a :: as) = false := by
  simp only [startsL, List.length_cons, List.take_succ_cons]
  rw [List.cons_beq_cons]
  simp [hab]

/-- Helper: characters of urlsplit's netloc are not netloc delimiters· -/
theorem urlsplit_netloc_nodelim (url scheme0 : PyStr) (af : Bool) :
    ∀ c, c ∈ (pyUrlsplit url scheme0 af).netloc → netlocDelim c = false := by
  intro c hc
  unfold pyUrlsplit at hc
  dsimp only at hc
  split at hc
  · simp only [splitNetloc] at hc
    have h2 := List.mem_takeWhile_imp hc
    simpa using h2
  · simp at hc

/-- Helper: characters of splitparams' first part come from its input· -/
theorem splitparams_fst_mem (x : PyStr) : ∀ c, c ∈ (pySplitparams x).1 → c ∈ x := by
  intro c hc
  unfold pySplitparams at hc
  split_ifs at hc with h47
  · cases hsp : splitOnce 47 x.reverse with
    | none => rw [hsp] at hc; exact hc
    | some p =>
      rw [hsp] at hc
      dsimp only at hc
      cases hsq : splitOnce 59 p.1.reverse with
      | none => rw [hsq] at hc; exact hc
      | some q =>
        rw [hsq] at hc
        dsimp only at hc
        have hx := splitOnce_eq 47 x.reverse p.1 p.2 (by rw [hsp])
        have hp1 := splitOnce_eq 59 p.1.reverse q.1 q.2 (by rw [hsq])
        have hxful : x = p.2.reverse ++ 47 :: p.1.reverse := by
          have h2 := congrArg List.reverse hx
          simpa [List.reverse_append] using h2
        rw [hxful]
        simp only [List.mem_append, List.mem_cons] at hc ⊢
        rcases hc with hc | hc | hc
        · exact Or.inl hc
        · exact Or.inr (Or.inl hc)
        · refine Or.inr (Or.inr ?_)
          rw [hp1]
          simp [hc]
  · cases hsq : splitOnce 59 x with
    | none => rw [hsq] at hc; exact hc
    | some q =>
      rw [hsq] at hc
      dsimp only at hc
      have hx := splitOnce_eq 59 x q.1 q.2 (by rw [hsq])
      rw [hx]
      simp [hc]

/-- Helper: one lowercased code point below 97 was already that code point· -/
theorem lowerChar_eq_low (c d : Nat) (hd : d < 97) (h : lowerChar c = d) : c = d := by
  unfold lowerChar at h
  split_ifs at h <;> omega

/-- Helper: membership in a lowercased string comes from a preimage· -/
theorem pyLower_mem (l : PyStr) (c : Nat) (h : c ∈ pyLower l) :
    ∃ c0, c0 ∈ l ∧ lowerChar c0 = c := by
  simp only [pyLower, List.mem_map] at h
  exact h

/-- Helper: rsplit[0] keeps only characters of its input· -/
theorem beforeLast_mem (c : Nat) (l : PyStr) : ∀ d, d ∈ beforeLast c l → d ∈ l := by
  intro d hd
  unfold beforeLast at hd
  cases hsp : splitOnce c l.reverse with
  | none => rw [hsp] at hd; exact hd
  | some p =>
    rw [hsp] at hd
    have hx := splitOnce_eq c l.reverse p.1 p.2 (by rw [hsp])
    have hxful : l = p.2.reverse ++ c :: p.1.reverse := by
      have h2 := congrArg List.reverse hx
      simpa [List.reverse_append] using h2
    rw [hxful]
    simp only [List.mem_reverse] at hd
    simp [hd]

/-- Helper: the cleaned url has no tab, carriage return or line feed· -/
theorem cleanUrl_no_bad (x : PyStr) : ∀ c, c ∈ cleanUrl x → ¬ (c = 9 ∨ c = 13 ∨ c = 10) := by
  intro c hc
  have h2 := (List.mem_filter.mp hc).2
  simpa using h2

/-- Helper: cleaning is the identity on a string with a large head and no
removable characters· -/
theorem cleanUrl_eq_self (c0 : Nat) (r : PyStr) (h0 : ¬ c0 ≤ 32)
    (hbad : ∀ c, c ∈ c0 :: r → ¬ (c = 9 ∨ c = 13 ∨ c = 10)) :
    cleanUrl (c0 :: r) = c0 :: r := by
  unfold cleanUrl
  rw [List.dropWhile_cons]
  rw [if_neg (by simpa using h0)]
  rw [List.filter_eq_self.mpr]
  intro a ha
  simpa using hbad a ha


/-- Helper: characters of either splitFirst part come from the input· -/
theorem splitFirst_mem (d : Nat) (l : PyStr) :
    (∀ c, c ∈ (splitFirst d l).1 → c ∈ l) ∧
    (∀ c, c ∈ (splitFirst d l).2 → c ∈ l) := by
  unfold splitFirst
  cases hsp : splitOnce d l with
  | none =>
    dsimp only
    exact ⟨fun c hc => hc, fun c hc => by simp at hc⟩
  | some p =>
    dsimp only
    have heq := splitOnce_eq d l p.1 p.2 (by rw [hsp])
    constructor
    · intro c hc
      rw [heq]
      simp [hc]
    · intro c hc
      rw [heq]
      simp [hc]

/-- Helper: the first part of splitFirst never contains the separator· -/
theorem splitFirst_fst_not_mem (d : Nat) (l : PyStr) : d ∉ (splitFirst d l).1 := by
  unfold splitFirst
  cases hsp : splitOnce d l with
  | none =>
    dsimp only
    exact (splitOnce_eq_none d l).mp hsp
  | some p =>
    dsimp only
    exact splitOnce_fst_not_mem d l p hsp

/-- Helper: a found scheme yields the remainder of the input· -/
theorem schemeSplit_snd_mem (x : PyStr) (sp : PyStr × PyStr) (h : schemeSplit x = some sp) :
    ∀ c, c ∈ sp.2 → c ∈ x := by
  unfold schemeSplit at h
  cases hsp : splitOnce 58 x with
  | none => rw [hsp] at h; simp at h
  | some p =>
    rw [hsp] at h
    dsimp only at h
    cases hp1 : p.1 with
    | nil => rw [hp1] at h; simp at h
    | cons c0 cs =>
      rw [hp1] at h
      dsimp only at h
      split_ifs at h
      simp only [Option.some.injEq] at h
      subst h
      intro c hc
      rw [splitOnce_eq 58 x p.1 p.2 (by rw [hsp])]
      simp only [List.mem_append, List.mem_cons]
      exact Or.inr (Or.inr hc)

/-- Helper: the staged decomposition computed by urlsplit, packaged for
reasoning about its components· -/
theorem urlsplit_parts (url scheme0 : PyStr) (af : Bool) :
    ∃ sp0 np fp qp,
      sp0 = (match schemeSplit (cleanUrl url) with
        | some p => p
        | none => (cleanScheme scheme0, cleanUrl url)) ∧
      np = (if startsL [47, 47] sp0.2 then splitNetloc (sp0.2.drop 2) else ([], sp0.2)) ∧
      fp = (if af ∧ 35 ∈ np.2 then splitFirst 35 np.2 else (np.2, [])) ∧
      qp = (if 63 ∈ fp.1 then splitFirst 63 fp.1 else (fp.1, [])) ∧
      pyUrlsplit url scheme0 af = ⟨sp0.1, np.1, qp.1, qp.2, fp.2⟩ :=
  ⟨_, _, _, _, rfl, rfl, rfl, rfl, rfl⟩

/-- Helper: with fragments allowed, the path of urlsplit has no query or
fragment marker· -/
theorem urlsplit_path_noqf (url scheme0 : PyStr) :
    ∀ c, c ∈ (pyUrlsplit url scheme0 true).path → ¬ (c = 63 ∨ c = 35) := by
  obtain ⟨sp0, np, fp, qp, hsp0, hnp, hfp, hqp, heq⟩ := urlsplit_parts url scheme0 true
  rw [heq]
  dsimp only
  have h35 : (35 : Nat) ∉ fp.1 := by
    rw [hfp]
    split_ifs with hcond
    · exact splitFirst_fst_not_mem 35 np.2
    · intro hmem
      exact hcond ⟨rfl, hmem⟩
  have hsub : ∀ c, c ∈ qp.1 → c ∈ fp.1 := by
    rw [hqp]
    split_ifs with hcond
    · exact (splitFirst_mem 63 fp.1).1
    · intro c hc
      exact hc
  have h63 : (63 : Nat) ∉ qp.1 := by
    rw [hqp]
    split_ifs with hcond
    · exact splitFirst_fst_not_mem 63 fp.1
    · exact hcond
  intro c hc hbad
  rcases hbad with hbad | hbad
  · subst hbad
    exact h63 hc
  · subst hbad
    exact h35 (hsub 35 hc)

/-- Helper: netloc, path and query of urlsplit consist of characters of the
cleaned input· -/
theorem urlsplit_mem (url scheme0 : PyStr) (af : Bool) :
    (∀ c, c ∈ (pyUrlsplit url scheme0 af).netloc → c ∈ cleanUrl url) ∧
    (∀ c, c ∈ (pyUrlsplit url scheme0 af).path → c ∈ cleanUrl url) ∧
    (∀ c, c ∈ (pyUrlsplit url scheme0 af).query → c ∈ cleanUrl url) := by
  obtain ⟨sp0, np, fp, qp, hsp0, hnp, hfp, hqp, heq⟩ := urlsplit_parts url scheme0 af
  rw [heq]
  dsimp only
  have hsp2 : ∀ c, c ∈ sp0.2 → c ∈ cleanUrl url := by
    rw [hsp0]
    cases hss : schemeSplit (cleanUrl url) with
    | none => intro c hc; dsimp only at hc; exact hc
    | some sp =>
      intro c hc
      dsimp only at hc
      exact schemeSplit_snd_mem _ sp hss c hc
  have hnp1 : ∀ c, c ∈ np.1 → c ∈ cleanUrl url := by
    rw [hnp]
    split_ifs with hss47
    · intro c hc
      simp only [splitNetloc] at hc
      exact hsp2 c (List.drop_subset 2 _ ((List.takeWhile_sublist _).subset hc))
    · intro c hc
      simp at hc
  have hnp2 : ∀ c, c ∈ np.2 → c ∈ cleanUrl url := by
    rw [hnp]
    split_ifs with hss47
    · intro c hc
      simp only [splitNetloc] at hc
      exact hsp2 c (List.drop_subset 2 _ ((List.dropWhile_sublist _).subset hc))
    · intro c hc
      exact hsp2 c hc
  have hfp1 : ∀ c, c ∈ fp.1 → c ∈ cleanUrl url := by
    rw [hfp]
    split_ifs with h35
    · intro c hc
      exact hnp2 c ((splitFirst_mem 35 np.2).1 c hc)
    · intro c hc
      exact hnp2 c hc
  have hqp1 : ∀ c, c ∈ qp.1 → c ∈ cleanUrl url := by
    rw [hqp]
    split_ifs with h63
    · intro c hc
      exact hfp1 c ((splitFirst_mem 63 fp.1).1 c hc)
    · intro c hc
      exact hfp1 c hc
  have hqp2 : ∀ c, c ∈ qp.2 → c ∈ cleanUrl url := by
    rw [hqp]
    split_ifs with h63
    · intro c hc
      exact hfp1 c ((splitFirst_mem 63 fp.1).2 c hc)
    · intro c hc
      simp at hc
  exact ⟨hnp1, hqp1, hqp2⟩

/-- Helper: urlsplit returns its scheme lowercased when the default is empty· -/
theorem urlsplit_scheme_lower (url : PyStr) (af : Bool) :
    pyLower (pyUrlsplit url [] af).scheme = (pyUrlsplit url [] af).scheme := by
  obtain ⟨sp0, np, fp, qp, hsp0, hnp, hfp, hqp, heq⟩ := urlsplit_parts url [] af
  rw [heq]
  dsimp only
  rw [hsp0]
  cases hss : schemeSplit (cleanUrl url) with
  | none =>
    dsimp only
    rfl
  | some sp =>
    dsimp only
    unfold schemeSplit at hss
    cases hsp : splitOnce 58 (cleanUrl url) with
    | none => rw [hsp] at hss; simp at hss
    | some p =>
      rw [hsp] at hss
      dsimp only at hss
      cases hp1 : p.1 with
      | nil => rw [hp1] at hss; simp at hss
      | cons c0 cs =>
        rw [hp1] at hss
        dsimp only at hss
        split_ifs at hss
        simp only [Option.some.injEq] at hss
        rw [← hss]
        exact pyLower_idem _

/-- Helper: urlparse keeps urlsplit's scheme, netloc, query and fragment· -/
theorem urlparse_eq_split (url scheme0 : PyStr) (af : Bool) :
    (pyUrlparse url scheme0 af).scheme = (pyUrlsplit url scheme0 af).scheme ∧
    (pyUrlparse url scheme0 af).netloc = (pyUrlsplit url scheme0 af).netloc ∧
    (pyUrlparse url scheme0 af).query = (pyUrlsplit url scheme0 af).query ∧
    (pyUrlparse url scheme0 af).fragment = (pyUrlsplit url scheme0 af).fragment := by
  unfold pyUrlparse
  dsimp only
  split_ifs <;> exact ⟨rfl, rfl, rfl, rfl⟩

/-- Helper: characters of urlparse's path come from urlsplit's path· -/
theorem urlparse_path_mem (url scheme0 : PyStr) (af : Bool) :
    ∀ c, c ∈ (pyUrlparse url scheme0 af).path → c ∈ (pyUrlsplit url scheme0 af).path := by
  unfold pyUrlparse
  dsimp only
  split_ifs with hcond
  · intro c hc
    dsimp only at hc
    exact splitparams_fst_mem _ c hc
  · intro c hc
    exact hc


/-- Helper: takeWhile stops at an embedded failing element· -/
theorem takeWhile_append_mid (pr : Nat → Bool) (x : Nat) (hx : pr x = false) :
    ∀ (a b : PyStr), (a ++ x :: b).takeWhile pr = a.takeWhile pr := by
  intro a b
  induction a with
  | nil => simp [List.takeWhile_cons, hx]
  | cons y ys ih =>
    simp only [List.cons_append, List.takeWhile_cons]
    split_ifs
    · rw [ih]
    · rfl

/-- Helper: _splitparams leaves a path alone when its last segment has no
semicolon· -/
theorem splitparams_noop (x : PyStr) (h47 : 47 ∈ x)
    (hsemi : (59 : Nat) ∉ x.reverse.takeWhile (fun c => ¬ c = 47)) :
    pySplitparams x = (x, []) := by
  unfold pySplitparams
  rw [if_pos h47]
  obtain ⟨pp, hpp⟩ := splitOnce_isSome_of_mem 47 x.reverse (List.mem_reverse.mpr h47)
  rw [hpp]
  dsimp only
  have htw := splitOnce_fst_takeWhile 47 x.reverse pp hpp
  have h59 : (59 : Nat) ∉ pp.1.reverse := by
    rw [htw]
    simpa using hsemi
  rw [(splitOnce_eq_none 59 pp.1.reverse).mpr h59]

/-- Helper: _splitparams leaves a semicolon-free path alone· -/
theorem splitparams_noop_no59 (x : PyStr) (h59 : (59 : Nat) ∉ x) :
    pySplitparams x = (x, []) := by
  unfold pySplitparams
  split_ifs with h47
  · obtain ⟨pp, hpp⟩ := splitOnce_isSome_of_mem 47 x.reverse (List.mem_reverse.mpr h47)
    rw [hpp]
    dsimp only
    have hsub : (59 : Nat) ∉ pp.1.reverse := by
      intro hmem
      have htw := splitOnce_fst_takeWhile 47 x.reverse pp hpp
      rw [htw] at hmem
      simp only [List.mem_reverse] at hmem
      exact h59 (List.mem_reverse.mp ((List.takeWhile_sublist _).subset hmem))
    rw [(splitOnce_eq_none 59 pp.1.reverse).mpr hsub]
  · rw [(splitOnce_eq_none 59 x).mpr h59]

/-- Helper: prefixing a slash does not change the last segment· -/
theorem semiLast_cons47 (p : PyStr) :
    ((47 :: p).reverse).takeWhile (fun c => ¬ c = 47)
      = (p.reverse).takeWhile (fun c => ¬ c = 47) := by
  rw [List.reverse_cons]
  have h2 := takeWhile_append_mid (fun c => ¬ c = 47) 47 (by simp) p.reverse []
  simpa using h2

/-- Helper: the path left by _splitparams has no semicolon in its last
segment· -/
theorem splitparams_out_semiFree (x : PyStr) :
    (59 : Nat) ∉ ((pySplitparams x).1).reverse.takeWhile (fun c => ¬ c = 47) := by
  unfold pySplitparams
  split_ifs with h47
  · obtain ⟨pp, hpp⟩ := splitOnce_isSome_of_mem 47 x.reverse (List.mem_reverse.mpr h47)
    rw [hpp]
    dsimp only
    have htw := splitOnce_fst_takeWhile 47 x.reverse pp hpp
    cases hsq : splitOnce 59 pp.1.reverse with
    | none =>
      dsimp only
      rw [← htw]
      intro hmem
      have h2 := (splitOnce_eq_none 59 pp.1.reverse).mp hsq
      exact h2 (List.mem_reverse.mpr hmem)
    | some q =>
      dsimp only
      have hrev : (pp.2.reverse ++ 47 :: q.1).reverse = q.1.reverse ++ 47 :: pp.2 := by
        simp [List.reverse_append]
      rw [hrev, takeWhile_append_mid (fun c => ¬ c = 47) 47 (by simp)]
      intro hmem
      have h2 := (List.takeWhile_sublist _).subset hmem
      exact splitOnce_fst_not_mem 59 pp.1.reverse q hsq (List.mem_reverse.mp h2)
  · cases hsq : splitOnce 59 x with
    | none =>
      dsimp only
      intro hmem
      have h2 := (List.takeWhile_sublist _).subset hmem
      exact (splitOnce_eq_none 59 x).mp hsq (List.mem_reverse.mp h2)
    | some q =>
      dsimp only
      intro hmem
      have h2 := (List.takeWhile_sublist _).subset hmem
      exact splitOnce_fst_not_mem 59 x q hsq (List.mem_reverse.mp h2)

/-- Helper: for a scheme using params, urlparse's path has no semicolon in
its last segment· -/
theorem urlparse_path_semiFree (url sc : PyStr) (af : Bool)
    (hsch : (pyUrlsplit url sc af).scheme ∈ usesParams) :
    (59 : Nat) ∉ ((pyUrlparse url sc af).path).reverse.takeWhile (fun c => ¬ c = 47) := by
  unfold pyUrlparse
  dsimp only
  split_ifs with hcond
  · exact splitparams_out_semiFree _
  · have h59 : (59 : Nat) ∉ (pyUrlsplit url sc af).path := by
      intro hmem
      exact hcond ⟨hsch, hmem⟩
    intro hmem
    have h2 := (List.takeWhile_sublist _).subset hmem
    exact h59 (List.mem_reverse.mp h2)


/-- Helper: scheme characters exclude the separators and control characters
of interest· -/
theorem isSchemeChar_facts (c : Nat) (h : isSchemeChar c = true) :
    ¬ c = 58 ∧ ¬ c ≤ 32 ∧ ¬ (c = 9 ∨ c = 13 ∨ c = 10) := by
  simp only [isSchemeChar, isAsciiAlphaCode, isDigitCode, Bool.or_eq_true,
    decide_eq_true_eq] at h
  omega

/-- Helper: urlsplit of a canonical absolute URL recovers its components· -/
theorem urlsplit_canonical (c0 : Nat) (cs h p0 q scheme0 : PyStr)
    (hal : isAsciiAlphaCode c0 = true)
    (hsc : (c0 :: cs).all isSchemeChar = true)
    (hlow : pyLower (c0 :: cs) = c0 :: cs)
    (hh : ∀ c, c ∈ h → netlocDelim c = false)
    (hhb : ∀ c, c ∈ h → ¬ (c = 9 ∨ c = 13 ∨ c = 10))
    (hpc : ∀ c, c ∈ p0 → ¬ (c = 63 ∨ c = 35 ∨ c = 9 ∨ c = 13 ∨ c = 10))
    (hqc : ∀ c, c ∈ q → ¬ (c = 35 ∨ c = 9 ∨ c = 13 ∨ c = 10)) :
    pyUrlsplit ((c0 :: cs) ++ 58 :: 47 :: 47 ::
        (h ++ 47 :: (p0 ++ (if q = [] then [] else 63 :: q)))) scheme0 true
      = ⟨c0 :: cs, h, 47 :: p0, q, []⟩ := by
  have hscheme : ∀ c, c ∈ c0 :: cs → isSchemeChar c = true := by
    intro c hc
    exact List.all_eq_true.mp hsc c hc
  have h58 : (58 : Nat) ∉ c0 :: cs := by
    intro hmem
    exact (isSchemeChar_facts 58 (hscheme 58 hmem)).1 rfl
  have hc0gt : ¬ c0 ≤ 32 :=
    (isSchemeChar_facts c0 (hscheme c0 (List.mem_cons_self _ _))).2.1
  have hqtail : ∀ c, c ∈ (if q = [] then [] else 63 :: q) →
      ¬ (c = 35 ∨ c = 9 ∨ c = 13 ∨ c = 10) := by
    split_ifs with hq
    · intro c hc
      simp at hc
    · intro c hc
      rcases List.mem_cons.mp hc with hc | hc
      · omega
      · exact hqc c hc
  have hbadall : ∀ c, c ∈ (c0 :: cs) ++ 58 :: 47 :: 47 ::
      (h ++ 47 :: (p0 ++ (if q = [] then [] else 63 :: q))) →
      ¬ (c = 9 ∨ c = 13 ∨ c = 10) := by
    intro c hc
    rcases List.mem_append.mp hc with hc | hc
    · exact (isSchemeChar_facts c (hscheme c hc)).2.2
    · rcases List.mem_cons.mp hc with hc | hc
      · omega
      · rcases List.mem_cons.mp hc with hc | hc
        · omega
        · rcases List.mem_cons.mp hc with hc | hc
          · omega
          · rcases List.mem_append.mp hc with hc | hc
            · exact hhb c hc
            · rcases List.mem_cons.mp hc with hc | hc
              · omega
              · rcases List.mem_append.mp hc with hc | hc
                · have h2 := hpc c hc
                  omega
                · have h2 := hqtail c hc
                  omega
  have hclean : cleanUrl ((c0 :: cs) ++ 58 :: 47 :: 47 ::
      (h ++ 47 :: (p0 ++ (if q = [] then [] else 63 :: q))))
      = (c0 :: cs) ++ 58 :: 47 :: 47 ::
        (h ++ 47 :: (p0 ++ (if q = [] then [] else 63 :: q))) := by
    rw [List.cons_append]
    exact cleanUrl_eq_self c0 _ hc0gt (by rw [← List.cons_append]; exact hbadall)
  have hss : schemeSplit (cleanUrl ((c0 :: cs) ++ 58 :: 47 :: 47 ::
      (h ++ 47 :: (p0 ++ (if q = [] then [] else 63 :: q)))))
      = some (c0 :: cs, 47 :: 47 :: (h ++ 47 :: (p0 ++ (if q = [] then [] else 63 :: q)))) := by
    rw [hclean]
    unfold schemeSplit
    rw [splitOnce_app 58 _ _ h58]
    dsimp only
    rw [if_pos ⟨hal, hsc⟩]
    rw [hlow]
  obtain ⟨sp0, np, fp, qp, hsp0, hnp, hfp, hqp, heq⟩ :=
    urlsplit_parts ((c0 :: cs) ++ 58 :: 47 :: 47 ::
      (h ++ 47 :: (p0 ++ (if q = [] then [] else 63 :: q)))) scheme0 true
  rw [hss] at hsp0
  dsimp only at hsp0
  rw [hsp0] at hnp
  dsimp only at hnp
  rw [if_pos (by simp [startsL])] at hnp
  have hdrop : (47 :: 47 :: (h ++ 47 :: (p0 ++ (if q = [] then [] else 63 :: q)))).drop 2
      = h ++ 47 :: (p0 ++ (if q = [] then [] else 63 :: q)) := rfl
  rw [hdrop] at hnp
  have hsplitn : splitNetloc (h ++ 47 :: (p0 ++ (if q = [] then [] else 63 :: q)))
      = (h, 47 :: (p0 ++ (if q = [] then [] else 63 :: q))) := by
    unfold splitNetloc
    have hstop := takeWhile_append_stop (fun c => ¬ netlocDelim c = true) h 47
      (p0 ++ (if q = [] then [] else 63 :: q))
      (fun c hc => by simp [hh c hc]) (by simp [netlocDelim])
    rw [hstop.1, hstop.2]
  rw [hsplitn] at hnp
  rw [hnp] at hfp
  dsimp only at hfp
  have h35 : (35 : Nat) ∉ 47 :: (p0 ++ (if q = [] then [] else 63 :: q)) := by
    intro hmem
    rcases List.mem_cons.mp hmem with hc | hc
    · omega
    · rcases List.mem_append.mp hc with hc | hc
      · exact hpc 35 hc (by omega)
      · exact hqtail 35 hc (by omega)
  rw [if_neg (by intro hcond; exact h35 hcond.2)] at hfp
  rw [hfp] at hqp
  dsimp only at hqp
  have h63p : (63 : Nat) ∉ 47 :: p0 := by
    intro hmem
    rcases List.mem_cons.mp hmem with hc | hc
    · omega
    · exact hpc 63 hc (by omega)
  by_cases hq : q = []
  · subst hq
    rw [if_neg (by simpa using h63p)] at hqp
    rw [heq, hsp0, hnp, hfp, hqp]
    simp
  · rw [if_neg hq] at hqp
    have hq63mem : (63 : Nat) ∈ 47 :: (p0 ++ 63 :: q) := by
      simp
    rw [if_pos hq63mem] at hqp
    have hqsplit : splitFirst 63 (47 :: (p0 ++ 63 :: q)) = (47 :: p0, q) := by
      unfold splitFirst
      have happ : 47 :: (p0 ++ 63 :: q) = (47 :: p0) ++ 63 :: q := by simp
      rw [happ, splitOnce_app 63 _ _ h63p]
    rw [hqsplit] at hqp
    rw [heq, hsp0, hnp, hfp, hqp]

/-- Helper: urlparse of a canonical absolute URL recovers its components with
empty params· -/
theorem urlparse_canonical (c0 : Nat) (cs h p0 q scheme0 : PyStr)
    (hal : isAsciiAlphaCode c0 = true)
    (hsc : (c0 :: cs).all isSchemeChar = true)
    (hlow : pyLower (c0 :: cs) = c0 :: cs)
    (hh : ∀ c, c ∈ h → netlocDelim c = false)
    (hhb : ∀ c, c ∈ h → ¬ (c = 9 ∨ c = 13 ∨ c = 10))
    (hpc : ∀ c, c ∈ p0 → ¬ (c = 63 ∨ c = 35 ∨ c = 9 ∨ c = 13 ∨ c = 10))
    (hqc : ∀ c, c ∈ q → ¬ (c = 35 ∨ c = 9 ∨ c = 13 ∨ c = 10))
    (hsemi : (59 : Nat) ∉ ((47 :: p0).reverse).takeWhile (fun c => ¬ c = 47)) :
    pyUrlparse ((c0 :: cs) ++ 58 :: 47 :: 47 ::
        (h ++ 47 :: (p0 ++ (if q = [] then [] else 63 :: q)))) scheme0 true
      = ⟨c0 :: cs, h, 47 :: p0, [], q, []⟩ := by
  unfold pyUrlparse
  rw [urlsplit_canonical c0 cs h p0 q scheme0 hal hsc hlow hh hhb hpc hqc]
  dsimp only
  split_ifs with hcond
  · rw [splitparams_noop (47 :: p0) (List.mem_cons_self _ _) hsemi]
  · rfl


/-- Helper: a true startswith-slash exposes the head. -/
theorem startsL_slash (p : PyStr) (h : startsL [47] p = true) : p = 47 :: p.tail := by
  cases p with
  | nil => simp [startsL] at h
  | cons x t =>
    simp only [startsL, List.length_cons, List.length_nil, List.take_succ_cons,
      List.take_zero] at h
    have h2 : x = 47 := by
      simp only [beq_iff_eq, List.cons.injEq, and_true] at h
      exact h
    rw [h2]
    rfl

/-- Helper: urlunparse of a scheme, host, nonempty path and query lays out
the canonical absolute URL string. -/
theorem urlunparse_shape (s h p q : PyStr) (hs : s ≠ []) (hh : h ≠ []) (hp : p ≠ []) :
    pyUrlunparse s h p [] q []
      = s ++ 58 :: 47 :: 47 :: (h ++ 47 ::
          ((if startsL [47] p then p.tail else p) ++ (if q = [] then [] else 63 :: q))) := by
  cases p with
  | nil => exact absurd rfl hp
  | cons x t =>
    unfold pyUrlunparse pyUrlunsplit
    by_cases hx : x = 47
    · subst hx
      have hsl : startsL [47] (47 :: t) = true := by rfl
      simp only [ne_eq, not_true_eq_false, if_false, hsl, if_true, List.tail_cons,
        not_false_eq_true, and_false, List.cons_ne_nil, hh, hs, true_or]
      by_cases hq : q = []
      · subst hq
        simp
      · simp only [hq, not_false_eq_true, if_true, if_false]
        simp [List.append_assoc]
    · have hsl : startsL [47] (x :: t) = false := startsL_cons_false x 47 t [] hx
      simp only [ne_eq, not_true_eq_false, if_false, hsl, Bool.false_eq_true, if_true,
        not_false_eq_true, and_false, List.cons_ne_nil, hh, hs, true_or, and_true]
      by_cases hq : q = []
      · subst hq
        simp
      · simp only [hq, not_false_eq_true, if_true, if_false]
        simp [List.append_assoc]


/-- Helper: joining the base against a canonical absolute URL returns the
URL unchanged· -/
theorem urljoin_canonical (U : PyStr) (c0 : Nat) (cs h p0 q : PyStr)
    (hU : U ≠ [])
    (hal : isAsciiAlphaCode c0 = true)
    (hsc : (c0 :: cs).all isSchemeChar = true)
    (hlow : pyLower (c0 :: cs) = c0 :: cs)
    (hh : ∀ c, c ∈ h → netlocDelim c = false)
    (hhb : ∀ c, c ∈ h → ¬ (c = 9 ∨ c = 13 ∨ c = 10))
    (hpc : ∀ c, c ∈ p0 → ¬ (c = 63 ∨ c = 35 ∨ c = 9 ∨ c = 13 ∨ c = 10))
    (hqc : ∀ c, c ∈ q → ¬ (c = 35 ∨ c = 9 ∨ c = 13 ∨ c = 10))
    (hsemi : (59 : Nat) ∉ ((47 :: p0).reverse).takeWhile (fun c => ¬ c = 47))
    (hnet : (c0 :: cs) ∈ usesNetloc)
    (hhne : h ≠ []) :
    pyUrljoin U ((c0 :: cs) ++ 58 :: 47 :: 47 ::
        (h ++ 47 :: (p0 ++ (if q = [] then [] else 63 :: q))))
      = (c0 :: cs) ++ 58 :: 47 :: 47 ::
        (h ++ 47 :: (p0 ++ (if q = [] then [] else 63 :: q))) := by
  unfold pyUrljoin
  rw [if_neg hU]
  rw [if_neg (by simp)]
  dsimp only
  rw [urlparse_canonical c0 cs h p0 q _ hal hsc hlow hh hhb hpc hqc hsemi]
  dsimp only
  by_cases hrel : ¬ (c0 :: cs) = (pyUrlparse U [] true).scheme ∨
      (c0 :: cs) ∉ usesRelative
  · rw [if_pos hrel]
  · rw [if_neg hrel]
    rw [if_pos ⟨hnet, hhne⟩]
    rw [urlunparse_shape (c0 :: cs) h (47 :: p0) q (by simp) hhne (by simp)]
    have hsl : startsL [47] (47 :: p0) = true := rfl
    rw [hsl]
    simp


/-- Helper: a successful first normalization pass determines the output as an
urlunparse of the lowered and stripped components, and the input is nonempty· -/
theorem normalize_pass1 (U N : PyStr)
    (h1 : LinkDetector.normalize_url_advanced U U = some N) :
    N = pyUrlunparse
          (pyLower (pyUrlparse (pyUrljoin U U) [] true).scheme)
          (if (pyLower (pyUrlparse (pyUrljoin U U) [] true).scheme = str2l "http" ∧
                endsL (str2l ":80") (pyLower (pyUrlparse (pyUrljoin U U) [] true).netloc)) ∨
              (pyLower (pyUrlparse (pyUrljoin U U) [] true).scheme = str2l "https" ∧
                endsL (str2l ":443") (pyLower (pyUrlparse (pyUrljoin U U) [] true).netloc))
           then beforeLast 58 (pyLower (pyUrlparse (pyUrljoin U U) [] true).netloc)
           else pyLower (pyUrlparse (pyUrljoin U U) [] true).netloc)
          (if (pyUrlparse (pyUrljoin U U) [] true).path = [] then [47]
           else (pyUrlparse (pyUrljoin U U) [] true).path)
          []
          (pyUrlencode (LinkDetector.sortedFiltered
            (parse_qs (pyUrlparse (pyUrljoin U U) [] true).query)))
          []
      ∧ U ≠ [] := by
  unfold LinkDetector.normalize_url_advanced at h1
  split_ifs at h1 with hrej
  refine ⟨?_, ?_⟩
  · simp only [Option.some.injEq] at h1
    exact h1.symm
  · intro hU
    exact hrej (Or.inl hU)

/-- Helper: a second normalization pass over a canonical absolute URL with a
lowercase host, a stripped port and a stable query returns it unchanged· -/
theorem canonical_second_pass (U : PyStr) (c0 : Nat) (cs h p0 X q : PyStr)
    (hqdef : q = pyUrlencode (LinkDetector.sortedFiltered (parse_qs X)))
    (hU : U ≠ [])
    (hal : isAsciiAlphaCode c0 = true)
    (hsc : (c0 :: cs).all isSchemeChar = true)
    (hlows : pyLower (c0 :: cs) = c0 :: cs)
    (hnd : ∀ c, c ∈ h → netlocDelim c = false)
    (hhb : ∀ c, c ∈ h → ¬ (c = 9 ∨ c = 13 ∨ c = 10))
    (hpc : ∀ c, c ∈ p0 → ¬ (c = 63 ∨ c = 35 ∨ c = 9 ∨ c = 13 ∨ c = 10))
    (hsemi : (59 : Nat) ∉ ((47 :: p0).reverse).takeWhile (fun c => ¬ c = 47))
    (hnet : (c0 :: cs) ∈ usesNetloc)
    (hhne : h ≠ [])
    (hlowh : pyLower h = h)
    (hfix : ¬ (((c0 :: cs) = str2l "http" ∧ endsL (str2l ":80") h) ∨
                 ((c0 :: cs) = str2l "https" ∧ endsL (str2l ":443") h)))
    (hXvalid : ∀ c, c ∈ X → validChar c = true)
    (hrej : LinkDetector.rejectedStart ((c0 :: cs) ++ 58 :: 47 :: 47 ::
        (h ++ 47 :: (p0 ++ (if q = [] then [] else 63 :: q)))) = false) :
    LinkDetector.normalize_url_advanced
      ((c0 :: cs) ++ 58 :: 47 :: 47 ::
        (h ++ 47 :: (p0 ++ (if q = [] then [] else 63 :: q)))) U
      = some ((c0 :: cs) ++ 58 :: 47 :: 47 ::
        (h ++ 47 :: (p0 ++ (if q = [] then [] else 63 :: q)))) := by
  have hqc : ∀ c, c ∈ q → ¬ (c = 35 ∨ c = 9 ∨ c = 13 ∨ c = 10) := by
    intro c hc
    rw [hqdef] at hc
    have halph := pyUrlencode_mem (LinkDetector.sortedFiltered (parse_qs X))
      (fun kv hkv => ⟨((sortedFiltered_facts X hXvalid).1 kv hkv).1,
        fun v hv c2 hc2 => (((sortedFiltered_facts X hXvalid).1 kv hkv).2.2 v hv).2 c2 hc2⟩)
      c hc
    rcases halph with halph | halph | halph
    · have h2 := alphabet_not_special c halph
      omega
    · omega
    · omega
  unfold LinkDetector.normalize_url_advanced
  rw [if_neg (by
    intro hcon
    rcases hcon with hcon | hcon
    · simp at hcon
    · rw [hrej] at hcon
      exact absurd hcon (by simp))]
  rw [urljoin_canonical U c0 cs h p0 q hU hal hsc hlows hnd hhb hpc hqc hsemi hnet hhne]
  dsimp only
  rw [urlparse_canonical c0 cs h p0 q [] hal hsc hlows hnd hhb hpc hqc hsemi]
  dsimp only
  rw [hlows, hlowh]
  rw [if_neg hfix]
  rw [hqdef, encoded_query_stable X hXvalid, ← hqdef]
  rw [if_neg (by simp)]
  rw [urlunparse_shape (c0 :: cs) h (47 :: p0) q (by simp) hhne (by simp)]
  have hsl : startsL [47] (47 :: p0) = true := rfl
  rw [hsl]
  simp


/-- Helper: a URL beginning with the letter h is not rejected by the
normalizers' prefix filter. -/
theorem rejectedStart_h (t : PyStr) : LinkDetector.rejectedStart (104 :: t) = false := by
  unfold LinkDetector.rejectedStart
  rw [show str2l "#" = (35 : Nat) :: [] from rfl]
  rw [show str2l "javascript:" = (106 : Nat) :: str2l "avascript:" from rfl]
  rw [show str2l "mailto:" = (109 : Nat) :: str2l "ailto:" from rfl]
  rw [show str2l "tel:" = (116 : Nat) :: str2l "el:" from rfl]
  rw [startsL_cons_false 104 35 t [] (by omega)]
  rw [startsL_cons_false 104 106 t (str2l "avascript:") (by omega)]
  rw [startsL_cons_false 104 109 t (str2l "ailto:") (by omega)]
  rw [startsL_cons_false 104 116 t (str2l "el:") (by omega)]
  rfl


/-- C4 (amended): the canonicalizer is idempotent on http/https URLs with a
host once its default-port strip has reached a fixpoint: if the first pass on
U yields N, the lowered scheme s of the joined URL is http or https, the
lowered and port-stripped netloc h is nonempty and no longer carries a
default port for s, and the query of the first parse is encodable, then a
second pass on N (with base U) returns N unchanged· -/
theorem C4_canonicalize_idempotent_amended (U N s h : PyStr)
    (h1 : LinkDetector.normalize_url_advanced U U = some N)
    (hsdef : s = pyLower (pyUrlparse (pyUrljoin U U) [] true).scheme)
    (hhdef : h = (if (s = str2l "http" ∧
          endsL (str2l ":80") (pyLower (pyUrlparse (pyUrljoin U U) [] true).netloc)) ∨
        (s = str2l "https" ∧
          endsL (str2l ":443") (pyLower (pyUrlparse (pyUrljoin U U) [] true).netloc))
      then beforeLast 58 (pyLower (pyUrlparse (pyUrljoin U U) [] true).netloc)
      else pyLower (pyUrlparse (pyUrljoin U U) [] true).netloc))
    (hs : s = str2l "http" ∨ s = str2l "https")
    (hh : h ≠ [])
    (hfix : ¬ ((s = str2l "http" ∧ endsL (str2l ":80") h) ∨
                 (s = str2l "https" ∧ endsL (str2l ":443") h)))
    (hvq : ∀ c, c ∈ (pyUrlparse (pyUrljoin U U) [] true).query → validChar c = true) :
    LinkDetector.normalize_url_advanced N U = some N := by
  obtain ⟨hN, hU⟩ := normalize_pass1 U N h1
  rw [← hsdef] at hN
  rw [← hhdef] at hN
  have hPslow : pyLower (pyUrlparse (pyUrljoin U U) [] true).scheme
      = (pyUrlparse (pyUrljoin U U) [] true).scheme := by
    rw [(urlparse_eq_split (pyUrljoin U U) [] true).1]
    exact urlsplit_scheme_lower (pyUrljoin U U) true
  have hPs : (pyUrlparse (pyUrljoin U U) [] true).scheme = s := by
    rw [hsdef, hPslow]
  have hnl0d : ∀ c, c ∈ pyLower (pyUrlparse (pyUrljoin U U) [] true).netloc →
      netlocDelim c = false := by
    intro c hc
    obtain ⟨c0x, hc0x, hlc⟩ := pyLower_mem _ c hc
    cases hdel : netlocDelim c with
    | false => rfl
    | true =>
      have hcval : c = 47 ∨ c = 63 ∨ c = 35 := by
        simp only [netlocDelim, Bool.or_eq_true, decide_eq_true_eq] at hdel
        tauto
      have hc0c : c0x = c := lowerChar_eq_low c0x c (by omega) hlc
      subst hc0c
      have hnod := urlsplit_netloc_nodelim (pyUrljoin U U) [] true c0x
        (by rw [← (urlparse_eq_split (pyUrljoin U U) [] true).2.1]; exact hc0x)
      rw [hdel] at hnod
      exact absurd hnod (by simp)
  have hnl0b : ∀ c, c ∈ pyLower (pyUrlparse (pyUrljoin U U) [] true).netloc →
      ¬ (c = 9 ∨ c = 13 ∨ c = 10) := by
    intro c hc hbad
    obtain ⟨c0x, hc0x, hlc⟩ := pyLower_mem _ c hc
    have hc0c : c0x = c := lowerChar_eq_low c0x c (by omega) hlc
    subst hc0c
    have hmem2 : c0x ∈ cleanUrl (pyUrljoin U U) := (urlsplit_mem (pyUrljoin U U) [] true).1 c0x
      (by rw [← (urlparse_eq_split (pyUrljoin U U) [] true).2.1]; exact hc0x)
    exact cleanUrl_no_bad _ c0x hmem2 hbad
  have hnd : ∀ c, c ∈ h → netlocDelim c = false := by
    rw [hhdef]
    split_ifs
    · intro c hc
      exact hnl0d c (beforeLast_mem 58 _ c hc)
    · exact hnl0d
  have hhb : ∀ c, c ∈ h → ¬ (c = 9 ∨ c = 13 ∨ c = 10) := by
    rw [hhdef]
    split_ifs
    · intro c hc
      exact hnl0b c (beforeLast_mem 58 _ c hc)
    · exact hnl0b
  have hlowh : pyLower h = h := by
    rw [hhdef]
    split_ifs
    · exact beforeLast_lower 58 _ (pyLower_idem _)
    · exact pyLower_idem _
  have hpc : ∀ c, c ∈ (if (pyUrlparse (pyUrljoin U U) [] true).path = [] then ([47] : PyStr)
      else (pyUrlparse (pyUrljoin U U) [] true).path) →
      ¬ (c = 63 ∨ c = 35 ∨ c = 9 ∨ c = 13 ∨ c = 10) := by
    split_ifs with hemp
    · intro c hc
      simp only [List.mem_singleton] at hc
      omega
    · intro c hc
      have hqf := urlsplit_path_noqf (pyUrljoin U U) [] c
        (urlparse_path_mem (pyUrljoin U U) [] true c hc)
      have hbad := cleanUrl_no_bad (pyUrljoin U U) c ((urlsplit_mem (pyUrljoin U U) [] true).2.1 c
        (urlparse_path_mem (pyUrljoin U U) [] true c hc))
      omega
  have hpne : (if (pyUrlparse (pyUrljoin U U) [] true).path = [] then ([47] : PyStr)
      else (pyUrlparse (pyUrljoin U U) [] true).path) ≠ [] := by
    split_ifs with hemp
    · simp
    · exact hemp
  have hFp : (59 : Nat) ∉ ((if (pyUrlparse (pyUrljoin U U) [] true).path = []
      then ([47] : PyStr)
      else (pyUrlparse (pyUrljoin U U) [] true).path).reverse).takeWhile (fun c => ¬ c = 47) := by
    split_ifs with hemp
    · decide
    · have hsch : (pyUrlsplit (pyUrljoin U U) [] true).scheme ∈ usesParams := by
        have h2 : (pyUrlsplit (pyUrljoin U U) [] true).scheme = s := by
          rw [← (urlparse_eq_split (pyUrljoin U U) [] true).1]
          exact hPs
        rw [h2]
        rcases hs with h3 | h3 <;> rw [h3] <;> decide
      exact urlparse_path_semiFree (pyUrljoin U U) [] true hsch
  have hsne : s ≠ [] := by
    rcases hs with h2 | h2 <;> rw [h2] <;> decide
  rw [urlunparse_shape s h _ _ hsne hh hpne] at hN
  set pp : PyStr := (if (pyUrlparse (pyUrljoin U U) [] true).path = [] then ([47] : PyStr)
      else (pyUrlparse (pyUrljoin U U) [] true).path) with hppd
  have hp0c : ∀ c, c ∈ (if startsL [47] pp then pp.tail else pp) →
      ¬ (c = 63 ∨ c = 35 ∨ c = 9 ∨ c = 13 ∨ c = 10) := by
    split_ifs with hsl
    · intro c hc
      exact hpc c ((List.tail_sublist pp).subset hc)
    · exact hpc
  have hsemi2 : (59 : Nat) ∉
      ((47 :: (if startsL [47] pp then pp.tail else pp)).reverse).takeWhile
        (fun c => ¬ c = 47) := by
    split_ifs with hsl
    · rw [← startsL_slash pp hsl]
      exact hFp
    · rw [semiLast_cons47 pp]
      exact hFp
  set p0 : PyStr := (if startsL [47] pp then pp.tail else pp) with hp0d
  rcases hs with hcase | hcase
  · subst hcase
    rw [show str2l "http" = (104 : Nat) :: str2l "ttp" from rfl] at hN
    rw [hN]
    refine canonical_second_pass U 104 (str2l "ttp") h p0
      (pyUrlparse (pyUrljoin U U) [] true).query _ rfl hU (by decide) (by decide) (by decide)
      hnd hhb hp0c hsemi2 (by decide) hh hlowh ?_ hvq ?_
    · intro hcon
      rcases hcon with ⟨hc1, he⟩ | ⟨hc1, he⟩
      · exact hfix (Or.inl ⟨rfl, he⟩)
      · exact absurd hc1 (by decide)
    · rw [List.cons_append]
      exact rejectedStart_h _
  · subst hcase
    rw [show str2l "https" = (104 : Nat) :: str2l "ttps" from rfl] at hN
    rw [hN]
    refine canonical_second_pass U 104 (str2l "ttps") h p0
      (pyUrlparse (pyUrljoin U U) [] true).query _ rfl hU (by decide) (by decide) (by decide)
      hnd hhb hp0c hsemi2 (by decide) hh hlowh ?_ hvq ?_
    · intro hcon
      rcases hcon with ⟨hc1, he⟩ | ⟨hc1, he⟩
      · exact absurd hc1 (by decide)
      · exact hfix (Or.inr ⟨rfl, he⟩)
    · rw [List.cons_append]
      exact rejectedStart_h _


/-- C4 (counterexample): the canonicalizer is not idempotent as claimed: for
the scheme-relative URL 'a/b' each pass prepends another copy of the base
directory, and for 'http://h:80:80/p' the default-port strip removes one
':80' suffix per pass, so a second application changes the result of the
first. -/
theorem C4_canonicalize_not_idempotent :
    LinkDetector.normalize_url_advanced (str2l "a/b") (str2l "a/b")
      = some (str2l "a/a/b") ∧
    LinkDetector.normalize_url_advanced (str2l "a/a/b") (str2l "a/b")
      = some (str2l "a/a/a/b") ∧
    str2l "a/a/a/b" ≠ str2l "a/a/b" ∧
    LinkDetector.normalize_url_advanced (str2l "http://h:80:80/p") (str2l "http://h:80:80/p")
      = some (str2l "http://h:80/p") ∧
    LinkDetector.normalize_url_advanced (str2l "http://h:80/p") (str2l "http://h:80:80/p")
      = some (str2l "http://h/p") ∧
    str2l "http://h/p" ≠ str2l "http://h:80/p" := by
  decide

/-- Witness for the amended C4 at a concrete http URL with a query. -/
theorem C4_canonicalize_idempotent_amended_witness :
    (LinkDetector.normalize_url_advanced (str2l "http://h/p?b=2&a=1")
        (str2l "http://h/p?b=2&a=1") = some (str2l "http://h/p?a=1&b=2")) ∧
    LinkDetector.normalize_url_advanced (str2l "http://h/p?a=1&b=2")
        (str2l "http://h/p?b=2&a=1") = some (str2l "http://h/p?a=1&b=2") :=
  ⟨by decide, C4_canonicalize_idempotent_amended (str2l "http://h/p?b=2&a=1")
      (str2l "http://h/p?a=1&b=2") (str2l "http") (str2l "h")
      (by decide) (by decide) (by decide) (by decide) (by decide) (by decide) (by decide)⟩

end Crawl
